import Mathlib

/-!
# Quantized-descriptor distance engine, SSE4.1 backend

A shallow embedding of `src/Simd/SimdSse41DescrInt.cpp` and theorems about it.

Modelling conventions.

* `size_t` values are natural numbers.  Every count, index and byte offset that
  occurs is bounded by the length of an array that exists in memory, so no
  `size_t` operation of the file wraps.
* A pointer is a byte address.  Descriptor bytes live in a byte memory `Mem`;
  the four 32-bit lanes of a descriptor header are read from it little-endian.
  A float that is only copied is represented by its 32-bit pattern.
* An array of descriptor pointers (`const uint8_t* const*`) is a function from
  the index to the 64-bit pointer stored there (`PtrArr`); `A + i` is `A.shift i`.
  The function is total: an index past the logical length stands for whatever
  the process has stored behind the array.
* A function that stores into a caller-supplied buffer returns the list of its
  stores, in program order, as `(index, value)` pairs relative to the pointer it
  was given.  `applyWrites` replays such a list on the previous contents.  The
  output buffer never overlaps the inputs.
* The bound primitives that are declared in other files (macro-kernels, data
  unpackers, `Base::DescrInt`, cache sizes) are parameters.
* A `for` loop is run with fuel (`forLoop`): `none` means the fuel ran out.  A
  theorem that a function returns says that it does so with any fuel above the
  bounds of its loops.  `none` with every fuel says that the loop as written does
  not end.  Where each of its iterations invokes a bound primitive the call then
  never returns.  Where its iterations are idle (`IdleIteration`: no store, no
  call, the counter does not advance) C++ leaves the behaviour undefined, a build
  may hang or skip the loop, and `none` is not to be read as a hang: for such a
  call nothing is promised either way.  A division by zero (`sizeDiv`) has no
  result either.
* Reads never fault: a read past the end of an array yields whatever is stored
  there.
-/

namespace Simd

/-! ## Helpers of `SimdMemory.h` / `SimdMath.h` -/

/-- Modelled from the spec: `AlignLoAny(size, align)`, declared in `SimdMemory.h`,
rounds `size` down to a multiple of `align` ("rounded down to a multiple of the
micro-tile size"); the micro-tile sizes it is called with are positive constants. -/
def AlignLoAny (size align : Nat) : Nat := size / align * align

/-- Modelled from the spec: `AlignLo(size, align)`, declared in `SimdMemory.h`,
rounds `size` down to a multiple of the power of two `align` (the block width 4 of
the blocked path). -/
def AlignLo (size align : Nat) : Nat := size - size % align

/-- Modelled from the spec: `AlignHi(size, align)`, declared in `SimdMemory.h`,
rounds `size` up to a multiple of the power of two `align`. -/
def AlignHi (size align : Nat) : Nat := (size + align - 1) / align * align

/-- The template `Simd::Min(a, b)` at `size_t`: `a < b ? a : b`. -/
def Min (a b : Nat) : Nat := if a < b then a else b

/-- The quotient `a / b` of two `size_t` values as the machine computes it: a
division by zero traps, and the function that performs it does not return. -/
def sizeDiv (a b : Nat) : Option Nat := if b = 0 then none else some (a / b)

/-! ## Memory, pointer arrays and store lists -/

/-- Byte memory holding the encoded descriptors: address to byte. -/
abbrev Mem := Nat → Nat

/-- An array of descriptor pointers: index to the 64-bit pointer stored there. -/
abbrev PtrArr := Nat → Nat

/-- Pointer arithmetic `A + i` on an array of pointers. -/
def PtrArr.shift (A : PtrArr) (i : Nat) : PtrArr := fun r => A (i + r)

/-- The 32-bit word stored little-endian at byte address `a`. -/
def load32 (mem : Mem) (a : Nat) : Nat :=
  mem a % 256 + 256 * (mem (a + 1) % 256) + 65536 * (mem (a + 2) % 256)
    + 16777216 * (mem (a + 3) % 256)

/-- The `k`-th 32-bit float (as its bit pattern) of the 16-byte header at the
start of the descriptor at address `p`: lane `k` of `_mm_loadu_ps((float*)p)`. -/
def header (mem : Mem) (p k : Nat) : Nat := load32 mem (p + 4 * k)

/-- A list of stores `(index, value)` in program order. -/
abbrev Writes (V : Type) := List (Nat × V)

/-- Replays a store list on the previous contents of a buffer. -/
def applyWrites {V : Type} (ws : Writes V) (init : Nat → V) : Nat → V :=
  ws.foldl (fun f w => fun k => if k = w.1 then w.2 else f k) init

/-- The stores of a `dM × dN` block with row stride `stride`: cell `(r, c)` goes
to index `r * stride + c` and receives `g r c`; rows in order, columns in order. -/
def cells {V : Type} (dM dN stride : Nat) (g : Nat → Nat → V) : Writes V :=
  (List.range dM).flatMap (fun r => (List.range dN).map (fun c => (r * stride + c, g r c)))

/-- Moves a store list to the sub-buffer that starts at `off`. -/
def offsetWrites {V : Type} (off : Nat) (ws : Writes V) : Writes V :=
  ws.map (fun w => (off + w.1, w.2))

/-! ## The `for` loop -/

/-- The loop `for (; i < bound; i += step) s = body(i, s)`, run for at most `fuel`
tests of the condition.  `none`: the fuel ran out, or the body did not return. -/
def forLoop {σ : Type} (bound step : Nat) (body : Nat → σ → Option σ) :
    Nat → Nat → σ → Option σ
  | 0, _, _ => none
  | fuel + 1, i, s =>
    if i < bound then
      (body i s).bind (fun s' => forLoop bound step body fuel (i + step) s')
    else some s

/-! ## SSE registers and intrinsics -/

/-- A 128-bit register seen as four 32-bit lanes, lane 0 lowest. -/
structure M128 (α : Type) where
  e0 : α
  e1 : α
  e2 : α
  e3 : α

/-- The intrinsic `_mm_set1_ps(x)`: all four lanes hold `x`. -/
def _mm_set1_ps {α : Type} (x : α) : M128 α := ⟨x, x, x, x⟩

/-- The intrinsic `_mm_loadu_ps(p + i)` / `_mm_loadu_si128`: four consecutive 32-bit
lanes of the float array `p`, from index `i`. -/
def _mm_loadu_ps {α : Type} (p : Nat → α) (i : Nat) : M128 α :=
  ⟨p i, p (i + 1), p (i + 2), p (i + 3)⟩

/-- The intrinsic `_mm_storeu_ps(dst + off, v)` / `_mm_storeu_si128`: the four stores. -/
def _mm_storeu_ps {α : Type} (off : Nat) (v : M128 α) : Writes α :=
  [(off, v.e0), (off + 1, v.e1), (off + 2, v.e2), (off + 3, v.e3)]

/-- The intrinsic `_mm_unpacklo_ps(a, b)`: `(a0, b0, a1, b1)`. -/
def _mm_unpacklo_ps {α : Type} (a b : M128 α) : M128 α := ⟨a.e0, b.e0, a.e1, b.e1⟩

/-- The intrinsic `_mm_unpackhi_ps(a, b)`: `(a2, b2, a3, b3)`. -/
def _mm_unpackhi_ps {α : Type} (a b : M128 α) : M128 α := ⟨a.e2, b.e2, a.e3, b.e3⟩

/-- The constant `FLT_MAX = (2^24 - 1) * 2^104`, in units of `2^-149`.
A finite `float` that is compared, not only copied, is the integer number of units
of `2^-149` it holds (every finite single-precision number is such a multiple), so
the order of floats is the order of `Int`; the two zeros coincide. -/
def FLT_MAX : Int := (2 ^ 24 - 1) * 2 ^ 253

/-- One lane of `MINPS`: `a < b ? a : b`. -/
def minps (a b : Int) : Int := if a < b then a else b

/-- One lane of `MAXPS`: `a > b ? a : b`. -/
def maxps (a b : Int) : Int := if a > b then a else b

/-- The intrinsic `_mm_min_ps(a, b)`, lane by lane. -/
def _mm_min_ps (a b : M128 Int) : M128 Int :=
  ⟨minps a.e0 b.e0, minps a.e1 b.e1, minps a.e2 b.e2, minps a.e3 b.e3⟩

/-- The intrinsic `_mm_max_ps(a, b)`, lane by lane. -/
def _mm_max_ps (a b : M128 Int) : M128 Int :=
  ⟨maxps a.e0 b.e0, maxps a.e1 b.e1, maxps a.e2 b.e2, maxps a.e3 b.e3⟩

/-- Modelled from the spec: `MinVal32f(src, dst)`, declared in `SimdExtract.h`,
is the final horizontal reduction of the running minimum ("reducing to scalars at
the end"): the least of the four lanes, folded pairwise with `MINPS`. -/
def MinVal32f (v : M128 Int) : Int := minps (minps v.e0 v.e2) (minps v.e1 v.e3)

/-- Modelled from the spec: `MaxVal32f(src, dst)`, declared in `SimdExtract.h`,
is the final horizontal reduction of the running maximum: the greatest of the four
lanes, folded pairwise with `MAXPS`. -/
def MaxVal32f (v : M128 Int) : Int := maxps (maxps v.e0 v.e2) (maxps v.e1 v.e3)

/-! ## `MinMax32f` -/

/-- The state of the loop of `MinMax32f`: the two accumulators, and the indices of
`src` read so far. -/
structure MinMaxState where
  min : M128 Int
  max : M128 Int
  reads : List Nat

/-- The outcome of `MinMax32f`: the two results, and the indices of `src` read. -/
structure MinMaxResult where
  min : Int
  max : Int
  reads : List Nat

/-- The body of the loop of `MinMax32f` at index `i`. -/
def MinMax32f.body (src : Nat → Int) (i : Nat) (st : MinMaxState) : MinMaxState :=
  let _src := _mm_loadu_ps src i
  { min := _mm_min_ps _src st.min, max := _mm_max_ps _src st.max,
    reads := st.reads ++ [i, i + 1, i + 2, i + 3] }

/-- The function `MinMax32f(src, size, min, max)`.  The `assert(size % 8 == 0)` is a
precondition of the theorems, not a branch of the function. -/
def MinMax32f (fuel : Nat) (src : Nat → Int) (size : Nat) : Option MinMaxResult :=
  let _min : M128 Int := _mm_set1_ps FLT_MAX
  let _max : M128 Int := _mm_set1_ps (-FLT_MAX)
  (forLoop size 4 (fun i st => some (MinMax32f.body src i st))
    fuel 0 { min := _min, max := _max, reads := [] }).map
    (fun st => { min := MinVal32f st.min, max := MaxVal32f st.max, reads := st.reads })

/-- Lane `l` of a register (`l < 4`). -/
def M128.lane {α : Type} (v : M128 α) : Nat → α
  | 0 => v.e0
  | 1 => v.e1
  | 2 => v.e2
  | _ => v.e3

/-- The scalar reference for `MinMax32f`, stated from the spec ("a scalar reference
implementation"): one pass over `src[0 .. size)` in index order that keeps a running
minimum, from `FLT_MAX`, and a running maximum, from `-FLT_MAX`. -/
def MinMax32fReference (src : Nat → Int) (size : Nat) : Int × Int :=
  (List.range size).foldl
    (fun (m : Int × Int) i => (minps (src i) m.1, maxps (src i) m.2)) (FLT_MAX, -FLT_MAX)

/-- A sample vector of 8 floats. -/
def sampleVector : Nat → Int := fun i => if i = 5 then -7 else if i = 2 then 40 else (i : Int)

/-! ## `MinMax16f` -/

/-- The intrinsic `_mm_loadl_epi64((__m128i*)(src + i))` on an array of 16-bit
values: the four halves `src[i .. i + 3]`, which fill the low 64 bits of the
register, in order. -/
def _mm_loadl_epi64 (src : Nat → Nat) (i : Nat) : M128 Nat :=
  ⟨src i % 65536, src (i + 1) % 65536, src (i + 2) % 65536, src (i + 3) % 65536⟩

/-- Modelled from the spec: `UnpackU16<0>(a)`, declared in `SimdUnpack.h`, widens
the four low 16-bit lanes of `a` to 32-bit lanes by zero extension, keeping their
order and values. -/
def UnpackU16 (v : M128 Nat) : M128 Nat := v

/-- Modelled from the spec: `Float16ToFloat32(v)`, declared in `SimdFloat16.h`,
converts each of the four lanes from the half-float it holds to the `float` of the
same value; `cvt` is that conversion of one half-float (a 16-bit pattern). -/
def Float16ToFloat32 (cvt : Nat → Int) (v : M128 Nat) : M128 Int :=
  ⟨cvt v.e0, cvt v.e1, cvt v.e2, cvt v.e3⟩

/-- The body of the loop of `MinMax16f` at index `i`. -/
def MinMax16f.body (cvt : Nat → Int) (src : Nat → Nat) (i : Nat) (st : MinMaxState) :
    MinMaxState :=
  let f16 := _mm_loadl_epi64 src i
  let _src := Float16ToFloat32 cvt (UnpackU16 f16)
  { min := _mm_min_ps _src st.min, max := _mm_max_ps _src st.max,
    reads := st.reads ++ [i, i + 1, i + 2, i + 3] }

/-- The function `MinMax16f(src, size, min, max)`.  The `assert(size % 8 == 0)` is a
precondition of the theorems, not a branch of the function. -/
def MinMax16f (cvt : Nat → Int) (fuel : Nat) (src : Nat → Nat) (size : Nat) :
    Option MinMaxResult :=
  let _min : M128 Int := _mm_set1_ps FLT_MAX
  let _max : M128 Int := _mm_set1_ps (-FLT_MAX)
  (forLoop size 4 (fun i st => some (MinMax16f.body cvt src i st))
    fuel 0 { min := _min, max := _max, reads := [] }).map
    (fun st => { min := MinVal32f st.min, max := MaxVal32f st.max, reads := st.reads })

/-- A sample conversion of half-floats for the examples: the 16-bit pattern read as
a two's-complement integer. -/
def sampleHalfToFloat (h : Nat) : Int := if h < 32768 then (h : Int) else (h : Int) - 65536

/-- A sample vector of 8 half-floats. -/
def sampleHalves : Nat → Nat := fun i => if i = 3 then 65000 else 7 * i

/-! ## `UnpackNormA`, `UnpackNormB` -/

/-- The type of `_unpackNormA` / `_unpackNormB`: `(count, src, dst, stride)`, run
with the given fuel; the result is the list of stores into `dst`. -/
abbrev NormUnpacker := Mem → Nat → Nat → PtrArr → Nat → Option (Writes Nat)

/-- The state of a norm-unpack loop: the advancing `src` and `dst` (the latter as
an offset from the start of the destination) and the stores made so far. -/
structure NormState where
  src : PtrArr
  dst : Nat
  log : Writes Nat

/-- The read `((float*)src)[k]`: the `k`-th 32-bit word of the storage of the
pointer array itself, whose entries are 64-bit little-endian pointers. -/
def PtrArr.asFloats (src : PtrArr) (k : Nat) : Nat :=
  if k % 2 = 0 then src (k / 2) % 4294967296 else src (k / 2) / 4294967296 % 4294967296

/-- The function `UnpackNormA(count, src, dst, stride)`: store `i` goes to
`(__m128i*)dst + i`, that is to the floats `4 * i .. 4 * i + 3`. -/
def UnpackNormA : NormUnpacker := fun mem fuel count src _stride =>
  forLoop count 1 (fun i log =>
      some (log ++ _mm_storeu_ps (4 * i) (_mm_loadu_ps (header mem (src i)) 0)))
    fuel 0 []

/-- The body of the 4-wide blocked loop of `UnpackNormB`, with its increments
`src += 4, dst += 4`. -/
def UnpackNormB.block (mem : Mem) (stride : Nat) (st : NormState) : NormState :=
  let s0 := _mm_loadu_ps (header mem (st.src 0)) 0
  let s1 := _mm_loadu_ps (header mem (st.src 1)) 0
  let s2 := _mm_loadu_ps (header mem (st.src 2)) 0
  let s3 := _mm_loadu_ps (header mem (st.src 3)) 0
  let s00 := _mm_unpacklo_ps s0 s2
  let s01 := _mm_unpacklo_ps s1 s3
  let s10 := _mm_unpackhi_ps s0 s2
  let s11 := _mm_unpackhi_ps s1 s3
  { src := st.src.shift 4, dst := st.dst + 4,
    log := st.log
      ++ _mm_storeu_ps (st.dst + 0 * stride) (_mm_unpacklo_ps s00 s01)
      ++ _mm_storeu_ps (st.dst + 1 * stride) (_mm_unpackhi_ps s00 s01)
      ++ _mm_storeu_ps (st.dst + 2 * stride) (_mm_unpacklo_ps s10 s11)
      ++ _mm_storeu_ps (st.dst + 3 * stride) (_mm_unpackhi_ps s10 s11) }

/-- The body of the scalar tail loop of `UnpackNormB`, with its increments
`src++, dst++`.  The source reads `((float*)src)[k]`: the words of the pointer
array, not those of the descriptor `src[0]`. -/
def UnpackNormB.tail (stride : Nat) (st : NormState) : NormState :=
  { src := st.src.shift 1, dst := st.dst + 1,
    log := st.log ++ [(st.dst + 0 * stride, st.src.asFloats 0),
                      (st.dst + 1 * stride, st.src.asFloats 1),
                      (st.dst + 2 * stride, st.src.asFloats 2),
                      (st.dst + 3 * stride, st.src.asFloats 3)] }

/-- The function `UnpackNormB(count, src, dst, stride)`: the 4-wide blocked loop,
then the scalar tail loop, which starts at the `i = count4` the first loop ends with
and goes on with the `src` and `dst` the first loop has advanced. -/
def UnpackNormB : NormUnpacker := fun mem fuel count src stride =>
  let count4 := AlignLo count 4
  (forLoop count4 4 (fun _ st => some (UnpackNormB.block mem stride st))
    fuel 0 { src := src, dst := 0, log := [] }).bind (fun st4 =>
  (forLoop count 1 (fun _ st => some (UnpackNormB.tail stride st))
    fuel count4 st4).map (fun st => st.log))

/-! ## The context and its bound primitives -/

/-- The two execution strategies of the dispatcher. -/
inductive Strategy where
  | direct
  | unpack
  deriving DecidableEq

/-- The temporary buffers of the Unpack strategy: unpacked data of the A and B
blocks (`dA`, `dB`, bytes) and their unpacked norms (`nA`, `nB`, float patterns). -/
structure UnpackBufs where
  dA : Nat → Nat
  dB : Nat → Nat
  nA : Nat → Nat
  nB : Nat → Nat

/-- One invocation of a macro-kernel, as the strategies issue it:
`kernel(dM, dN, A + row, B + col, ..., distances + out, stride)`.  `bufs` are the
temporary buffers handed to the Unpack kernel (`none` for the Direct kernel);
`writes` are the kernel's stores relative to `distances + out`. -/
structure TileCall (V : Type) where
  kernel : Strategy
  dM : Nat
  dN : Nat
  row : Nat
  col : Nat
  out : Nat
  stride : Nat
  bufs : Option UnpackBufs
  writes : Writes V

/-- The stores into `distances` made by a sequence of macro-kernel invocations. -/
def distancesLog {V : Type} (calls : List (TileCall V)) : Writes V :=
  calls.flatMap (fun c => offsetWrites c.out c.writes)

/-- The type of `_macroCosineDistancesDirect`:
`(M, N, A, B, size, distances, stride)`, reading descriptors from `mem`. -/
abbrev DirectKernel (V : Type) :=
  Mem → Nat → Nat → PtrArr → PtrArr → Nat → Nat → Writes V

/-- The type of `_macroCosineDistancesUnpack`:
`(M, N, size, dA, nA, dB, nB, distances, stride)` on the unpacked buffers. -/
abbrev UnpackKernel (V : Type) :=
  Nat → Nat → Nat → (Nat → Nat) → (Nat → Nat) → (Nat → Nat) → (Nat → Nat) → Nat → Writes V

/-- The type of `_unpackDataA` / `_unpackDataB`: `(count, src, size, dst, stride)`;
the result is the new contents of `dst`. -/
abbrev DataUnpacker := Mem → Nat → PtrArr → Nat → (Nat → Nat) → Nat → (Nat → Nat)

/-- The process-wide cache sizes `Base::AlgCacheL1/L2/L3()`, in bytes. -/
structure Cache where
  L1 : Nat
  L2 : Nat
  L3 : Nat

/-- The fields of `Sse41::DescrInt` that the distance operations use. -/
structure DescrInt (V : Type) where
  size : Nat
  depth : Nat
  encSize : Nat
  unpSize : Nat
  microMd : Nat
  microNd : Nat
  microMu : Nat
  microNu : Nat
  macroCosineDistancesDirect : DirectKernel V
  unpackNormA : NormUnpacker
  unpackNormB : NormUnpacker
  unpackDataA : DataUnpacker
  unpackDataB : DataUnpacker
  macroCosineDistancesUnpack : UnpackKernel V

/-! ## `DescrInt::CosineDistancesDirect` -/

/-- The invocation `_macroCosineDistancesDirect(dM, dN, A + i, B + j, _size,
distances + i * N + j, N)` of tile `(i, j)`, appended to the invocations so far. -/
def CosineDistancesDirect.tile {V : Type} (ctx : DescrInt V) (mem : Mem) (N dM dN : Nat)
    (A B : PtrArr) (i j : Nat) (calls : List (TileCall V)) : List (TileCall V) :=
  calls ++ [{
    kernel := Strategy.direct, dM := dM, dN := dN, row := i, col := j,
    out := i * N + j, stride := N, bufs := none,
    writes := ctx.macroCosineDistancesDirect mem dM dN (A.shift i) (B.shift j) ctx.size N }]

/-- The two nested loops of `CosineDistancesDirect`, for the tile sizes `mM`, `mN`. -/
def CosineDistancesDirect.loops {V : Type} (ctx : DescrInt V) (mem : Mem)
    (fuel M N : Nat) (A B : PtrArr) (mM mN : Nat) : Option (List (TileCall V)) :=
  forLoop M mM (fun i calls =>
    let dM := Min M (i + mM) - i
    forLoop N mN (fun j calls =>
      let dN := Min N (j + mN) - j
      some (CosineDistancesDirect.tile ctx mem N dM dN A B i j calls)) fuel 0 calls) fuel 0 []

/-- The function `DescrInt::CosineDistancesDirect(M, N, A, B, distances)`: the
sequence of macro-kernel invocations, in program order.  With `M > 0`, `N = 0` and
`mM = 0` every iteration of the outer loop is idle (`IdleIteration`): the result is
`none` with every fuel, which there stands for undefined behaviour, not for a call
that is known to hang. -/
def CosineDistancesDirect {V : Type} (ctx : DescrInt V) (cache : Cache) (mem : Mem)
    (fuel M N : Nat) (A B : PtrArr) : Option (List (TileCall V)) :=
  let L2 := cache.L2
  (sizeDiv L2 ctx.encSize).bind (fun q =>
    let mN := AlignLoAny q ctx.microNd
    let mM := AlignLoAny q ctx.microMd
    CosineDistancesDirect.loops ctx mem fuel M N A B mM mN)

/-! ## `DescrInt::CosineDistancesUnpack` -/

/-- The state of the loops of `CosineDistancesUnpack`: the four temporary buffers
and the macro-kernel invocations so far. -/
structure UnpackState (V : Type) where
  bufs : UnpackBufs
  calls : List (TileCall V)

/-- The outer body of `CosineDistancesUnpack` before its inner loop:
`_unpackNormA(dM, A + i, nA.data, 1)` and
`_unpackDataA(dM, A + i, _size, dA.data, _unpSize)`. -/
def CosineDistancesUnpack.unpackA {V : Type} (ctx : DescrInt V) (mem : Mem) (fuel : Nat)
    (dM : Nat) (A : PtrArr) (i : Nat) (st : UnpackState V) : Option (UnpackState V) :=
  (ctx.unpackNormA mem fuel dM (A.shift i) 1).map (fun wA =>
    { st with bufs := { st.bufs with
        nA := applyWrites wA st.bufs.nA,
        dA := ctx.unpackDataA mem dM (A.shift i) ctx.size st.bufs.dA ctx.unpSize } })

/-- The inner body of `CosineDistancesUnpack`: `_unpackNormB(dN, B + j, nB.data, dN)`,
`_unpackDataB(dN, B + j, _size, dB.data, 1)` and the macro-kernel invocation. -/
def CosineDistancesUnpack.tile {V : Type} (ctx : DescrInt V) (mem : Mem) (fuel : Nat)
    (N dM dN : Nat) (B : PtrArr) (i j : Nat) (st : UnpackState V) : Option (UnpackState V) :=
  (ctx.unpackNormB mem fuel dN (B.shift j) dN).map (fun wB =>
    let bufs : UnpackBufs := { st.bufs with
      nB := applyWrites wB st.bufs.nB,
      dB := ctx.unpackDataB mem dN (B.shift j) ctx.size st.bufs.dB 1 }
    { bufs := bufs,
      calls := st.calls ++ [{
        kernel := Strategy.unpack, dM := dM, dN := dN, row := i, col := j,
        out := i * N + j, stride := N, bufs := some bufs,
        writes := ctx.macroCosineDistancesUnpack dM dN ctx.size bufs.dA bufs.nA
          bufs.dB bufs.nB N }] })

/-- The two nested loops of `CosineDistancesUnpack`, for the block sizes `macroM`,
`macroN`, on temporary buffers that hold `bufs0`. -/
def CosineDistancesUnpack.loops {V : Type} (ctx : DescrInt V) (mem : Mem)
    (fuel M N : Nat) (A B : PtrArr) (bufs0 : UnpackBufs) (macroM macroN : Nat) :
    Option (UnpackState V) :=
  forLoop M macroM (fun i st =>
    let dM := Min M (i + macroM) - i
    (CosineDistancesUnpack.unpackA ctx mem fuel dM A i st).bind (fun st =>
      forLoop N macroN (fun j st =>
        let dN := Min N (j + macroN) - j
        CosineDistancesUnpack.tile ctx mem fuel N dM dN B i j st) fuel 0 st))
    fuel 0 { bufs := bufs0, calls := [] }

/-- The function `DescrInt::CosineDistancesUnpack(M, N, A, B, distances)`: the
sequence of macro-kernel invocations, in program order.  `bufs0` is what the freshly
allocated `dA`, `dB`, `nA`, `nB` hold before they are filled. -/
def CosineDistancesUnpack {V : Type} (ctx : DescrInt V) (cache : Cache) (mem : Mem)
    (fuel M N : Nat) (A B : PtrArr) (bufs0 : UnpackBufs) : Option (List (TileCall V)) :=
  (sizeDiv cache.L2 ctx.unpSize).bind (fun qM =>
  (sizeDiv cache.L3 ctx.unpSize).bind (fun qN =>
    let macroM := AlignLoAny qM ctx.microMu
    let macroN := AlignLoAny qN ctx.microNu
    (CosineDistancesUnpack.loops ctx mem fuel M N A B bufs0 macroM macroN).map
      (fun st => st.calls)))

/-! ## The entry points -/

/-- The test of `DescrInt::CosineDistancesMxNa`: the strategy the call is routed to. -/
def selectStrategy {V : Type} (ctx : DescrInt V) (cache : Cache) (N : Nat) : Strategy :=
  if ctx.unpSize * ctx.microNu > cache.L1 ∨ N * 2 < ctx.microNu ∨ ctx.depth < 5
      ∨ ctx.depth = 8 then
    Strategy.direct
  else
    Strategy.unpack

/-- The function `DescrInt::CosineDistancesMxNa(M, N, A, B, distances)`. -/
def CosineDistancesMxNa {V : Type} (ctx : DescrInt V) (cache : Cache) (mem : Mem)
    (fuel M N : Nat) (A B : PtrArr) (bufs0 : UnpackBufs) : Option (List (TileCall V)) :=
  match selectStrategy ctx cache N with
  | Strategy.direct => CosineDistancesDirect ctx cache mem fuel M N A B
  | Strategy.unpack => CosineDistancesUnpack ctx cache mem fuel M N A B bufs0

/-- The loop `for (i = 0; i < n; ++i) a[i] = P + i * encSize` of
`CosineDistancesMxNp`, on an array that holds `a0` when it is allocated. -/
def fillPointers (fuel n P encSize : Nat) (a0 : PtrArr) : Option PtrArr :=
  forLoop n 1 (fun i a => some (fun k => if k = i then P + i * encSize else a k)) fuel 0 a0

/-- The function `DescrInt::CosineDistancesMxNp(M, N, A, B, distances)` on the flat
buffers at the addresses `A` and `B`.  `a0`, `b0` are what the freshly allocated pointer
arrays (and the storage behind them) hold before they are filled. -/
def CosineDistancesMxNp {V : Type} (ctx : DescrInt V) (cache : Cache) (mem : Mem)
    (fuel M N : Nat) (A B : Nat) (a0 b0 : PtrArr) (bufs0 : UnpackBufs) :
    Option (List (TileCall V)) :=
  (fillPointers fuel M A ctx.encSize a0).bind (fun a =>
  (fillPointers fuel N B ctx.encSize b0).bind (fun b =>
  CosineDistancesMxNa ctx cache mem fuel M N a b bufs0))

/-! ## Construction -/

/-- Modelled from the spec: the parts of `Base::DescrInt`, declared in
`SimdDescrInt.h`, that this backend relies on.  `Valid` is the validity predicate
on `(size, depth)`; `encSize` is the encoded byte length, "a deterministic function
of size and depth", that the base constructor stores in `_encSize`. -/
structure BaseDescrInt where
  Valid : Nat → Nat → Bool
  encSize : Nat → Nat → Nat

/-- The depth-indexed getters of `SimdDescrIntCommon.h` that the constructor binds:
`GetMacroCosineDistancesDirect`, `GetUnpackData`, `GetMacroCosineDistancesUnpack`. -/
structure Getters (V : Type) where
  GetMacroCosineDistancesDirect : Nat → DirectKernel V
  GetUnpackData : Nat → Bool → DataUnpacker
  GetMacroCosineDistancesUnpack : Nat → UnpackKernel V

/-- The constructor `Sse41::DescrInt::DescrInt(size, depth)`: the base constructor
sets `_size`, `_depth` and `_encSize`, the body binds the primitives and fixes the
sizes of the two strategies. -/
def DescrInt.DescrInt {V : Type} (base : BaseDescrInt) (get : Getters V)
    (size depth : Nat) : DescrInt V :=
  { size := size
    depth := depth
    encSize := base.encSize size depth
    macroCosineDistancesDirect := get.GetMacroCosineDistancesDirect depth
    microMd := 2
    microNd := 4
    unpackNormA := UnpackNormA
    unpackNormB := UnpackNormB
    unpackDataA := get.GetUnpackData depth false
    unpackDataB := get.GetUnpackData depth true
    macroCosineDistancesUnpack := get.GetMacroCosineDistancesUnpack depth
    unpSize := size * (if depth = 8 then 2 else 1)
    microMu := if depth = 8 then 6 else 5
    microNu := 8 }

/-- The function `DescrIntInit(size, depth)`: `none` is the null pointer. -/
def DescrIntInit {V : Type} (base : BaseDescrInt) (get : Getters V)
    (size depth : Nat) : Option (DescrInt V) :=
  if !base.Valid size depth then none
  else some (DescrInt.DescrInt base get size depth)

/-! ## Contracts of the bound macro-kernels -/

/-- The contract of a Direct macro-kernel for the distance `d` on descriptor
addresses: called as `(dM, dN, A', B', size, out', stride)` it stores
`out'[r * stride + c] = d(A'[r], B'[c])` for every `r < dM`, `c < dN`, each once,
and nothing else. -/
def DirectKernelSpec {V : Type} (kernel : DirectKernel V) (mem : Mem) (size : Nat)
    (d : Nat → Nat → V) : Prop :=
  ∀ dM dN A' B' stride,
    (kernel mem dM dN A' B' size stride).Perm
      (cells dM dN stride (fun r c => d (A' r) (B' c)))

/-- A Direct macro-kernel that computes the block cell by cell, row-major. -/
def referenceDirectKernel {V : Type} (d : Mem → Nat → Nat → V) : DirectKernel V :=
  fun mem dM dN A' B' _size stride => cells dM dN stride (fun r c => d mem (A' r) (B' c))

/-- The contract of an Unpack macro-kernel for the distance `d`, relative to the
data unpackers bound next to it: whenever `dA`, `dB` are the unpacked data of the
descriptors `A'[0 .. dM)`, `B'[0 .. dN)` and the norm buffers hold their header
values, A side at `nA[4 * r + k]`, B side at `nB[k * dN + c]`, the kernel stores
`out'[r * stride + c] = d(A'[r], B'[c])` for every `r < dM`, `c < dN`, each once,
and nothing else. -/
def UnpackKernelSpec {V : Type} (ctx : DescrInt V) (mem : Mem) (d : Nat → Nat → V) : Prop :=
  ∀ dM dN (A' B' : PtrArr) (dA0 dB0 nA nB : Nat → Nat) (stride : Nat),
    (∀ r k, r < dM → k < 4 → nA (4 * r + k) = header mem (A' r) k) →
    (∀ c k, c < dN → k < 4 → nB (k * dN + c) = header mem (B' c) k) →
    (ctx.macroCosineDistancesUnpack dM dN ctx.size
        (ctx.unpackDataA mem dM A' ctx.size dA0 ctx.unpSize) nA
        (ctx.unpackDataB mem dN B' ctx.size dB0 1) nB stride).Perm
      (cells dM dN stride (fun r c => d (A' r) (B' c)))

/-- A store list with its values erased: which indices are stored, in which order. -/
def storeIndices {V : Type} (ws : Writes V) : Writes Unit := ws.map (fun w => (w.1, ()))

/-- The part of the contract of a Direct macro-kernel that concerns where it
stores: the cells `r * stride + c`, `r < dM`, `c < dN`, each once, nothing else. -/
def DirectKernelStoresBlock {V : Type} (kernel : DirectKernel V) (mem : Mem) (size : Nat) :
    Prop :=
  ∀ dM dN A' B' stride,
    (storeIndices (kernel mem dM dN A' B' size stride)).Perm
      (cells dM dN stride (fun _ _ => ()))

/-- The part of the contract of an Unpack macro-kernel that concerns where it
stores: the cells `r * stride + c`, `r < dM`, `c < dN`, each once, nothing else. -/
def UnpackKernelStoresBlock {V : Type} (kernel : UnpackKernel V) (size : Nat) : Prop :=
  ∀ dM dN dA nA dB nB stride,
    (storeIndices (kernel dM dN size dA nA dB nB stride)).Perm
      (cells dM dN stride (fun _ _ => ()))

/-- The row step and the column step of the two tile loops of a strategy:
`mM`, `mN` of `CosineDistancesDirect`, `macroM`, `macroN` of `CosineDistancesUnpack`. -/
def tileSteps {V : Type} (ctx : DescrInt V) (cache : Cache) : Strategy → Nat × Nat
  | Strategy.direct =>
    (AlignLoAny (cache.L2 / ctx.encSize) ctx.microMd,
     AlignLoAny (cache.L2 / ctx.encSize) ctx.microNd)
  | Strategy.unpack =>
    (AlignLoAny (cache.L2 / ctx.unpSize) ctx.microMu,
     AlignLoAny (cache.L3 / ctx.unpSize) ctx.microNu)

/-- The size a strategy divides its cache budget by: `_encSize` for Direct,
`_unpSize` for Unpack. -/
def tileDivisor {V : Type} (ctx : DescrInt V) : Strategy → Nat
  | Strategy.direct => ctx.encSize
  | Strategy.unpack => ctx.unpSize

/-- The condition under which the tile loops of a strategy return for an `M × N`
problem: the division does not trap, and either there is no row, or the row step is
positive and there is no column or the column step is positive. -/
abbrev Advances {V : Type} (ctx : DescrInt V) (cache : Cache) (strategy : Strategy)
    (M N : Nat) : Prop :=
  tileDivisor ctx strategy ≠ 0 ∧
    (M = 0 ∨ (0 < (tileSteps ctx cache strategy).1
      ∧ (N = 0 ∨ 0 < (tileSteps ctx cache strategy).2)))

/-! ## Calls of the distance operations on a context -/

/-- A call of one of the four distance operations of a context, with its arguments:
`CosineDistancesMxNa`, `CosineDistancesMxNp` (flat buffers at the addresses `A`, `B`;
`a0`, `b0` are what its fresh pointer arrays hold), `CosineDistancesDirect`,
`CosineDistancesUnpack`. -/
inductive DistanceOp where
  | mxNa (M N : Nat) (A B : PtrArr)
  | mxNp (M N : Nat) (A B : Nat) (a0 b0 : PtrArr)
  | direct (M N : Nat) (A B : PtrArr)
  | unpack (M N : Nat) (A B : PtrArr)

/-- One call of a distance operation, as a step on the context.  The four methods
are declared `const` and the class has no `mutable` member: the step hands back the
context it was given, next to what the call computes. -/
def distanceCall {V : Type} (cache : Cache) (mem : Mem) (fuel : Nat) (bufs0 : UnpackBufs)
    (ctx : DescrInt V) : DistanceOp → DescrInt V × Option (List (TileCall V))
  | DistanceOp.mxNa M N A B => (ctx, CosineDistancesMxNa ctx cache mem fuel M N A B bufs0)
  | DistanceOp.mxNp M N A B a0 b0 =>
    (ctx, CosineDistancesMxNp ctx cache mem fuel M N A B a0 b0 bufs0)
  | DistanceOp.direct M N A B => (ctx, CosineDistancesDirect ctx cache mem fuel M N A B)
  | DistanceOp.unpack M N A B =>
    (ctx, CosineDistancesUnpack ctx cache mem fuel M N A B bufs0)

/-- The context after a sequence of calls of distance operations. -/
def afterDistanceCalls {V : Type} (cache : Cache) (mem : Mem) (fuel : Nat)
    (bufs0 : UnpackBufs) (ctx : DescrInt V) (ops : List DistanceOp) : DescrInt V :=
  ops.foldl (fun c op => (distanceCall cache mem fuel bufs0 c op).1) ctx

/-! ## `ImageLoaderParam` -/

/-- Modelled from the spec: the tags of `SimdImageFileType`, declared in
`SimdLib.h`, that the image loader distinguishes ("header-byte switch"). -/
inductive SimdImageFileType where
  | SimdImageFileUndefined
  | SimdImageFilePgmTxt
  | SimdImageFilePgmBin
  | SimdImageFilePpmTxt
  | SimdImageFilePpmBin
  deriving DecidableEq

/-- The members of `ImageLoaderParam`; `data` is the address of the buffer and
`format` a value of the pixel-format type `F`. -/
structure ImageLoaderParam (F : Type) where
  data : Nat
  size : Nat
  format : F
  file : SimdImageFileType

/-- The byte `p[i]` of the buffer at address `p`. -/
def byteAt (mem : Mem) (p i : Nat) : Nat := mem (p + i) % 256

/-- One statement `if (data[0] == 'P' && data[1] == c) file = tag;` of the
constructor of `ImageLoaderParam`, on the tag so far and the indices of `data` read
so far.  The right operand of `&&` is read only when the left one holds. -/
def ImageLoaderParam.test (mem : Mem) (d c : Nat) (tag : SimdImageFileType)
    (st : SimdImageFileType × List Nat) : SimdImageFileType × List Nat :=
  if byteAt mem d 0 = 80 then
    if byteAt mem d 1 = c then (tag, st.2 ++ [0, 1]) else (st.1, st.2 ++ [0, 1])
  else (st.1, st.2 ++ [0])

/-- The constructor `ImageLoaderParam::ImageLoaderParam(d, s, f)`: the object built,
and the indices of `data` read, in order.  The characters `'P'`, `'2'`, `'3'`, `'5'`,
`'6'` are the bytes 80, 50, 51, 53, 54. -/
def ImageLoaderParam.ImageLoaderParam {F : Type} (mem : Mem) (d s : Nat) (f : F) :
    ImageLoaderParam F × List Nat :=
  let st0 : SimdImageFileType × List Nat := (SimdImageFileType.SimdImageFileUndefined, [])
  let st :=
    if s ≥ 2 then
      let st1 := ImageLoaderParam.test mem d 50 SimdImageFileType.SimdImageFilePgmTxt st0
      let st2 := ImageLoaderParam.test mem d 51 SimdImageFileType.SimdImageFilePpmTxt st1
      let st3 := ImageLoaderParam.test mem d 53 SimdImageFileType.SimdImageFilePgmBin st2
      ImageLoaderParam.test mem d 54 SimdImageFileType.SimdImageFilePpmBin st3
    else st0
  ({ data := d, size := s, format := f, file := st.1 }, st.2)

/-! ## Tiles of the nested loops -/

/-- The number of iterations of `for (i = 0; i < bound; i += step)` with a positive
step: `bound / step` rounded up. -/
def tileCount (bound step : Nat) : Nat := (bound + step - 1) / step

/-- The values the counter of `for (i = 0; i < bound; i += step)` takes, in order. -/
def tileStarts (bound step : Nat) : List Nat :=
  (List.range (tileCount bound step)).map (fun k => k * step)

/-- The tiles `(i, j, dM, dN)` of the two nested tile loops of a strategy, in program
order: `dM = Min(M, i + mM) - i`, `dN = Min(N, j + mN) - j`. -/
def tileGrid (M N mM mN : Nat) : List (Nat × Nat × Nat × Nat) :=
  (tileStarts M mM).flatMap (fun i => (tileStarts N mN).map (fun j =>
    (i, j, Min M (i + mM) - i, Min N (j + mN) - j)))

/-- The tile of a macro-kernel invocation: `(row, col, dM, dN)`. -/
def TileCall.shape {V : Type} (c : TileCall V) : Nat × Nat × Nat × Nat :=
  (c.row, c.col, c.dM, c.dN)

/-- The index pairs `(row + r, col + c)`, `r < dM`, `c < dN`, of the block of `dM`
rows from `row` and `dN` columns from `col`, row by row. -/
def blockIndices (row col dM dN : Nat) : List (Nat × Nat) :=
  (List.range dM).flatMap (fun r => (List.range dN).map (fun c => (row + r, col + c)))

/-- What the body of `CosineDistancesUnpack` hands to one macro-kernel invocation `c`
of an `M × N` problem: the Unpack kernel, output base `distances + row * N + col`
with row stride `N`, A-side buffers that `_unpackNormA(dM, A + row, nA, 1)` and
`_unpackDataA(dM, A + row, _size, dA, _unpSize)` have filled, and B-side buffers that
`_unpackNormB(dN, B + col, nB, dN)` and `_unpackDataB(dN, B + col, _size, dB, 1)` have
filled (`nA0`, `dA0`, `nB0`, `dB0` are what the buffers held before). -/
def UnpackCallSpec {V : Type} (ctx : DescrInt V) (mem : Mem) (fuel N : Nat) (A B : PtrArr)
    (c : TileCall V) : Prop :=
  c.kernel = Strategy.unpack ∧ c.out = c.row * N + c.col ∧ c.stride = N ∧
  ∃ b wA wB nA0 dA0 nB0 dB0, c.bufs = some b ∧
    ctx.unpackNormA mem fuel c.dM (A.shift c.row) 1 = some wA ∧
    b.nA = applyWrites wA nA0 ∧
    b.dA = ctx.unpackDataA mem c.dM (A.shift c.row) ctx.size dA0 ctx.unpSize ∧
    ctx.unpackNormB mem fuel c.dN (B.shift c.col) c.dN = some wB ∧
    b.nB = applyWrites wB nB0 ∧
    b.dB = ctx.unpackDataB mem c.dN (B.shift c.col) ctx.size dB0 1 ∧
    c.writes = ctx.macroCosineDistancesUnpack c.dM c.dN ctx.size b.dA b.nA b.dB b.nB N

/-- The lengths, in elements, of the four temporary buffers of
`CosineDistancesUnpack`. -/
structure UnpackBufSizes where
  dA : Nat
  dB : Nat
  nA : Nat
  nB : Nat

/-- The allocations of `CosineDistancesUnpack`: `Array8u dA(Min(macroM, M) * _unpSize)`,
`Array8u dB(Min(macroN, N) * _unpSize)`, `Array32f nA(Min(macroM, M) * 4)`,
`Array32f nB(AlignHi(Min(macroN, N), _microNu) * 4)`. -/
def CosineDistancesUnpack.bufSizes {V : Type} (ctx : DescrInt V) (M N macroM macroN : Nat) :
    UnpackBufSizes :=
  { dA := Min macroM M * ctx.unpSize
    dB := Min macroN N * ctx.unpSize
    nA := Min macroM M * 4
    nB := AlignHi (Min macroN N) ctx.microNu * 4 }

/-! ## The quantization codec -/

/-- Modelled from the spec: the least component of a vector (`min` of section 4.2 on
reals); 0 for the empty vector. -/
def vecMin {α : Type} [LinearOrderedField α] : List α → α
  | [] => 0
  | x :: xs => xs.foldl min x

/-- Modelled from the spec: the greatest component of a vector; 0 for the empty
vector. -/
def vecMax {α : Type} [LinearOrderedField α] : List α → α
  | [] => 0
  | x :: xs => xs.foldl max x

/-- Modelled from the spec: the code of one component,
`round((x - min) / (max - min) * (2^depth - 1))` clamped to `[0, 2^depth - 1]`. -/
def quantize {α : Type} [LinearOrderedField α] [FloorRing α] (depth : Nat) (lo hi x : α) :
    Int :=
  max 0 (min (2 ^ depth - 1) (round ((x - lo) / (hi - lo) * (2 ^ depth - 1))))

/-- Modelled from the spec: a descriptor, as the header `(min, max)` and the codes of
the components; the packing of the codes into bytes at `depth` bits each, which the
decoder undoes exactly, is left out. -/
structure Descriptor (α : Type) where
  min : α
  max : α
  codes : List Int

/-- Modelled from the spec: `Encode(vector, depth)`: compute `min`, `max` over the
vector, store the header, compute the code of each component. -/
def Encode {α : Type} [LinearOrderedField α] [FloorRing α] (depth : Nat) (v : List α) :
    Descriptor α :=
  { min := vecMin v, max := vecMax v,
    codes := v.map (quantize depth (vecMin v) (vecMax v)) }

/-- Modelled from the spec: `Decode(descriptor)`: the inverse affine map
`x' = min + code * (max - min) / (2^depth - 1)`. -/
def Decode {α : Type} [LinearOrderedField α] [FloorRing α] (depth : Nat)
    (d : Descriptor α) : List α :=
  d.codes.map (fun (c : Int) => d.min + (c : α) * (d.max - d.min) / (2 ^ depth - 1))

/-- A sample vector of 8 rationals. -/
def sampleReals : List ℚ := [0, 1 / 3, 1, 5 / 2, -2, 7, 22 / 7, 4]

/-! ## Image loading -/

/-- The out-parameters `*stride`, `*width`, `*height`, `*format` of the image load
functions. -/
structure ImageOuts (F : Type) where
  stride : Nat
  width : Nat
  height : Nat
  format : F

/-- Modelled from the spec: the two methods of class `ImageLoader`, declared in
`SimdImageLoad.h`, that `ImageLoadFromMemory` calls on a loader of type `L`:
`FromStream()`, which may change the loader, and
`Release(stride, width, height, format)`, which hands over the image (`R`) and sets
the out-parameters. -/
structure ImageLoaderOps (L R F : Type) where
  FromStream : L → Bool × L
  Release : L → ImageOuts F → R × ImageOuts F

/-- The function `Base::CreateImageLoader(param)`; `none` is `NULL`. -/
def Base.CreateImageLoader {L F : Type} (param : ImageLoaderParam F) : Option L :=
  match param.file with
  | SimdImageFileType.SimdImageFilePgmTxt => none
  | SimdImageFileType.SimdImageFilePgmBin => none
  | SimdImageFileType.SimdImageFilePpmTxt => none
  | SimdImageFileType.SimdImageFilePpmBin => none
  | _ => none

/-- The function `Base::ImageLoadFromMemory(data, size, stride, width, height,
format)`: the pointer returned (`none` is `NULL`) and the out-parameters after the
call. -/
def Base.ImageLoadFromMemory {L R F : Type} (ops : ImageLoaderOps L R F) (mem : Mem)
    (data size : Nat) (outs : ImageOuts F) : Option R × ImageOuts F :=
  let param := (ImageLoaderParam.ImageLoaderParam mem data size outs.format).1
  if param.file ≠ SimdImageFileType.SimdImageFileUndefined then
    match (Base.CreateImageLoader param : Option L) with
    | some loader =>
      let fromStream := ops.FromStream loader
      if fromStream.1 then
        let released := ops.Release fromStream.2 outs
        (some released.1, released.2)
      else (none, outs)
    | none => (none, outs)
  else (none, outs)

/-! ## `ImageLoadFromFile` and the C library calls it makes -/

/-- A file system: the bytes of the file under each path (`none`: no such file), and
the paths that cannot be opened at all (no permission). -/
structure FileSys (P : Type) where
  contents : P → Option (List Nat)
  denied : P → Bool

/-- An open stream (`::FILE*`): the path it is open on, its position, and whether it
may be read. -/
structure FILE (P : Type) where
  path : P
  pos : Nat
  readable : Bool

/-- The `whence` argument of `fseek`. -/
inductive Whence where
  | SEEK_SET
  | SEEK_END

/-- The C library function `::fopen(path, mode)`: the stream (`none` is `NULL`) and
the file system after the call.  The first character of the mode decides, as the C
libraries do it (glibc, musl, BSD): `r` opens an existing file for reading; `w`
creates the file or truncates it to length 0 and opens it for writing; `a` creates
the file if need be and opens it for writing at its end; any other first character
fails.  A `+` among the later characters makes the stream readable as well; later
characters the library does not know (such as the `r` of `"wr"`) are ignored. -/
def fopen {P : Type} [DecidableEq P] (fs : FileSys P) (path : P) (mode : List Char) :
    Option (FILE P) × FileSys P :=
  if fs.denied path then (none, fs)
  else
    match mode with
    | [] => (none, fs)
    | c :: rest =>
      if c = 'r' then
        match fs.contents path with
        | none => (none, fs)
        | some _ => (some { path := path, pos := 0, readable := true }, fs)
      else if c = 'w' then
        (some { path := path, pos := 0, readable := rest.contains '+' },
          { fs with contents := fun p => if p = path then some [] else fs.contents p })
      else if c = 'a' then
        match fs.contents path with
        | none =>
          (some { path := path, pos := 0, readable := rest.contains '+' },
            { fs with contents := fun p => if p = path then some [] else fs.contents p })
        | some bytes =>
          (some { path := path, pos := bytes.length, readable := rest.contains '+' }, fs)
      else (none, fs)

/-- The bytes of the file a stream is open on. -/
def FILE.bytes {P : Type} (fs : FileSys P) (file : FILE P) : List Nat :=
  (fs.contents file.path).getD []

/-- The C library function `::fseek(file, offset, whence)` for a non-negative
offset: the stream after the call. -/
def fseek {P : Type} (fs : FileSys P) (file : FILE P) (offset : Nat) : Whence → FILE P
  | Whence.SEEK_SET => { file with pos := offset }
  | Whence.SEEK_END => { file with pos := (file.bytes fs).length + offset }

/-- The C library function `::ftell(file)`. -/
def ftell {P : Type} (file : FILE P) : Nat := file.pos

/-- The C library function `::fread(buffer, 1, count, file)`: the number of bytes
read, the buffer and the stream after the call.  A stream that is not open for
reading yields nothing. -/
def fread {P : Type} (fs : FileSys P) (buffer : List Nat) (count : Nat) (file : FILE P) :
    Nat × List Nat × FILE P :=
  if file.readable then
    let got := ((file.bytes fs).drop file.pos).take count
    (got.length, got ++ buffer.drop got.length, { file with pos := file.pos + got.length })
  else (0, buffer, file)

/-- The C library function `::fclose(file)` on a stream nothing was written to: the
file system after the call. -/
def fclose {P : Type} (fs : FileSys P) (_file : FILE P) : FileSys P := fs

/-- The type `ImageLoadFromMemoryPtr`: called as
`loader(data, size, stride, width, height, format)` on the bytes of the buffer; the
pointer returned and the out-parameters after the call. -/
abbrev ImageLoadFromMemoryPtr (R F : Type) := List Nat → ImageOuts F → Option R × ImageOuts F

/-- What a call of `ImageLoadFromFile` leaves: the pointer returned, the
out-parameters, the file system, and the buffers the loader was invoked on. -/
structure FileLoad (P R F : Type) where
  data : Option R
  outs : ImageOuts F
  fs : FileSys P
  calls : List (List Nat)

/-- The function `ImageLoadFromFile(loader, path, stride, width, height, format)`.
`buf0` is what the freshly allocated `Array8u buffer` holds. -/
def ImageLoadFromFile {P R F : Type} [DecidableEq P] (loader : ImageLoadFromMemoryPtr R F)
    (path : P) (outs : ImageOuts F) (buf0 : Nat → Nat) (fs : FileSys P) : FileLoad P R F :=
  let opened := fopen fs path ['w', 'r']
  match opened.1 with
  | some file =>
    let fs := opened.2
    let file := fseek fs file 0 Whence.SEEK_END
    let buffer := (List.range (ftell file)).map buf0
    let file := fseek fs file 0 Whence.SEEK_SET
    let read := fread fs buffer buffer.length file
    if read.1 = buffer.length then
      let loaded := loader read.2.1 outs
      { data := loaded.1, outs := loaded.2, fs := fclose fs read.2.2, calls := [read.2.1] }
    else
      { data := none, outs := outs, fs := fclose fs read.2.2, calls := [] }
  | none => { data := none, outs := outs, fs := opened.2, calls := [] }

/-! ## Idle loops -/

/-- An idle iteration of `for (; i < bound; i += step) s = body(i, s)`: the condition
holds, the counter does not advance, and the body returns the state it was given (it
stores nothing and invokes nothing).  From such an iteration on the loop as written
repeats itself for ever, and `forLoop` has no result with any fuel.  C++ lets an
implementation assume that a loop without observable effect ends, so the behaviour
of a call that reaches an idle iteration is undefined: it may hang, or go on as if
the loop had ended. -/
def IdleIteration {σ : Type} (bound step : Nat) (body : Nat → σ → Option σ) (i : Nat)
    (s : σ) : Prop :=
  i < bound ∧ step = 0 ∧ body i s = some s

/-! ## A concrete configuration -/

/-- Modelled from the spec: a base class with the validity predicate of the data
model (depth in `{4, .., 8}`, `size` a positive multiple of 8) and an encoded length
of a 16-byte header followed by `size` codes of `depth` bits. -/
def sampleBase : BaseDescrInt :=
  { Valid := fun size depth => decide (4 ≤ depth ∧ depth ≤ 8 ∧ size ≠ 0 ∧ size % 8 = 0)
    encSize := fun size depth => 16 + (size * depth + 7) / 8 }

/-- A sample distance on descriptor addresses that depends on both headers:
the first header lane of the first descriptor plus twice that of the second. -/
def sampleDistance (mem : Mem) (a b : Nat) : Nat := header mem a 0 + 2 * header mem b 0

/-- An Unpack macro-kernel for `sampleDistance`: it computes each cell from the
unpacked norms, lane 0 of row `r` at `nA[4 * r]` and of column `c` at `nB[c]`. -/
def sampleUnpackKernel : UnpackKernel Nat :=
  fun dM dN _size _dA nA _dB nB stride =>
    cells dM dN stride (fun r c => nA (4 * r) + 2 * nB (0 * dN + c))

/-- Sample getters: the reference Direct kernel and the Unpack kernel of
`sampleDistance`; the data unpackers leave their destination as it is, since
neither kernel reads the codes. -/
def sampleGetters : Getters Nat :=
  { GetMacroCosineDistancesDirect := fun _ => referenceDirectKernel sampleDistance
    GetUnpackData := fun _ _ => fun _ _ _ _ dst _ => dst
    GetMacroCosineDistancesUnpack := fun _ => sampleUnpackKernel }

/-- A sample memory: the byte at address `a` is `a % 256`. -/
def sampleMem : Mem := fun a => a % 256

/-- Sample cache sizes: 32 KiB, 256 KiB, 2 MiB. -/
def sampleCache : Cache := { L1 := 32768, L2 := 262144, L3 := 2097152 }

/-- A sample context: `size = 8`, `depth = 6`, hence 22-byte descriptors. -/
def sampleCtx : DescrInt Nat := DescrInt.DescrInt sampleBase sampleGetters 8 6

/-- Sample pointer arrays: descriptors 22 bytes apart from address 1000 (A side)
and 2000 (B side). -/
def sampleA : PtrArr := fun i => 1000 + 22 * i

/-- See `sampleA`. -/
def sampleB : PtrArr := fun j => 2000 + 22 * j

/-- Sample initial contents of the temporary buffers. -/
def sampleBufs : UnpackBufs :=
  { dA := fun _ => 0, dB := fun _ => 0, nA := fun _ => 0, nB := fun _ => 0 }

/-- A context for descriptors of `2^20` components at depth 8: valid for
`sampleBase`, with an encoded length (1048592 bytes) above the sample L2 size. -/
def hugeCtx : DescrInt Nat := DescrInt.DescrInt sampleBase sampleGetters 1048576 8

/-- A cache so small that a handful of descriptors fill a tile: with the sample
context, `mM = mN = 4`, `macroM = 10`, `macroN = 24`. -/
def smallCache : Cache := { L1 := 64, L2 := 110, L3 := 220 }

/-- A cache whose `L2` holds three encoded descriptors of the sample context:
`L2 / encSize = 3`. -/
def tinyCache : Cache := { L1 := 64, L2 := 66, L3 := 220 }

/-- A memory that holds the header `P5` at address 100. -/
def pgmMem : Mem := fun a => if a = 100 then 80 else if a = 101 then 53 else 10

/-- A file system with one file, a binary PGM image of one pixel. -/
def sampleFiles : FileSys String :=
  { contents := fun p =>
      if p = "image.pgm" then some [80, 53, 10, 49, 32, 49, 10, 50, 53, 53, 10, 7] else none
    denied := fun _ => false }

/-- A sample loader: it returns the length of the buffer it is given and stores it
in `*width`. -/
def sampleLoader : ImageLoadFromMemoryPtr Nat Nat :=
  fun buffer outs => (some buffer.length, { outs with width := buffer.length })

/-- Sample out-parameters. -/
def sampleOuts : ImageOuts Nat := { stride := 1, width := 2, height := 3, format := 4 }

/-! ## Lemmas: loops, store lists, blocks -/

/-- A loop whose step is positive (or whose bound is 0) returns once the fuel exceeds
the distance to the bound, and an invariant kept by the body holds on return. -/
theorem forLoop_inv {σ : Type} (bound step : Nat) (body : Nat → σ → Option σ)
    (Inv : Nat → σ → Prop) (hstep : bound = 0 ∨ 0 < step)
    (hbody : ∀ i s, i < bound → Inv i s → ∃ s', body i s = some s' ∧ Inv (i + step) s') :
    ∀ fuel i s, bound - i < fuel → Inv i s →
      ∃ s' i', forLoop bound step body fuel i s = some s' ∧ bound ≤ i' ∧ Inv i' s' := by
  intro fuel
  induction fuel with
  | zero => intro i s h; omega
  | succ n ih =>
    intro i s h hinv
    by_cases hi : i < bound
    · obtain ⟨s1, hs1, hinv1⟩ := hbody i s hi hinv
      obtain ⟨s2, i2, h2, hb, hinv2⟩ := ih (i + step) s1 (by omega) hinv1
      exact ⟨s2, i2, by simp [forLoop, hi, hs1, h2], hb, hinv2⟩
    · exact ⟨s, i, by simp [forLoop, hi], by omega, hinv⟩

theorem Min_eq_min (a b : Nat) : Min a b = min a b := by
  unfold Min
  split <;> omega

theorem applyWrites_nil {V : Type} (init : Nat → V) : applyWrites [] init = init := rfl

theorem applyWrites_cons {V : Type} (w : Nat × V) (ws : Writes V) (init : Nat → V) :
    applyWrites (w :: ws) init
      = applyWrites ws (fun k => if k = w.1 then w.2 else init k) := rfl

/-- An index that no store names keeps its previous value. -/
theorem applyWrites_of_not_mem {V : Type} (ws : Writes V) :
    ∀ (init : Nat → V) (k : Nat), k ∉ ws.map Prod.fst → applyWrites ws init k = init k := by
  induction ws with
  | nil => intro init k _; rfl
  | cons w ws ih =>
    intro init k hk
    simp only [List.map_cons, List.mem_cons, not_or] at hk
    rw [applyWrites_cons, ih _ k hk.2]
    simp [hk.1]

/-- When no index is stored twice, an index holds the value of its one store. -/
theorem applyWrites_of_mem {V : Type} (ws : Writes V) :
    ∀ (init : Nat → V) (k : Nat) (v : V), (ws.map Prod.fst).Nodup → (k, v) ∈ ws →
      applyWrites ws init k = v := by
  induction ws with
  | nil => intro init k v _ h; simp at h
  | cons w ws ih =>
    intro init k v hnd hmem
    simp only [List.map_cons, List.nodup_cons] at hnd
    rw [applyWrites_cons]
    rcases List.mem_cons.1 hmem with h | h
    · subst h
      rw [applyWrites_of_not_mem ws _ k hnd.1]
      simp
    · exact ih _ k v hnd.2 h

theorem offsetWrites_append {V : Type} (off : Nat) (xs ys : Writes V) :
    offsetWrites off (xs ++ ys) = offsetWrites off xs ++ offsetWrites off ys := by
  simp [offsetWrites]

theorem offsetWrites_offsetWrites {V : Type} (a b : Nat) (xs : Writes V) :
    offsetWrites a (offsetWrites b xs) = offsetWrites (a + b) xs := by
  simp [offsetWrites, Nat.add_assoc]

theorem offsetWrites_zero {V : Type} (xs : Writes V) : offsetWrites 0 xs = xs := by
  simp [offsetWrites]

theorem offsetWrites_perm {V : Type} (off : Nat) {xs ys : Writes V} (h : xs.Perm ys) :
    (offsetWrites off xs).Perm (offsetWrites off ys) :=
  h.map _

theorem cells_zero_rows {V : Type} (n stride : Nat) (g : Nat → Nat → V) :
    cells 0 n stride g = [] := rfl

theorem cells_zero_cols {V : Type} (m stride : Nat) (g : Nat → Nat → V) :
    cells m 0 stride g = [] := by
  simp [cells]

/-- Appending rows `[a, a + b)` below rows `[0, a)`. -/
theorem cells_rows_append {V : Type} (a b n stride : Nat) (g : Nat → Nat → V) :
    cells (a + b) n stride g
      = cells a n stride g
        ++ offsetWrites (a * stride) (cells b n stride (fun r c => g (a + r) c)) := by
  simp only [cells, List.range_add, List.flatMap_append, List.flatMap_map, offsetWrites,
    List.map_flatMap, List.map_map]
  congr 1
  apply List.flatMap_congr
  intro r _
  apply List.map_congr_left
  intro c _
  simp [Nat.add_mul, Nat.add_assoc]

/-- Appending columns `[a, a + b)` to the right of columns `[0, a)`: the same stores,
in another order. -/
theorem cells_cols_append {V : Type} (m a b stride : Nat) (g : Nat → Nat → V) :
    (cells m a stride g
        ++ offsetWrites a (cells m b stride (fun r c => g r (a + c)))).Perm
      (cells m (a + b) stride g) := by
  simp only [cells, offsetWrites, List.map_flatMap, List.map_map]
  refine (List.flatMap_append_perm _ _ _).trans ?_
  apply List.Perm.flatMap_left
  intro r _
  rw [List.range_add, List.map_append, List.map_map]
  apply List.Perm.of_eq
  congr 1
  apply List.map_congr_left
  intro c _
  simp only [Function.comp]
  congr 1
  omega

/-- Row-major order enumerates the indices `0 .. m * n - 1`. -/
theorem cells_keys {V : Type} (m n : Nat) (g : Nat → Nat → V) :
    (cells m n n g).map Prod.fst = List.range (m * n) := by
  induction m with
  | zero => simp [cells]
  | succ m ih =>
    rw [cells_rows_append m 1 n n g, List.map_append, ih, Nat.succ_mul, List.range_add]
    congr 1
    have h1 : List.range 1 = [0] := rfl
    simp [cells, offsetWrites, h1, Function.comp_def]

theorem mem_cells {V : Type} (m n stride : Nat) (g : Nat → Nat → V) (r c : Nat)
    (hr : r < m) (hc : c < n) : (r * stride + c, g r c) ∈ cells m n stride g := by
  simp only [cells, List.mem_flatMap, List.mem_range, List.mem_map]
  exact ⟨r, hr, c, hc, rfl⟩

/-- The two nested tile loops shared by both strategies.  `pre i` is what the outer
body does before its inner loop, `tile i j` one inner body; `log` reads the stores
into `distances` off the state.  If every tile (the loops only reach rows `i` that
are multiples of `mM` and columns `j` that are multiples of `mN`) returns and appends
the stores of its own `dM × dN` block, the loops return and have stored the whole
`M × N` matrix. -/
theorem tileLoops_perm {σ V : Type} (M N mM mN : Nat) (hM : M = 0 ∨ 0 < mM)
    (hN : M = 0 ∨ N = 0 ∨ 0 < mN)
    (pre : Nat → σ → Option σ) (tile : Nat → Nat → σ → Option σ) (log : σ → Writes V)
    (Good : Nat → σ → Prop) (f : Nat → Nat → V)
    (hpre : ∀ i s, i < M → mM ∣ i → ∃ s1, pre i s = some s1 ∧ Good i s1 ∧ log s1 = log s)
    (htile : ∀ i j s, i < M → j < N → mM ∣ i → mN ∣ j → Good i s →
      ∃ s1, tile i j s = some s1 ∧ Good i s1 ∧
        ∃ ws, log s1 = log s ++ offsetWrites (i * N + j) ws ∧
          ws.Perm (cells (Min M (i + mM) - i) (Min N (j + mN) - j) N
            (fun r c => f (i + r) (j + c))))
    (fuel : Nat) (hfM : M < fuel) (hfN : N < fuel) (s0 : σ) :
    ∃ s', forLoop M mM (fun i s => (pre i s).bind (fun s1 =>
        forLoop N mN (fun j s => tile i j s) fuel 0 s1)) fuel 0 s0 = some s' ∧
      (log s').Perm (log s0 ++ cells M N N f) := by
  have hinner : ∀ i s, i < M → mM ∣ i → (log s).Perm (log s0 ++ cells i N N f) →
      ∃ s2, (pre i s).bind (fun s1 => forLoop N mN (fun j s => tile i j s) fuel 0 s1)
          = some s2 ∧
        (log s2).Perm (log s0 ++ cells (Min M (i + mM)) N N f) := by
    intro i s hi hdi hinv
    obtain ⟨s1, hs1, hg, hl⟩ := hpre i s hi hdi
    have hstep : ∀ j s, j < N →
        (Good i s ∧ mN ∣ j ∧ (log s).Perm (log s0 ++ cells i N N f
          ++ offsetWrites (i * N) (cells (Min M (i + mM) - i) (Min N j) N
            (fun r c => f (i + r) c)))) →
        ∃ s', tile i j s = some s' ∧
          (Good i s' ∧ mN ∣ (j + mN) ∧ (log s').Perm (log s0 ++ cells i N N f
            ++ offsetWrites (i * N) (cells (Min M (i + mM) - i) (Min N (j + mN)) N
              (fun r c => f (i + r) c)))) := by
      intro j s hj ⟨hgs, hdj, hinvs⟩
      obtain ⟨s', hs', hg', ws, hlog, hws⟩ := htile i j s hi hj hdi hdj hgs
      refine ⟨s', hs', hg', Nat.dvd_add hdj (Nat.dvd_refl _), ?_⟩
      have hmj : Min N j = j := by rw [Min_eq_min]; omega
      have hcols : Min N (j + mN) = j + (Min N (j + mN) - j) := by
        rw [Min_eq_min]; omega
      rw [hmj] at hinvs
      rw [hlog, hcols]
      refine (List.Perm.append hinvs (offsetWrites_perm _ hws)).trans ?_
      rw [List.append_assoc]
      apply List.Perm.append_left
      rw [← offsetWrites_offsetWrites, ← offsetWrites_append]
      exact offsetWrites_perm _ (cells_cols_append _ _ _ _ _)
    have hinit : Good i s1 ∧ mN ∣ 0 ∧ (log s1).Perm (log s0 ++ cells i N N f
          ++ offsetWrites (i * N) (cells (Min M (i + mM) - i) (Min N 0) N
            (fun r c => f (i + r) c))) := by
      refine ⟨hg, Nat.dvd_zero _, ?_⟩
      have h0 : Min N 0 = 0 := by rw [Min_eq_min]; omega
      rw [hl, h0, cells_zero_cols]
      simpa [offsetWrites] using hinv
    obtain ⟨s2, j', h2, hj', _, _, hinv2⟩ := forLoop_inv N mN (fun j s => tile i j s)
      (fun j s => Good i s ∧ mN ∣ j ∧ (log s).Perm (log s0 ++ cells i N N f
        ++ offsetWrites (i * N) (cells (Min M (i + mM) - i) (Min N j) N
            (fun r c => f (i + r) c)))) (by omega) hstep fuel 0 s1 (by omega) hinit
    refine ⟨s2, by rw [hs1]; exact h2, ?_⟩
    have hmin : Min N j' = N := by rw [Min_eq_min]; omega
    rw [hmin] at hinv2
    have hrows : Min M (i + mM) = i + (Min M (i + mM) - i) := by
      rw [Min_eq_min]; omega
    rw [hrows, cells_rows_append, ← List.append_assoc]
    exact hinv2
  have houter : ∀ i s, i < M →
      (mM ∣ i ∧ (log s).Perm (log s0 ++ cells (Min M i) N N f)) →
      ∃ s', (fun i s => (pre i s).bind (fun s1 =>
          forLoop N mN (fun j s => tile i j s) fuel 0 s1)) i s = some s' ∧
        (mM ∣ (i + mM) ∧ (log s').Perm (log s0 ++ cells (Min M (i + mM)) N N f)) := by
    intro i s hi ⟨hdi, hinv⟩
    have hmi : Min M i = i := by rw [Min_eq_min]; omega
    rw [hmi] at hinv
    obtain ⟨s2, h2, hp2⟩ := hinner i s hi hdi hinv
    exact ⟨s2, h2, Nat.dvd_add hdi (Nat.dvd_refl _), hp2⟩
  obtain ⟨s', i', h, hi', _, hinv⟩ := forLoop_inv M mM
    (fun i s => (pre i s).bind (fun s1 => forLoop N mN (fun j s => tile i j s) fuel 0 s1))
    (fun i s => mM ∣ i ∧ (log s).Perm (log s0 ++ cells (Min M i) N N f)) hM houter fuel 0 s0
    (by omega) ⟨Nat.dvd_zero _, by simp [Min_eq_min, cells_zero_rows]⟩
  refine ⟨s', h, ?_⟩
  have hmin : Min M i' = M := by rw [Min_eq_min]; omega
  simpa [hmin] using hinv

/-- What a store list that is a rearrangement of the `M × N` row-major block does
to a buffer: cell `(i, j)` holds `f i j`, every index below `M * N` is stored
exactly once, and nothing else is stored. -/
theorem perm_cells_facts {V : Type} (M N : Nat) (f : Nat → Nat → V) (ws : Writes V)
    (h : ws.Perm (cells M N N f)) :
    (∀ init i j, i < M → j < N → applyWrites ws init (i * N + j) = f i j) ∧
    (∀ k, k < M * N → (ws.map Prod.fst).count k = 1) ∧
    (∀ w ∈ ws, w.1 < M * N) := by
  have hkeys : (ws.map Prod.fst).Perm (List.range (M * N)) := by
    rw [← cells_keys M N f]
    exact h.map _
  have hnd : (ws.map Prod.fst).Nodup := hkeys.nodup_iff.2 (List.nodup_range _)
  refine ⟨?_, ?_, ?_⟩
  · intro init i j hi hj
    exact applyWrites_of_mem ws init _ _ hnd (h.mem_iff.2 (mem_cells M N N f i j hi hj))
  · intro k hk
    exact List.count_eq_one_of_mem hnd (hkeys.mem_iff.2 (List.mem_range.2 hk))
  · intro w hw
    have : w.1 ∈ ws.map Prod.fst := List.mem_map_of_mem _ hw
    exact List.mem_range.1 (hkeys.mem_iff.1 this)

theorem distancesLog_append {V : Type} (xs ys : List (TileCall V)) :
    distancesLog (xs ++ ys) = distancesLog xs ++ distancesLog ys := by
  simp [distancesLog]

theorem distancesLog_singleton {V : Type} (c : TileCall V) :
    distancesLog [c] = offsetWrites c.out c.writes := by
  simp [distancesLog]

theorem sizeDiv_of_ne (a b : Nat) (h : b ≠ 0) : sizeDiv a b = some (a / b) := by
  simp [sizeDiv, h]

theorem sizeDiv_zero (a : Nat) : sizeDiv a 0 = none := by
  simp [sizeDiv]

/-- A positive tile size shows that the divisor was not 0. -/
theorem divisor_ne_zero_of_pos (a b m : Nat) (h : 0 < AlignLoAny (a / b) m) : b ≠ 0 := by
  intro hb
  subst hb
  simp [AlignLoAny] at h

theorem CosineDistancesDirect_of_ne {V : Type} (ctx : DescrInt V) (cache : Cache)
    (mem : Mem) (fuel M N : Nat) (A B : PtrArr) (henc : ctx.encSize ≠ 0) :
    CosineDistancesDirect ctx cache mem fuel M N A B
      = CosineDistancesDirect.loops ctx mem fuel M N A B
          (tileSteps ctx cache Strategy.direct).1 (tileSteps ctx cache Strategy.direct).2 := by
  simp [CosineDistancesDirect, sizeDiv_of_ne _ _ henc, tileSteps]

theorem CosineDistancesUnpack_of_ne {V : Type} (ctx : DescrInt V) (cache : Cache)
    (mem : Mem) (fuel M N : Nat) (A B : PtrArr) (bufs0 : UnpackBufs)
    (hunp : ctx.unpSize ≠ 0) :
    CosineDistancesUnpack ctx cache mem fuel M N A B bufs0
      = (CosineDistancesUnpack.loops ctx mem fuel M N A B bufs0
          (tileSteps ctx cache Strategy.unpack).1
          (tileSteps ctx cache Strategy.unpack).2).map (fun st => st.calls) := by
  simp [CosineDistancesUnpack, sizeDiv_of_ne _ _ hunp, tileSteps]

theorem distancesLog_Direct_tile {V : Type} (ctx : DescrInt V) (mem : Mem) (N dM dN : Nat)
    (A B : PtrArr) (i j : Nat) (calls : List (TileCall V)) :
    distancesLog (CosineDistancesDirect.tile ctx mem N dM dN A B i j calls)
      = distancesLog calls ++ offsetWrites (i * N + j)
          (ctx.macroCosineDistancesDirect mem dM dN (A.shift i) (B.shift j) ctx.size N) := by
  simp [CosineDistancesDirect.tile, distancesLog_append, distancesLog_singleton]

/-- The stores of the loops of `CosineDistancesDirect` are a rearrangement of the
row-major `M × N` block of distances. -/
theorem CosineDistancesDirect_loops_perm {V : Type} (ctx : DescrInt V) (mem : Mem)
    (d : Nat → Nat → V) (fuel M N : Nat) (A B : PtrArr) (mM mN : Nat)
    (hmM : M = 0 ∨ 0 < mM) (hmN : M = 0 ∨ N = 0 ∨ 0 < mN)
    (hk : DirectKernelSpec ctx.macroCosineDistancesDirect mem ctx.size d)
    (hfM : M < fuel) (hfN : N < fuel) :
    ∃ calls, CosineDistancesDirect.loops ctx mem fuel M N A B mM mN = some calls ∧
      (distancesLog calls).Perm (cells M N N (fun i j => d (A i) (B j))) := by
  obtain ⟨calls, h, hp⟩ := tileLoops_perm (σ := List (TileCall V)) M N mM mN hmM hmN
    (fun _ s => some s)
    (fun i j calls => some (CosineDistancesDirect.tile ctx mem N (Min M (i + mM) - i)
      (Min N (j + mN) - j) A B i j calls))
    distancesLog (fun _ _ => True) (fun i j => d (A i) (B j))
    (fun i s _ _ => ⟨s, rfl, trivial, rfl⟩)
    (fun i j s _ _ _ _ _ => ⟨_, rfl, trivial, _, distancesLog_Direct_tile _ _ _ _ _ _ _ _ _ _,
      hk _ _ _ _ _⟩)
    fuel hfM hfN []
  exact ⟨calls, h, by simpa [distancesLog] using hp⟩

/-- The stores of `CosineDistancesDirect` are a rearrangement of the row-major
`M × N` block of distances. -/
theorem CosineDistancesDirect_perm {V : Type} (ctx : DescrInt V) (cache : Cache) (mem : Mem)
    (d : Nat → Nat → V) (fuel M N : Nat) (A B : PtrArr)
    (hadv : Advances ctx cache Strategy.direct M N)
    (hk : DirectKernelSpec ctx.macroCosineDistancesDirect mem ctx.size d)
    (hfM : M < fuel) (hfN : N < fuel) :
    ∃ calls, CosineDistancesDirect ctx cache mem fuel M N A B = some calls ∧
      (distancesLog calls).Perm (cells M N N (fun i j => d (A i) (B j))) := by
  rw [CosineDistancesDirect_of_ne ctx cache mem fuel M N A B hadv.1]
  exact CosineDistancesDirect_loops_perm ctx mem d fuel M N A B _ _
    (by have := hadv.2; omega) (by have := hadv.2; omega) hk hfM hfN

/-! ## C1 -/

/-- C1: `CosineDistancesDirect` populates the whole matrix at the right indices.
For every `M`, `N`, pointer arrays `A`, `B` and positive tile sizes
`mM = AlignLoAny(L2 / encSize, microMd)`, `mN = AlignLoAny(L2 / encSize, microNd)`,
if the bound Direct macro-kernel stores `out'[r * stride + c] = d(A'[r], B'[c])` for
every `r < dM`, `c < dN` and nothing else, then the call returns (with any fuel above
`M` and `N`) and afterwards `distances[i * N + j] = d(A[i], B[j])` for every `i < M`,
`j < N`, each of the `M * N` elements has been stored exactly once, and no index
`>= M * N` has been stored. -/
theorem CosineDistancesDirect_populates {V : Type} (ctx : DescrInt V) (cache : Cache)
    (mem : Mem) (d : Nat → Nat → V) (fuel M N : Nat) (A B : PtrArr)
    (hmM : 0 < AlignLoAny (cache.L2 / ctx.encSize) ctx.microMd)
    (hmN : 0 < AlignLoAny (cache.L2 / ctx.encSize) ctx.microNd)
    (hk : DirectKernelSpec ctx.macroCosineDistancesDirect mem ctx.size d)
    (hfM : M < fuel) (hfN : N < fuel) :
    ∃ calls, CosineDistancesDirect ctx cache mem fuel M N A B = some calls ∧
      (∀ init i j, i < M → j < N →
        applyWrites (distancesLog calls) init (i * N + j) = d (A i) (B j)) ∧
      (∀ k, k < M * N → ((distancesLog calls).map Prod.fst).count k = 1) ∧
      (∀ w ∈ distancesLog calls, w.1 < M * N) := by
  obtain ⟨calls, h, hp⟩ :=
    CosineDistancesDirect_perm ctx cache mem d fuel M N A B
      ⟨divisor_ne_zero_of_pos _ _ _ hmM, Or.inr ⟨hmM, Or.inr hmN⟩⟩ hk hfM hfN
  exact ⟨calls, h, perm_cells_facts M N _ _ hp⟩

/-- C1, witness: `M = 2`, `N = 3` on the sample configuration; element `(1, 2)` is
`d(A[1], B[2])`. -/
theorem CosineDistancesDirect_populates_witness :
    0 < AlignLoAny (sampleCache.L2 / sampleCtx.encSize) sampleCtx.microMd ∧
    0 < AlignLoAny (sampleCache.L2 / sampleCtx.encSize) sampleCtx.microNd ∧
    ∃ calls, CosineDistancesDirect sampleCtx sampleCache sampleMem 4 2 3 sampleA sampleB
        = some calls ∧
      applyWrites (distancesLog calls) (fun _ => 0) (1 * 3 + 2)
        = sampleDistance sampleMem (sampleA 1) (sampleB 2) := by
  have h1 : 0 < AlignLoAny (sampleCache.L2 / sampleCtx.encSize) sampleCtx.microMd := by
    decide
  have h2 : 0 < AlignLoAny (sampleCache.L2 / sampleCtx.encSize) sampleCtx.microNd := by
    decide
  obtain ⟨calls, h, hval, _, _⟩ := CosineDistancesDirect_populates sampleCtx sampleCache
    sampleMem (sampleDistance sampleMem) 4 2 3 sampleA sampleB h1 h2
    (fun _ _ _ _ _ => List.Perm.refl _) (by decide) (by decide)
  exact ⟨h1, h2, calls, h, hval _ 1 2 (by decide) (by decide)⟩

/-! ## C2 -/

theorem cells_congr {V : Type} (m n stride : Nat) (g h : Nat → Nat → V)
    (hgh : ∀ r c, r < m → c < n → g r c = h r c) : cells m n stride g = cells m n stride h := by
  unfold cells
  apply List.flatMap_congr
  intro r hr
  apply List.map_congr_left
  intro c hc
  rw [hgh r c (List.mem_range.1 hr) (List.mem_range.1 hc)]

/-- C2 (strategy equivalence), evaluated where it fails.  On the sample context the
two macro-kernels meet the contracts the claim assumes for one and the same
distance, the dispatcher selects Unpack for `N = 5`, and for `M = 1`, `N = 5` the
two strategies store different values in element `(0, 4)`: Direct stores
`d(A[0], B[4])`, Unpack a value computed from the bits of the pointer `B[4]`. -/
theorem CosineDistancesUnpack_ne_Direct :
    DirectKernelSpec sampleCtx.macroCosineDistancesDirect sampleMem sampleCtx.size
      (sampleDistance sampleMem) ∧
    UnpackKernelSpec sampleCtx sampleMem (sampleDistance sampleMem) ∧
    selectStrategy sampleCtx sampleCache 5 = Strategy.unpack ∧
    (CosineDistancesDirect sampleCtx sampleCache sampleMem 6 1 5 sampleA sampleB).map
      (fun calls => applyWrites (distancesLog calls) (fun _ => 0) (0 * 5 + 4))
      = some (sampleDistance sampleMem (sampleA 0) (sampleB 4)) ∧
    (CosineDistancesUnpack sampleCtx sampleCache sampleMem 6 1 5 sampleA sampleB
        sampleBufs).map
      (fun calls => applyWrites (distancesLog calls) (fun _ => 0) (0 * 5 + 4))
      = some (header sampleMem (sampleA 0) 0 + 2 * (sampleB 4 % 4294967296)) ∧
    sampleDistance sampleMem (sampleA 0) (sampleB 4)
      ≠ header sampleMem (sampleA 0) 0 + 2 * (sampleB 4 % 4294967296) := by
  refine ⟨fun _ _ _ _ _ => List.Perm.refl _, ?_, by decide, by decide, by decide, by decide⟩
  intro dM dN A' B' dA0 dB0 nA nB stride hA hB
  apply List.Perm.of_eq
  apply cells_congr
  intro r c hr hc
  have h1 := hA r 0 hr (by decide)
  have h2 := hB c 0 hc (by decide)
  simp only [Nat.add_zero] at h1
  simp only [Nat.zero_mul, Nat.zero_add] at h2
  simp only [Nat.zero_mul, Nat.zero_add, sampleDistance, h1, h2]

/-! ## C3 -/

/-- C3: strategy selection.  For every context and every `M`, `N`,
`CosineDistancesMxNa` routes the call to `CosineDistancesDirect` exactly when
`unpSize * microNu > L1` or `N * 2 < microNu` or `depth < 5` or `depth == 8`, and
to `CosineDistancesUnpack` otherwise, passing `M`, `N`, `A`, `B` through unchanged;
for a context built by this backend's constructor (`microNu = 8`) every call with
`N < 4` or with depth 4 or 8 goes Direct. -/
theorem CosineDistancesMxNa_selects {V : Type} (ctx : DescrInt V) (cache : Cache)
    (mem : Mem) (fuel M N : Nat) (A B : PtrArr) (bufs0 : UnpackBufs) :
    (selectStrategy ctx cache N = Strategy.direct ↔
      (ctx.unpSize * ctx.microNu > cache.L1 ∨ N * 2 < ctx.microNu ∨ ctx.depth < 5
        ∨ ctx.depth = 8)) ∧
    (selectStrategy ctx cache N = Strategy.unpack ↔
      ¬ (ctx.unpSize * ctx.microNu > cache.L1 ∨ N * 2 < ctx.microNu ∨ ctx.depth < 5
        ∨ ctx.depth = 8)) ∧
    (selectStrategy ctx cache N = Strategy.direct →
      CosineDistancesMxNa ctx cache mem fuel M N A B bufs0
        = CosineDistancesDirect ctx cache mem fuel M N A B) ∧
    (selectStrategy ctx cache N = Strategy.unpack →
      CosineDistancesMxNa ctx cache mem fuel M N A B bufs0
        = CosineDistancesUnpack ctx cache mem fuel M N A B bufs0) ∧
    (∀ (base : BaseDescrInt) (get : Getters V) (size depth : Nat),
      ctx = DescrInt.DescrInt base get size depth → (N < 4 ∨ depth = 4 ∨ depth = 8) →
      selectStrategy ctx cache N = Strategy.direct ∧
      CosineDistancesMxNa ctx cache mem fuel M N A B bufs0
        = CosineDistancesDirect ctx cache mem fuel M N A B) := by
  have hd : selectStrategy ctx cache N = Strategy.direct ↔
      (ctx.unpSize * ctx.microNu > cache.L1 ∨ N * 2 < ctx.microNu ∨ ctx.depth < 5
        ∨ ctx.depth = 8) := by
    unfold selectStrategy
    split <;> simp_all
  have hu : selectStrategy ctx cache N = Strategy.unpack ↔
      ¬ (ctx.unpSize * ctx.microNu > cache.L1 ∨ N * 2 < ctx.microNu ∨ ctx.depth < 5
        ∨ ctx.depth = 8) := by
    unfold selectStrategy
    split <;> simp_all
  have h1 : selectStrategy ctx cache N = Strategy.direct →
      CosineDistancesMxNa ctx cache mem fuel M N A B bufs0
        = CosineDistancesDirect ctx cache mem fuel M N A B := by
    intro h
    simp [CosineDistancesMxNa, h]
  refine ⟨hd, hu, h1, ?_, ?_⟩
  · intro h
    simp [CosineDistancesMxNa, h]
  · intro base get size depth hctx hN
    have hsel : selectStrategy ctx cache N = Strategy.direct := by
      rw [hd]
      subst hctx
      simp only [DescrInt.DescrInt]
      omega
    exact ⟨hsel, h1 hsel⟩

/-! ## Counting loops -/

/-- A loop with a positive step whose body always returns runs `n` times from `i0`
to `i0 + n * step`: with enough fuel it is the fold of its body over the `n`
values of its counter. -/
theorem forLoop_eq_foldl {σ : Type} (step n i0 : Nat) (g : Nat → σ → σ) (hstep : 0 < step)
    (fuel : Nat) (hfuel : n * step < fuel) (s : σ) :
    forLoop (i0 + n * step) step (fun i s => some (g i s)) fuel i0 s
      = some ((List.range n).foldl (fun s k => g (i0 + k * step) s) s) := by
  obtain ⟨s', i', h, hi', k, hk, hik, hs'⟩ := forLoop_inv (i0 + n * step) step
    (fun i s => some (g i s))
    (fun i s' => ∃ k, k ≤ n ∧ i = i0 + k * step ∧
      s' = (List.range k).foldl (fun s k => g (i0 + k * step) s) s) (Or.inr hstep)
    (by
      intro i s1 hi ⟨k, hk, hik, hs1⟩
      refine ⟨g i s1, rfl, k + 1, ?_, ?_, ?_⟩
      · by_contra hcon
        have hkn : k = n := by omega
        subst hkn
        omega
      · rw [hik, Nat.succ_mul]; omega
      · rw [List.range_succ, List.foldl_append, ← hs1, hik]
        rfl)
    fuel i0 s (by omega) ⟨0, Nat.zero_le _, by simp, rfl⟩
  have hkn : k = n := by
    have h1 : n * step ≤ k * step := by omega
    have h2 : n ≤ k := Nat.le_of_mul_le_mul_right h1 hstep
    omega
  subst hkn
  rw [h, hs']

/-- The stores of `UnpackNormA`, in closed form. -/
theorem UnpackNormA_eq (mem : Mem) (fuel count : Nat) (src : PtrArr) (stride : Nat)
    (hfuel : count < fuel) :
    UnpackNormA mem fuel count src stride
      = some ((List.range count).flatMap (fun i =>
          _mm_storeu_ps (4 * i) (_mm_loadu_ps (header mem (src i)) 0))) := by
  have h := forLoop_eq_foldl 1 count 0
    (fun i (log : Writes Nat) =>
      log ++ _mm_storeu_ps (4 * i) (_mm_loadu_ps (header mem (src i)) 0))
    Nat.one_pos fuel (by omega) []
  simp only [Nat.mul_one, Nat.zero_add] at h
  unfold UnpackNormA
  rw [h]
  congr 1
  have hgen : ∀ (n : Nat) (f : Nat → Writes Nat),
      (List.range n).foldl (fun s k => s ++ f k) [] = (List.range n).flatMap f := by
    intro n f
    induction n with
    | zero => rfl
    | succ n ih => rw [List.range_succ, List.foldl_append, ih, List.flatMap_append]; simp
  exact hgen count _

/-- The pointer array built by `fillPointers`. -/
theorem fillPointers_eq (fuel n P encSize : Nat) (a0 : PtrArr) (hfuel : n < fuel) :
    ∃ a, fillPointers fuel n P encSize a0 = some a ∧
      (∀ i, i < n → a i = P + i * encSize) ∧ (∀ i, n ≤ i → a i = a0 i) := by
  have h := forLoop_eq_foldl 1 n 0
    (fun i (a : PtrArr) => fun k => if k = i then P + i * encSize else a k)
    Nat.one_pos fuel (by omega) a0
  simp only [Nat.mul_one, Nat.zero_add] at h
  refine ⟨_, h, ?_⟩
  clear h
  induction n with
  | zero => exact ⟨fun i hi => by omega, fun i _ => rfl⟩
  | succ n ih =>
    obtain ⟨ih1, ih2⟩ := ih (by omega)
    rw [List.range_succ, List.foldl_append]
    simp only [List.foldl_cons, List.foldl_nil]
    constructor
    · intro i hi
      by_cases hin : i = n
      · simp [hin]
      · simp only [hin, if_false]
        exact ih1 i (by omega)
    · intro i hi
      have hin : i ≠ n := by omega
      simp only [hin, if_false]
      exact ih2 i (by omega)

/-! ## C4 -/

/-- C5 (transposed header layout of `UnpackNormB`), evaluated where it fails.  For
`count = 5`, `stride = 5` the four descriptors of the blocked path get their header
lanes at `dst[k * 5 + i]`, but the fifth, handled by the scalar tail loop, gets the
four 32-bit words of the pointer array at `src + 4` (the halves of the pointers
`src[4]` and `src[5]`), not the header lanes of the descriptor `src[4]`. -/
theorem UnpackNormB_tail_stores_pointer_words :
    (∀ i, i < 4 → ∀ k, k < 4 →
      (UnpackNormB sampleMem 6 5 sampleB 5).map
          (fun ws => applyWrites ws (fun _ => 0) (k * 5 + i))
        = some (header sampleMem (sampleB i) k)) ∧
    (UnpackNormB sampleMem 6 5 sampleB 5).map
        (fun ws => (List.range 4).map (fun k => applyWrites ws (fun _ => 0) (k * 5 + 4)))
      = some [sampleB 4 % 4294967296, sampleB 4 / 4294967296,
              sampleB 5 % 4294967296, sampleB 5 / 4294967296] ∧
    (List.range 4).map (fun k => header sampleMem (sampleB 4) k)
      = [724183336, 791555372, 858927408, 926299444] ∧
    [sampleB 4 % 4294967296, sampleB 4 / 4294967296,
     sampleB 5 % 4294967296, sampleB 5 / 4294967296] = [2088, 0, 2110, 0] := by
  refine ⟨by decide, by decide, by decide, by decide⟩

/-! ## C9 -/

/-- C9: construction validity.  For every `size` and `depth`, `DescrIntInit(size,
depth)` returns null if and only if `Valid(size, depth)` is false; when
`Valid(size, depth)` is true it returns a context whose size and depth are the ones
given. -/
theorem DescrIntInit_null_iff {V : Type} (base : BaseDescrInt) (get : Getters V)
    (size depth : Nat) :
    (DescrIntInit base get size depth = none ↔ base.Valid size depth = false) ∧
    (base.Valid size depth = true →
      ∃ ctx, DescrIntInit base get size depth = some ctx ∧ ctx.size = size
        ∧ ctx.depth = depth) := by
  unfold DescrIntInit
  cases h : base.Valid size depth
  · simp
  · simp [DescrInt.DescrInt]

/-! ## C10 -/

/-- The stores of `UnpackNormA` are the row-major `count × 4` block of header lanes. -/
theorem UnpackNormA_cells (mem : Mem) (fuel count : Nat) (src : PtrArr) (stride : Nat)
    (hfuel : count < fuel) :
    UnpackNormA mem fuel count src stride
      = some (cells count 4 4 (fun i k => header mem (src i) k)) := by
  rw [UnpackNormA_eq mem fuel count src stride hfuel]
  congr 1
  unfold cells
  apply List.flatMap_congr
  intro i _
  have h4 : List.range 4 = [0, 1, 2, 3] := rfl
  simp [h4, _mm_storeu_ps, _mm_loadu_ps, Nat.mul_comm]

/-- C10: `UnpackNormA` is a straight copy per descriptor.  For every `count` (and
fuel above it) and every `i < count`, `k` in `0..3`, `dst[4 * i + k]` is the `k`-th
32-bit float of the 16-byte header at the start of descriptor `src[i]`; the result
does not depend on the `stride` argument, and no element of `dst` at an index
`>= 4 * count` is stored. -/
theorem UnpackNormA_copies (mem : Mem) (fuel count : Nat) (src : PtrArr) (stride : Nat)
    (hfuel : count < fuel) :
    ∃ ws, UnpackNormA mem fuel count src stride = some ws ∧
      (∀ init i k, i < count → k < 4 →
        applyWrites ws init (4 * i + k) = header mem (src i) k) ∧
      (∀ stride', UnpackNormA mem fuel count src stride' = some ws) ∧
      (∀ w ∈ ws, w.1 < 4 * count) := by
  refine ⟨_, UnpackNormA_cells mem fuel count src stride hfuel, ?_,
    fun stride' => UnpackNormA_cells mem fuel count src stride' hfuel, ?_⟩
  · intro init i k hi hk
    have h := (perm_cells_facts count 4 (fun i k => header mem (src i) k) _
      (List.Perm.refl _)).1 init i k hi hk
    rw [Nat.mul_comm] at h
    exact h
  · intro w hw
    have h := (perm_cells_facts count 4 (fun i k => header mem (src i) k) _
      (List.Perm.refl _)).2.2 w hw
    omega

/-- C10, witness: three descriptors of the sample memory. -/
theorem UnpackNormA_copies_witness :
    ∃ ws, UnpackNormA sampleMem 4 3 sampleA 1 = some ws ∧
      applyWrites ws (fun _ => 0) (4 * 2 + 1) = header sampleMem (sampleA 2) 1 ∧
      UnpackNormA sampleMem 4 3 sampleA 7 = some ws ∧
      (∀ w ∈ ws, w.1 < 4 * 3) := by
  obtain ⟨ws, h, hv, hs, hb⟩ := UnpackNormA_copies sampleMem 4 3 sampleA 1 (by decide)
  exact ⟨ws, h, hv _ 2 1 (by decide) (by decide), hs 7, hb⟩

/-! ## C6 -/

theorem minps_eq_min (a b : Int) : minps a b = min a b := by
  unfold minps
  split <;> omega

theorem maxps_eq_max (a b : Int) : maxps a b = max a b := by
  unfold maxps
  split <;> omega

theorem MinMax32f_body_min_lane (src : Nat → Int) (i : Nat) (st : MinMaxState) (l : Nat)
    (hl : l < 4) : (MinMax32f.body src i st).min.lane l = min (src (i + l)) (st.min.lane l) := by
  interval_cases l <;>
    simp [MinMax32f.body, _mm_min_ps, _mm_loadu_ps, M128.lane, minps_eq_min]

theorem MinMax32f_body_max_lane (src : Nat → Int) (i : Nat) (st : MinMaxState) (l : Nat)
    (hl : l < 4) : (MinMax32f.body src i st).max.lane l = max (src (i + l)) (st.max.lane l) := by
  interval_cases l <;>
    simp [MinMax32f.body, _mm_max_ps, _mm_loadu_ps, M128.lane, maxps_eq_max]

/-- The state of the loop of `MinMax32f` after `n` iterations: lane `l` of each
accumulator is the running minimum (maximum) of the starting value and the elements
`src[4 * k + l]`, `k < n`; the indices read are `0 .. 4 * n - 1`, in order. -/
theorem MinMax32f_loop_state (src : Nat → Int) (n : Nat) :
    let st := (List.range n).foldl (fun st k => MinMax32f.body src (0 + k * 4) st)
      ({ min := _mm_set1_ps FLT_MAX, max := _mm_set1_ps (-FLT_MAX), reads := [] } :
        MinMaxState)
    st.reads = List.range (4 * n) ∧
    ∀ l, l < 4 →
      ((∀ k, k < n → st.min.lane l ≤ src (4 * k + l)) ∧ st.min.lane l ≤ FLT_MAX ∧
        (st.min.lane l = FLT_MAX ∨ ∃ k, k < n ∧ st.min.lane l = src (4 * k + l))) ∧
      ((∀ k, k < n → src (4 * k + l) ≤ st.max.lane l) ∧ -FLT_MAX ≤ st.max.lane l ∧
        (st.max.lane l = -FLT_MAX ∨ ∃ k, k < n ∧ st.max.lane l = src (4 * k + l))) := by
  induction n with
  | zero =>
    refine ⟨rfl, ?_⟩
    intro l hl
    interval_cases l <;> simp [_mm_set1_ps, M128.lane]
  | succ n ih =>
    obtain ⟨hr, hlanes⟩ := ih
    simp only [List.range_succ, List.foldl_append, List.foldl_cons, List.foldl_nil]
    constructor
    · have h4 : 4 * (n + 1) = 4 * n + 1 + 1 + 1 + 1 := by omega
      have hb : ∀ i (st : MinMaxState),
          (MinMax32f.body src i st).reads = st.reads ++ [i, i + 1, i + 2, i + 3] :=
        fun _ _ => rfl
      rw [hb, hr, h4]
      simp [List.range_succ, Nat.mul_comm, Nat.add_assoc]
    · intro l hl
      obtain ⟨⟨hlow, hle, hatt⟩, ⟨hup, hge, hatt'⟩⟩ := hlanes l hl
      rw [MinMax32f_body_min_lane src _ _ l hl, MinMax32f_body_max_lane src _ _ l hl]
      have hidx : 0 + n * 4 + l = 4 * n + l := by omega
      rw [hidx]
      refine ⟨⟨?_, ?_, ?_⟩, ⟨?_, ?_, ?_⟩⟩
      · intro k hk
        by_cases hkn : k = n
        · subst hkn; omega
        · have := hlow k (by omega); omega
      · omega
      · rcases Int.le_total (src (4 * n + l)) ((List.foldl
            (fun st k => MinMax32f.body src (0 + k * 4) st)
            { min := _mm_set1_ps FLT_MAX, max := _mm_set1_ps (-FLT_MAX), reads := [] }
            (List.range n)).min.lane l) with h | h
        · right; exact ⟨n, by omega, by omega⟩
        · rcases hatt with h1 | ⟨k, hk, h1⟩
          · left; omega
          · right; exact ⟨k, by omega, by omega⟩
      · intro k hk
        by_cases hkn : k = n
        · subst hkn; omega
        · have := hup k (by omega); omega
      · omega
      · rcases Int.le_total (src (4 * n + l)) ((List.foldl
            (fun st k => MinMax32f.body src (0 + k * 4) st)
            { min := _mm_set1_ps FLT_MAX, max := _mm_set1_ps (-FLT_MAX), reads := [] }
            (List.range n)).max.lane l) with h | h
        · rcases hatt' with h1 | ⟨k, hk, h1⟩
          · left; omega
          · right; exact ⟨k, by omega, by omega⟩
        · right; exact ⟨n, by omega, by omega⟩

/-- The scalar reference after `n` elements: the running minimum (maximum) of the
starting value and `src[0 .. n)`. -/
theorem MinMax32fReference_state (src : Nat → Int) (n : Nat) :
    ((∀ i, i < n → (MinMax32fReference src n).1 ≤ src i) ∧
      (MinMax32fReference src n).1 ≤ FLT_MAX ∧
      ((MinMax32fReference src n).1 = FLT_MAX ∨
        ∃ i, i < n ∧ (MinMax32fReference src n).1 = src i)) ∧
    ((∀ i, i < n → src i ≤ (MinMax32fReference src n).2) ∧
      -FLT_MAX ≤ (MinMax32fReference src n).2 ∧
      ((MinMax32fReference src n).2 = -FLT_MAX ∨
        ∃ i, i < n ∧ (MinMax32fReference src n).2 = src i)) := by
  induction n with
  | zero => simp [MinMax32fReference]
  | succ n ih =>
    have hstep : MinMax32fReference src (n + 1)
        = (min (src n) (MinMax32fReference src n).1, max (src n) (MinMax32fReference src n).2) := by
      simp [MinMax32fReference, List.range_succ, List.foldl_append, minps_eq_min, maxps_eq_max]
    obtain ⟨⟨hlow, hle, hatt⟩, ⟨hup, hge, hatt'⟩⟩ := ih
    rw [hstep]
    refine ⟨⟨?_, ?_, ?_⟩, ⟨?_, ?_, ?_⟩⟩
    · intro i hi
      by_cases hin : i = n
      · subst hin; simp only; omega
      · have := hlow i (by omega); simp only; omega
    · simp only; omega
    · simp only
      rcases Int.le_total (src n) (MinMax32fReference src n).1 with h | h
      · right; exact ⟨n, by omega, by omega⟩
      · rcases hatt with h1 | ⟨k, hk, h1⟩
        · left; omega
        · right; exact ⟨k, by omega, by omega⟩
    · intro i hi
      by_cases hin : i = n
      · subst hin; simp only; omega
      · have := hup i (by omega); simp only; omega
    · simp only; omega
    · simp only
      rcases Int.le_total (src n) (MinMax32fReference src n).2 with h | h
      · rcases hatt' with h1 | ⟨k, hk, h1⟩
        · left; omega
        · right; exact ⟨k, by omega, by omega⟩
      · right; exact ⟨n, by omega, by omega⟩

/-- The horizontal reductions return one of the four lanes, the least (greatest). -/
theorem MinVal32f_MaxVal32f_lanes (v w : M128 Int) :
    ((∀ l, l < 4 → MinVal32f v ≤ v.lane l) ∧ ∃ l, l < 4 ∧ MinVal32f v = v.lane l) ∧
    ((∀ l, l < 4 → w.lane l ≤ MaxVal32f w) ∧ ∃ l, l < 4 ∧ MaxVal32f w = w.lane l) := by
  refine ⟨⟨?_, ?_⟩, ⟨?_, ?_⟩⟩
  · intro l hl
    interval_cases l <;> simp only [MinVal32f, M128.lane, minps_eq_min] <;> omega
  · simp only [MinVal32f, minps_eq_min]
    rcases Int.le_total v.e0 v.e2 with h02 | h02 <;>
    rcases Int.le_total v.e1 v.e3 with h13 | h13 <;>
    rcases Int.le_total (min v.e0 v.e2) (min v.e1 v.e3) with h | h
    all_goals first
      | exact ⟨0, by decide, by simp only [M128.lane]; omega⟩
      | exact ⟨1, by decide, by simp only [M128.lane]; omega⟩
      | exact ⟨2, by decide, by simp only [M128.lane]; omega⟩
      | exact ⟨3, by decide, by simp only [M128.lane]; omega⟩
  · intro l hl
    interval_cases l <;> simp only [MaxVal32f, M128.lane, maxps_eq_max] <;> omega
  · simp only [MaxVal32f, maxps_eq_max]
    rcases Int.le_total w.e0 w.e2 with h02 | h02 <;>
    rcases Int.le_total w.e1 w.e3 with h13 | h13 <;>
    rcases Int.le_total (max w.e0 w.e2) (max w.e1 w.e3) with h | h
    all_goals first
      | exact ⟨0, by decide, by simp only [M128.lane]; omega⟩
      | exact ⟨1, by decide, by simp only [M128.lane]; omega⟩
      | exact ⟨2, by decide, by simp only [M128.lane]; omega⟩
      | exact ⟨3, by decide, by simp only [M128.lane]; omega⟩

/-- C6: `MinMax32f` agrees with the scalar reference.  For every non-empty vector
`src` whose size is a multiple of 8, with elements within `[-FLT_MAX, FLT_MAX]`, the
4-lane running accumulators followed by the horizontal reduction return (with any
fuel above `size`) the results of the scalar reference, `min` is the smallest
element of `src[0 .. size)` and `max` the largest, and the loop reads each index
below `size` exactly once and no index `>= size`. -/
theorem MinMax32f_agrees (src : Nat → Int) (size fuel : Nat) (h8 : size % 8 = 0)
    (hpos : 0 < size) (hb : ∀ i, i < size → -FLT_MAX ≤ src i ∧ src i ≤ FLT_MAX)
    (hfuel : size < fuel) :
    ∃ r, MinMax32f fuel src size = some r ∧
      r.min = (MinMax32fReference src size).1 ∧
      r.max = (MinMax32fReference src size).2 ∧
      (∀ i, i < size → r.min ≤ src i) ∧ (∃ i, i < size ∧ src i = r.min) ∧
      (∀ i, i < size → src i ≤ r.max) ∧ (∃ i, i < size ∧ src i = r.max) ∧
      (∀ k, k < size → r.reads.count k = 1) ∧ (∀ k ∈ r.reads, k < size) := by
  have hloop := forLoop_eq_foldl 4 (size / 4) 0 (MinMax32f.body src) (by decide) fuel
    (by omega)
    ({ min := _mm_set1_ps FLT_MAX, max := _mm_set1_ps (-FLT_MAX), reads := [] } : MinMaxState)
  rw [show 0 + size / 4 * 4 = size by omega] at hloop
  obtain ⟨hreads, hlanes⟩ := MinMax32f_loop_state src (size / 4)
  rw [show 4 * (size / 4) = size by omega] at hreads
  generalize (List.range (size / 4)).foldl (fun st k => MinMax32f.body src (0 + k * 4) st)
    ({ min := _mm_set1_ps FLT_MAX, max := _mm_set1_ps (-FLT_MAX), reads := [] } : MinMaxState)
    = st at hloop hreads hlanes
  obtain ⟨⟨hminle, lm, hlm, hmineq⟩, ⟨hmaxge, lx, hlx, hmaxeq⟩⟩ :=
    MinVal32f_MaxVal32f_lanes st.min st.max
  -- the least element and where it is attained
  have hleast : ∀ i, i < size → MinVal32f st.min ≤ src i := by
    intro i hi
    have h1 := (hlanes (i % 4) (Nat.mod_lt _ (by decide))).1.1 (i / 4) (by omega)
    rw [show 4 * (i / 4) + i % 4 = i by omega] at h1
    have h2 := hminle (i % 4) (Nat.mod_lt _ (by decide))
    omega
  have hminatt : ∃ i, i < size ∧ src i = MinVal32f st.min := by
    obtain ⟨_, _, hatt⟩ := (hlanes lm hlm).1
    rcases hatt with h | ⟨k, hk, h⟩
    · refine ⟨lm, by omega, ?_⟩
      have h1 := hleast lm (by omega)
      have h2 := (hb lm (by omega)).2
      omega
    · exact ⟨4 * k + lm, by omega, by omega⟩
  have hgreatest : ∀ i, i < size → src i ≤ MaxVal32f st.max := by
    intro i hi
    have h1 := (hlanes (i % 4) (Nat.mod_lt _ (by decide))).2.1 (i / 4) (by omega)
    rw [show 4 * (i / 4) + i % 4 = i by omega] at h1
    have h2 := hmaxge (i % 4) (Nat.mod_lt _ (by decide))
    omega
  have hmaxatt : ∃ i, i < size ∧ src i = MaxVal32f st.max := by
    obtain ⟨_, _, hatt⟩ := (hlanes lx hlx).2
    rcases hatt with h | ⟨k, hk, h⟩
    · refine ⟨lx, by omega, ?_⟩
      have h1 := hgreatest lx (by omega)
      have h2 := (hb lx (by omega)).1
      omega
    · exact ⟨4 * k + lx, by omega, by omega⟩
  obtain ⟨⟨rlow, _, ratt⟩, ⟨rup, _, ratt'⟩⟩ := MinMax32fReference_state src size
  refine ⟨{ min := MinVal32f st.min, max := MaxVal32f st.max, reads := st.reads },
    by simp [MinMax32f, hloop], ?_, ?_, hleast, hminatt, hgreatest, hmaxatt, ?_, ?_⟩
  · obtain ⟨i, hi, hsi⟩ := hminatt
    have h1 := rlow i hi
    rcases ratt with h | ⟨k, hk, h⟩
    · have := (hb i hi).2
      show MinVal32f st.min = _
      omega
    · have := hleast k hk
      show MinVal32f st.min = _
      omega
  · obtain ⟨i, hi, hsi⟩ := hmaxatt
    have h1 := rup i hi
    rcases ratt' with h | ⟨k, hk, h⟩
    · have := (hb i hi).1
      show MaxVal32f st.max = _
      omega
    · have := hgreatest k hk
      show MaxVal32f st.max = _
      omega
  · intro k hk
    show st.reads.count k = 1
    rw [hreads]
    exact List.count_eq_one_of_mem (List.nodup_range _) (List.mem_range.2 hk)
  · intro k hk
    have hk' : k ∈ st.reads := hk
    rw [hreads] at hk'
    exact List.mem_range.1 hk'

/-- C6, witness: the sample vector of 8 elements; its least element is `-7` and its
greatest `40`. -/
theorem MinMax32f_agrees_witness :
    ∃ r, MinMax32f 9 sampleVector 8 = some r ∧
      r.min = (MinMax32fReference sampleVector 8).1 ∧
      r.max = (MinMax32fReference sampleVector 8).2 ∧
      (∀ i, i < 8 → r.min ≤ sampleVector i) ∧ (∀ i, i < 8 → sampleVector i ≤ r.max) ∧
      (MinMax32fReference sampleVector 8) = (-7, 40) := by
  have hb : ∀ i, i < 8 → -FLT_MAX ≤ sampleVector i ∧ sampleVector i ≤ FLT_MAX := by
    intro i hi
    interval_cases i <;> simp [sampleVector, FLT_MAX]
  obtain ⟨r, h, h1, h2, h3, _, h5, _⟩ := MinMax32f_agrees sampleVector 8 9 (by decide)
    (by decide) hb (by decide)
  have href : MinMax32fReference sampleVector 8 = (-7, 40) := by
    simp [MinMax32fReference, List.range_succ, sampleVector, minps, maxps, FLT_MAX]
  exact ⟨r, h, h1, h2, h3, h5, href⟩

/-! ## Completion of the tile loops -/

/-- A loop whose step is 0 and whose condition holds has no result, whatever the
fuel. -/
theorem forLoop_none_of_step_zero {σ : Type} (bound : Nat) (body : Nat → σ → Option σ)
    (i : Nat) (hi : i < bound) : ∀ fuel s, forLoop bound 0 body fuel i s = none := by
  intro fuel
  induction fuel with
  | zero => intro s; rfl
  | succ n ih =>
    intro s
    simp only [forLoop, hi, if_true, Nat.add_zero]
    cases body i s with
    | none => rfl
    | some s' => exact ih s'

/-- The two nested tile loops have no result, whatever the fuel, when the row step is
0 and there is a row, or the column step is 0 and there is a cell. -/
theorem tileLoops_none {σ : Type} (M N mM mN : Nat)
    (pre : Nat → σ → Option σ) (tile : Nat → Nat → σ → Option σ)
    (h : ¬ (M = 0 ∨ (0 < mM ∧ (N = 0 ∨ 0 < mN)))) (fuel : Nat) (s0 : σ) :
    forLoop M mM (fun i s => (pre i s).bind (fun s1 =>
        forLoop N mN (fun j s => tile i j s) fuel 0 s1)) fuel 0 s0 = none := by
  by_cases hmM : mM = 0
  · subst hmM
    exact forLoop_none_of_step_zero M _ 0 (by omega) fuel s0
  · have hmN : mN = 0 := by omega
    subst hmN
    cases fuel with
    | zero => rfl
    | succ n =>
      have hM : 0 < M := by omega
      rw [forLoop, if_pos hM]
      cases pre 0 s0 with
      | none => rfl
      | some s1 =>
        rw [Option.some_bind,
          forLoop_none_of_step_zero N (fun j s => tile 0 j s) 0 (by omega) (n + 1) s1]
        rfl

theorem storeIndices_append {V : Type} (xs ys : Writes V) :
    storeIndices (xs ++ ys) = storeIndices xs ++ storeIndices ys := by
  simp [storeIndices]

theorem storeIndices_offsetWrites {V : Type} (off : Nat) (xs : Writes V) :
    storeIndices (offsetWrites off xs) = offsetWrites off (storeIndices xs) := by
  simp [storeIndices, offsetWrites]

/-- Which indices a rearrangement of the `M × N` row-major block stores: each index
below `M * N` once, and no other. -/
theorem storeIndices_perm_facts {V : Type} (M N : Nat) (ws : Writes V)
    (h : (storeIndices ws).Perm (cells M N N (fun _ _ => ()))) :
    (∀ k, k < M * N → (ws.map Prod.fst).count k = 1) ∧ (∀ w ∈ ws, w.1 < M * N) := by
  obtain ⟨_, hcount, hbound⟩ := perm_cells_facts M N (fun _ _ => ()) _ h
  have hkeys : (storeIndices ws).map Prod.fst = ws.map Prod.fst := by
    simp [storeIndices, Function.comp_def]
  constructor
  · intro k hk
    rw [← hkeys]
    exact hcount k hk
  · intro w hw
    have : (w.1, ()) ∈ storeIndices ws := by
      simp only [storeIndices, List.mem_map]
      exact ⟨w, hw, rfl⟩
    exact hbound _ this

/-- The function `CosineDistancesDirect` returns and has stored each cell once
whenever its loops can advance and its kernel stores its block. -/
theorem CosineDistancesDirect_indices {V : Type} (ctx : DescrInt V) (cache : Cache)
    (mem : Mem) (fuel M N : Nat) (A B : PtrArr)
    (hadv : Advances ctx cache Strategy.direct M N)
    (hk : DirectKernelStoresBlock ctx.macroCosineDistancesDirect mem ctx.size)
    (hfM : M < fuel) (hfN : N < fuel) :
    ∃ calls, CosineDistancesDirect ctx cache mem fuel M N A B = some calls ∧
      (storeIndices (distancesLog calls)).Perm (cells M N N (fun _ _ => ())) := by
  rw [CosineDistancesDirect_of_ne ctx cache mem fuel M N A B hadv.1]
  obtain ⟨calls, h, hp⟩ := tileLoops_perm (σ := List (TileCall V)) M N
    (tileSteps ctx cache Strategy.direct).1 (tileSteps ctx cache Strategy.direct).2
    (by have := hadv.2; omega) (by have := hadv.2; omega)
    (fun _ s => some s)
    (fun i j calls => some (CosineDistancesDirect.tile ctx mem N
      (Min M (i + (tileSteps ctx cache Strategy.direct).1) - i)
      (Min N (j + (tileSteps ctx cache Strategy.direct).2) - j) A B i j calls))
    (fun calls => storeIndices (distancesLog calls)) (fun _ _ => True) (fun _ _ => ())
    (fun i s _ _ => ⟨s, rfl, trivial, rfl⟩)
    (fun i j s _ _ _ _ _ => ⟨_, rfl, trivial,
      storeIndices (ctx.macroCosineDistancesDirect mem
        (Min M (i + (tileSteps ctx cache Strategy.direct).1) - i)
        (Min N (j + (tileSteps ctx cache Strategy.direct).2) - j)
        (A.shift i) (B.shift j) ctx.size N), by
      simp only [distancesLog_Direct_tile, storeIndices_append, storeIndices_offsetWrites],
      hk _ _ _ _ _⟩)
    fuel hfM hfN []
  exact ⟨calls, h, by simpa [distancesLog, storeIndices] using hp⟩

/-- The function `CosineDistancesUnpack` returns and has stored each cell once
whenever its loops can advance, its norm unpackers return and its kernel stores its
block. -/
theorem CosineDistancesUnpack_indices {V : Type} (ctx : DescrInt V) (cache : Cache)
    (mem : Mem) (fuel M N : Nat) (A B : PtrArr) (bufs0 : UnpackBufs)
    (hadv : Advances ctx cache Strategy.unpack M N)
    (hNA : ∀ count src stride, count < fuel →
      ∃ ws, ctx.unpackNormA mem fuel count src stride = some ws)
    (hNB : ∀ count src stride, count < fuel →
      ∃ ws, ctx.unpackNormB mem fuel count src stride = some ws)
    (hk : UnpackKernelStoresBlock ctx.macroCosineDistancesUnpack ctx.size)
    (hfM : M < fuel) (hfN : N < fuel) :
    ∃ calls, CosineDistancesUnpack ctx cache mem fuel M N A B bufs0 = some calls ∧
      (storeIndices (distancesLog calls)).Perm (cells M N N (fun _ _ => ())) := by
  rw [CosineDistancesUnpack_of_ne ctx cache mem fuel M N A B bufs0 hadv.1]
  obtain ⟨st, h, hp⟩ := tileLoops_perm (σ := UnpackState V) M N
    (tileSteps ctx cache Strategy.unpack).1 (tileSteps ctx cache Strategy.unpack).2
    (by have := hadv.2; omega) (by have := hadv.2; omega)
    (fun i st => CosineDistancesUnpack.unpackA ctx mem fuel
      (Min M (i + (tileSteps ctx cache Strategy.unpack).1) - i) A i st)
    (fun i j st => CosineDistancesUnpack.tile ctx mem fuel N
      (Min M (i + (tileSteps ctx cache Strategy.unpack).1) - i)
      (Min N (j + (tileSteps ctx cache Strategy.unpack).2) - j) B i j st)
    (fun st => storeIndices (distancesLog st.calls)) (fun _ _ => True) (fun _ _ => ())
    (by
      intro i st hi _
      obtain ⟨ws, hws⟩ := hNA
        (Min M (i + (tileSteps ctx cache Strategy.unpack).1) - i) (A.shift i) 1
        (by rw [Min_eq_min]; omega)
      simp only [CosineDistancesUnpack.unpackA, hws, Option.map_some']
      exact ⟨_, rfl, trivial, rfl⟩)
    (by
      intro i j st hi hj _ _ _
      obtain ⟨ws, hws⟩ := hNB
        (Min N (j + (tileSteps ctx cache Strategy.unpack).2) - j) (B.shift j)
        (Min N (j + (tileSteps ctx cache Strategy.unpack).2) - j)
        (by rw [Min_eq_min]; omega)
      simp only [CosineDistancesUnpack.tile, hws, Option.map_some']
      refine ⟨_, rfl, trivial,
        storeIndices (ctx.macroCosineDistancesUnpack
          (Min M (i + (tileSteps ctx cache Strategy.unpack).1) - i)
          (Min N (j + (tileSteps ctx cache Strategy.unpack).2) - j) ctx.size
          st.bufs.dA st.bufs.nA
          (ctx.unpackDataB mem (Min N (j + (tileSteps ctx cache Strategy.unpack).2) - j)
            (B.shift j) ctx.size st.bufs.dB 1)
          (applyWrites ws st.bufs.nB) N), ?_, hk _ _ _ _ _ _ _⟩
      simp only [distancesLog_append, distancesLog_singleton, storeIndices_append,
        storeIndices_offsetWrites])
    fuel hfM hfN { bufs := bufs0, calls := [] }
  refine ⟨st.calls, ?_, by simpa [distancesLog, storeIndices] using hp⟩
  show Option.map _ (forLoop _ _ _ _ _ _) = _
  rw [h]
  rfl

/-- The function `UnpackNormB` returns once the fuel exceeds `count`: `count / 4`
runs of the blocked body, then `count % 4` runs of the tail body. -/
theorem UnpackNormB_eq_foldl (mem : Mem) (fuel count : Nat) (src : PtrArr) (stride : Nat)
    (hfuel : count < fuel) :
    UnpackNormB mem fuel count src stride
      = some ((List.range (count % 4)).foldl (fun st _ => UnpackNormB.tail stride st)
          ((List.range (count / 4)).foldl (fun st _ => UnpackNormB.block mem stride st)
            ({ src := src, dst := 0, log := [] } : NormState))).log := by
  have h1 := forLoop_eq_foldl 4 (count / 4) 0
    (fun (_ : Nat) (st : NormState) => UnpackNormB.block mem stride st) (by decide) fuel
    (by omega) ({ src := src, dst := 0, log := [] } : NormState)
  rw [show 0 + count / 4 * 4 = AlignLo count 4 by unfold AlignLo; omega] at h1
  have h2 := forLoop_eq_foldl 1 (count % 4) (AlignLo count 4)
    (fun (_ : Nat) (st : NormState) => UnpackNormB.tail stride st) (by decide) fuel
    (by omega)
    ((List.range (count / 4)).foldl (fun st _ => UnpackNormB.block mem stride st)
      ({ src := src, dst := 0, log := [] } : NormState))
  rw [show AlignLo count 4 + count % 4 * 1 = count by unfold AlignLo; omega] at h2
  unfold UnpackNormB
  simp only [h1, Option.some_bind, h2, Option.map_some']

/-- The function `CosineDistancesDirect` has no result, whatever the fuel, when the
division traps or its loops cannot advance. -/
theorem CosineDistancesDirect_none {V : Type} (ctx : DescrInt V) (cache : Cache)
    (mem : Mem) (fuel M N : Nat) (A B : PtrArr)
    (h : ¬ Advances ctx cache Strategy.direct M N) :
    CosineDistancesDirect ctx cache mem fuel M N A B = none := by
  by_cases henc : ctx.encSize = 0
  · simp [CosineDistancesDirect, henc, sizeDiv_zero]
  · rw [CosineDistancesDirect_of_ne ctx cache mem fuel M N A B henc]
    have h' : ¬ (M = 0 ∨ (0 < (tileSteps ctx cache Strategy.direct).1
        ∧ (N = 0 ∨ 0 < (tileSteps ctx cache Strategy.direct).2))) :=
      fun hc => h ⟨henc, hc⟩
    exact tileLoops_none (σ := List (TileCall V)) M N
      (tileSteps ctx cache Strategy.direct).1 (tileSteps ctx cache Strategy.direct).2
      (fun _ s => some s)
      (fun i j calls => some (CosineDistancesDirect.tile ctx mem N
        (Min M (i + (tileSteps ctx cache Strategy.direct).1) - i)
        (Min N (j + (tileSteps ctx cache Strategy.direct).2) - j) A B i j calls))
      h' fuel []

/-- The function `CosineDistancesUnpack` has no result, whatever the fuel, when the
division traps or its loops cannot advance. -/
theorem CosineDistancesUnpack_none {V : Type} (ctx : DescrInt V) (cache : Cache)
    (mem : Mem) (fuel M N : Nat) (A B : PtrArr) (bufs0 : UnpackBufs)
    (h : ¬ Advances ctx cache Strategy.unpack M N) :
    CosineDistancesUnpack ctx cache mem fuel M N A B bufs0 = none := by
  by_cases hunp : ctx.unpSize = 0
  · simp [CosineDistancesUnpack, hunp, sizeDiv_zero]
  · rw [CosineDistancesUnpack_of_ne ctx cache mem fuel M N A B bufs0 hunp]
    have h' : ¬ (M = 0 ∨ (0 < (tileSteps ctx cache Strategy.unpack).1
        ∧ (N = 0 ∨ 0 < (tileSteps ctx cache Strategy.unpack).2))) :=
      fun hc => h ⟨hunp, hc⟩
    have hloop := tileLoops_none (σ := UnpackState V) M N
      (tileSteps ctx cache Strategy.unpack).1 (tileSteps ctx cache Strategy.unpack).2
      (fun i st => CosineDistancesUnpack.unpackA ctx mem fuel
        (Min M (i + (tileSteps ctx cache Strategy.unpack).1) - i) A i st)
      (fun i j st => CosineDistancesUnpack.tile ctx mem fuel N
        (Min M (i + (tileSteps ctx cache Strategy.unpack).1) - i)
        (Min N (j + (tileSteps ctx cache Strategy.unpack).2) - j) B i j st)
      h' fuel { bufs := bufs0, calls := [] }
    show Option.map _ (forLoop _ _ _ _ _ _) = _
    rw [hloop]
    rfl

theorem CosineDistancesMxNa_direct {V : Type} (ctx : DescrInt V) (cache : Cache)
    (mem : Mem) (fuel M N : Nat) (A B : PtrArr) (bufs0 : UnpackBufs)
    (h : selectStrategy ctx cache N = Strategy.direct) :
    CosineDistancesMxNa ctx cache mem fuel M N A B bufs0
      = CosineDistancesDirect ctx cache mem fuel M N A B := by
  simp [CosineDistancesMxNa, h]

theorem CosineDistancesMxNa_unpack {V : Type} (ctx : DescrInt V) (cache : Cache)
    (mem : Mem) (fuel M N : Nat) (A B : PtrArr) (bufs0 : UnpackBufs)
    (h : selectStrategy ctx cache N = Strategy.unpack) :
    CosineDistancesMxNa ctx cache mem fuel M N A B bufs0
      = CosineDistancesUnpack ctx cache mem fuel M N A B bufs0 := by
  simp [CosineDistancesMxNa, h]

/-- The function `CosineDistancesMxNa` returns and has stored each cell once
whenever the loops of the selected strategy can advance. -/
theorem CosineDistancesMxNa_indices {V : Type} (ctx : DescrInt V) (cache : Cache)
    (mem : Mem) (fuel M N : Nat) (A B : PtrArr) (bufs0 : UnpackBufs)
    (hadv : Advances ctx cache (selectStrategy ctx cache N) M N)
    (hNA : ∀ count src stride, count < fuel →
      ∃ ws, ctx.unpackNormA mem fuel count src stride = some ws)
    (hNB : ∀ count src stride, count < fuel →
      ∃ ws, ctx.unpackNormB mem fuel count src stride = some ws)
    (hD : DirectKernelStoresBlock ctx.macroCosineDistancesDirect mem ctx.size)
    (hU : UnpackKernelStoresBlock ctx.macroCosineDistancesUnpack ctx.size)
    (hfM : M < fuel) (hfN : N < fuel) :
    ∃ calls, CosineDistancesMxNa ctx cache mem fuel M N A B bufs0 = some calls ∧
      (storeIndices (distancesLog calls)).Perm (cells M N N (fun _ _ => ())) := by
  cases hsel : selectStrategy ctx cache N with
  | direct =>
    rw [hsel] at hadv
    rw [CosineDistancesMxNa_direct ctx cache mem fuel M N A B bufs0 hsel]
    exact CosineDistancesDirect_indices ctx cache mem fuel M N A B hadv hD hfM hfN
  | unpack =>
    rw [hsel] at hadv
    rw [CosineDistancesMxNa_unpack ctx cache mem fuel M N A B bufs0 hsel]
    exact CosineDistancesUnpack_indices ctx cache mem fuel M N A B bufs0 hadv hNA hNB hU
      hfM hfN

/-- The function `CosineDistancesMxNa` has no result, whatever the fuel, when the
selected strategy divides by zero or its loops cannot advance. -/
theorem CosineDistancesMxNa_none {V : Type} (ctx : DescrInt V) (cache : Cache)
    (mem : Mem) (fuel M N : Nat) (A B : PtrArr) (bufs0 : UnpackBufs)
    (h : ¬ Advances ctx cache (selectStrategy ctx cache N) M N) :
    CosineDistancesMxNa ctx cache mem fuel M N A B bufs0 = none := by
  cases hsel : selectStrategy ctx cache N with
  | direct =>
    rw [hsel] at h
    rw [CosineDistancesMxNa_direct ctx cache mem fuel M N A B bufs0 hsel]
    exact CosineDistancesDirect_none ctx cache mem fuel M N A B h
  | unpack =>
    rw [hsel] at h
    rw [CosineDistancesMxNa_unpack ctx cache mem fuel M N A B bufs0 hsel]
    exact CosineDistancesUnpack_none ctx cache mem fuel M N A B bufs0 h

/-! ## C7 -/

/-- C7 as stated fails: the context for `size = 2^20`, `depth = 8` is valid, its
encoded length exceeds the L2 size, both Direct steps are 0, and the call with
`M = N = 1` never returns, whatever the fuel: the column loop invokes the
macro-kernel again and again at `j = 0`. -/
theorem CosineDistancesMxNa_hugeCtx_never_returns :
    sampleBase.Valid 1048576 8 = true ∧
    tileSteps hugeCtx sampleCache (selectStrategy hugeCtx sampleCache 1) = (0, 0) ∧
    ¬ ∃ fuel, (CosineDistancesMxNa hugeCtx sampleCache sampleMem fuel 1 1 sampleA sampleB
      sampleBufs).isSome := by
  refine ⟨by decide, by decide, ?_⟩
  rintro ⟨fuel, h⟩
  rw [CosineDistancesMxNa_none hugeCtx sampleCache sampleMem fuel 1 1 sampleA sampleB
    sampleBufs (by decide)] at h
  exact absurd h (by decide)

/-- C7, amended: completion.  For every constructed context, every cache
configuration and every `M`, `N`, with bound macro-kernels that store every cell of
their block: a call to `CosineDistancesMxNa` runs to completion (with any fuel above
`M` and `N`) if the selected strategy does not divide by zero (`encSize` for Direct,
`unpSize` for Unpack) and `M = 0`, or its row step is positive and `N = 0` or its
column step is positive; then every one of the `M * N` output elements has been
stored, once, and nothing else.  Nothing is stated for the other cases. -/
theorem CosineDistancesMxNa_completes {V : Type} (base : BaseDescrInt) (get : Getters V)
    (size depth : Nat) (cache : Cache) (mem : Mem) (M N : Nat) (A B : PtrArr)
    (bufs0 : UnpackBufs)
    (hD : DirectKernelStoresBlock (get.GetMacroCosineDistancesDirect depth) mem size)
    (hU : UnpackKernelStoresBlock (get.GetMacroCosineDistancesUnpack depth) size)
    (hadv : Advances (DescrInt.DescrInt base get size depth) cache
      (selectStrategy (DescrInt.DescrInt base get size depth) cache N) M N)
    (fuel : Nat) (hfM : M < fuel) (hfN : N < fuel) :
    ∃ calls, CosineDistancesMxNa (DescrInt.DescrInt base get size depth) cache mem fuel
        M N A B bufs0 = some calls ∧
      (∀ k, k < M * N → ((distancesLog calls).map Prod.fst).count k = 1) ∧
      (∀ w ∈ distancesLog calls, w.1 < M * N) := by
  obtain ⟨calls, h, hp⟩ := CosineDistancesMxNa_indices
    (DescrInt.DescrInt base get size depth) cache mem fuel M N A B bufs0 hadv
    (fun count src stride hc => ⟨_, UnpackNormA_eq mem fuel count src stride hc⟩)
    (fun count src stride hc => ⟨_, UnpackNormB_eq_foldl mem fuel count src stride hc⟩)
    hD hU hfM hfN
  exact ⟨calls, h, storeIndices_perm_facts M N _ hp⟩

theorem storeIndices_cells {V : Type} (m n stride : Nat) (g : Nat → Nat → V) :
    storeIndices (cells m n stride g) = cells m n stride (fun _ _ => ()) := by
  simp [storeIndices, cells, List.map_flatMap, Function.comp_def]

theorem referenceDirectKernel_storesBlock {V : Type} (d : Mem → Nat → Nat → V) (mem : Mem)
    (size : Nat) : DirectKernelStoresBlock (referenceDirectKernel d) mem size := by
  intro dM dN A' B' stride
  apply List.Perm.of_eq
  exact storeIndices_cells _ _ _ _

theorem sampleUnpackKernel_storesBlock (size : Nat) :
    UnpackKernelStoresBlock sampleUnpackKernel size := by
  intro dM dN dA nA dB nB stride
  apply List.Perm.of_eq
  exact storeIndices_cells _ _ _ _

/-- C7 amended, witness: the sample configuration with `M = 2`, `N = 5`. -/
theorem CosineDistancesMxNa_completes_witness :
    ∃ calls, CosineDistancesMxNa (DescrInt.DescrInt sampleBase sampleGetters 8 6) sampleCache
        sampleMem 6 2 5 sampleA sampleB sampleBufs = some calls ∧
      (∀ k, k < 2 * 5 → ((distancesLog calls).map Prod.fst).count k = 1) ∧
      (∀ w ∈ distancesLog calls, w.1 < 2 * 5) :=
  CosineDistancesMxNa_completes sampleBase sampleGetters 8 6 sampleCache sampleMem 2 5
    sampleA sampleB sampleBufs (referenceDirectKernel_storesBlock _ _ _)
    (sampleUnpackKernel_storesBlock _) (by decide) 6 (by decide) (by decide)

/-! ## C8 -/

/-- With no column, `CosineDistancesDirect` invokes no macro-kernel. -/
theorem CosineDistancesDirect_no_columns {V : Type} (ctx : DescrInt V) (cache : Cache)
    (mem : Mem) (fuel M : Nat) (A B : PtrArr)
    (hadv : Advances ctx cache Strategy.direct M 0) (hfM : M < fuel) :
    CosineDistancesDirect ctx cache mem fuel M 0 A B = some [] := by
  rw [CosineDistancesDirect_of_ne ctx cache mem fuel M 0 A B hadv.1]
  obtain ⟨s', _, h, _, hs'⟩ := forLoop_inv M (tileSteps ctx cache Strategy.direct).1
    (fun i calls => forLoop 0 (tileSteps ctx cache Strategy.direct).2
      (fun j calls => some (CosineDistancesDirect.tile ctx mem 0
        (Min M (i + (tileSteps ctx cache Strategy.direct).1) - i)
        (Min 0 (j + (tileSteps ctx cache Strategy.direct).2) - j) A B i j calls))
      fuel 0 calls)
    (fun _ calls => calls = []) (by have := hadv.2; omega)
    (by
      intro i calls _ hc
      refine ⟨calls, ?_, hc⟩
      cases fuel with
      | zero => omega
      | succ n => simp [forLoop])
    fuel 0 [] (by omega) rfl
  subst hs'
  exact h

/-- With no row, neither strategy invokes a macro-kernel. -/
theorem CosineDistancesMxNa_no_rows {V : Type} (ctx : DescrInt V) (cache : Cache)
    (mem : Mem) (fuel N : Nat) (A B : PtrArr) (bufs0 : UnpackBufs) (hfuel : 0 < fuel)
    (hdiv : tileDivisor ctx (selectStrategy ctx cache N) ≠ 0) :
    CosineDistancesMxNa ctx cache mem fuel 0 N A B bufs0 = some [] := by
  cases fuel with
  | zero => omega
  | succ n =>
    cases hsel : selectStrategy ctx cache N with
    | direct =>
      rw [hsel] at hdiv
      rw [CosineDistancesMxNa_direct ctx cache mem _ 0 N A B bufs0 hsel,
        CosineDistancesDirect_of_ne ctx cache mem _ 0 N A B hdiv]
      simp [CosineDistancesDirect.loops, forLoop]
    | unpack =>
      rw [hsel] at hdiv
      rw [CosineDistancesMxNa_unpack ctx cache mem _ 0 N A B bufs0 hsel,
        CosineDistancesUnpack_of_ne ctx cache mem _ 0 N A B bufs0 hdiv]
      simp [CosineDistancesUnpack.loops, forLoop]

/-- C8 as stated fails: on the valid context for `size = 2^20`, `depth = 8` the call
with `M = 1`, `N = 0` selects Direct with row step 0, and the first iteration of its
outer loop `for (i = 0; i < 1; i += 0)` is idle: the loop as written never ends, and
the call has no result with any fuel.  The source does not guarantee the return the
claim states (the behaviour of an idle loop is undefined in C++: a build may hang or
skip the loop). -/
theorem CosineDistancesMxNa_hugeCtx_no_columns_idle :
    sampleBase.Valid 1048576 8 = true ∧
    selectStrategy hugeCtx sampleCache 0 = Strategy.direct ∧
    tileSteps hugeCtx sampleCache Strategy.direct = (0, 0) ∧
    (∀ fuel, IdleIteration 1 0 (fun i calls =>
        forLoop 0 0 (fun j calls => some (CosineDistancesDirect.tile hugeCtx sampleMem 0
          (Min 1 (i + 0) - i) (Min 0 (j + 0) - j) sampleA sampleB i j calls))
          (fuel + 1) 0 calls) 0 ([] : List (TileCall Nat))) ∧
    ¬ ∃ fuel, (CosineDistancesMxNa hugeCtx sampleCache sampleMem fuel 1 0 sampleA sampleB
      sampleBufs).isSome := by
  refine ⟨by decide, by decide, by decide, ?_, ?_⟩
  · intro fuel
    exact ⟨by decide, rfl, by simp [forLoop]⟩
  · rintro ⟨fuel, h⟩
    rw [CosineDistancesMxNa_none hugeCtx sampleCache sampleMem fuel 1 0 sampleA sampleB
      sampleBufs (by decide)] at h
    exact absurd h (by decide)

/-- C8, amended: boundary.  For every constructed context with a positive size and
encoded length: if `M = 0`, or `N = 0` and the Direct row step
`AlignLoAny(L2 / encSize, microMd)` is positive (with `N = 0` the heuristic always
selects Direct), then `CosineDistancesMxNa` and `CosineDistancesMxNp` return (with any
fuel above `M` and `N`) without invoking either macro-kernel and leave every element
of the output matrix unchanged.  Nothing is stated for `N = 0`, `M > 0` and a row
step of 0. -/
theorem CosineDistancesMxN_boundary {V : Type} (base : BaseDescrInt) (get : Getters V)
    (size depth : Nat) (cache : Cache) (mem : Mem) (M N : Nat) (A B : PtrArr)
    (Ap Bp : Nat) (a0 b0 : PtrArr) (bufs0 : UnpackBufs)
    (hsize : 0 < size) (henc : 0 < base.encSize size depth)
    (hcase : M = 0 ∨ (N = 0 ∧ 0 < AlignLoAny
        (cache.L2 / (DescrInt.DescrInt base get size depth).encSize)
        (DescrInt.DescrInt base get size depth).microMd))
    (fuel : Nat) (hfM : M < fuel) (hfN : N < fuel) :
    CosineDistancesMxNa (DescrInt.DescrInt base get size depth) cache mem fuel M N A B
      bufs0 = some [] ∧
    CosineDistancesMxNp (DescrInt.DescrInt base get size depth) cache mem fuel M N Ap Bp
      a0 b0 bufs0 = some [] ∧
    ∀ init : Nat → V, applyWrites (distancesLog ([] : List (TileCall V))) init = init := by
  have hsel : N = 0 →
      selectStrategy (DescrInt.DescrInt base get size depth) cache N = Strategy.direct := by
    intro hN
    subst hN
    simp [selectStrategy, DescrInt.DescrInt]
  have hdiv : ∀ strategy,
      tileDivisor (DescrInt.DescrInt base get size depth) strategy ≠ 0 := by
    intro strategy
    cases strategy with
    | direct => simp only [tileDivisor, DescrInt.DescrInt]; omega
    | unpack =>
      simp only [tileDivisor, DescrInt.DescrInt]
      split <;> omega
  have hA : ∀ A' B' : PtrArr,
      CosineDistancesMxNa (DescrInt.DescrInt base get size depth) cache mem fuel M N A' B'
        bufs0 = some [] := by
    intro A' B'
    rcases hcase with hM | ⟨hN, hstep⟩
    · subst hM
      exact CosineDistancesMxNa_no_rows _ cache mem fuel N A' B' bufs0 (by omega) (hdiv _)
    · rw [CosineDistancesMxNa_direct _ cache mem fuel M N A' B' bufs0 (hsel hN)]
      subst hN
      exact CosineDistancesDirect_no_columns _ cache mem fuel M A' B'
        ⟨hdiv Strategy.direct, Or.inr ⟨hstep, Or.inl rfl⟩⟩ hfM
  refine ⟨hA A B, ?_, fun init => rfl⟩
  obtain ⟨a, ha, _⟩ := fillPointers_eq fuel M Ap
    (DescrInt.DescrInt base get size depth).encSize a0 hfM
  obtain ⟨b, hb, _⟩ := fillPointers_eq fuel N Bp
    (DescrInt.DescrInt base get size depth).encSize b0 hfN
  simp only [CosineDistancesMxNp, ha, hb, Option.some_bind]
  exact hA a b

/-- C8 amended, witness: the sample configuration with `M = 0`, `N = 5` (Unpack is
selected) and with `M = 2`, `N = 0`. -/
theorem CosineDistancesMxN_boundary_witness :
    selectStrategy (DescrInt.DescrInt sampleBase sampleGetters 8 6) sampleCache 5
      = Strategy.unpack ∧
    CosineDistancesMxNa (DescrInt.DescrInt sampleBase sampleGetters 8 6) sampleCache
      sampleMem 6 0 5 sampleA sampleB sampleBufs = some [] ∧
    CosineDistancesMxNp (DescrInt.DescrInt sampleBase sampleGetters 8 6) sampleCache
      sampleMem 6 2 0 1000 2000 sampleA sampleB sampleBufs = some [] := by
  have h1 := CosineDistancesMxN_boundary sampleBase sampleGetters 8 6 sampleCache sampleMem
    0 5 sampleA sampleB 1000 2000 sampleA sampleB sampleBufs (by decide) (by decide)
    (Or.inl rfl) 6 (by decide) (by decide)
  have h2 := CosineDistancesMxN_boundary sampleBase sampleGetters 8 6 sampleCache sampleMem
    2 0 sampleA sampleB 1000 2000 sampleA sampleB sampleBufs (by decide) (by decide)
    (Or.inr ⟨rfl, by decide⟩) 6 (by decide) (by decide)
  exact ⟨by decide, h1.1, h2.2.1⟩

/-! ## What `UnpackNormB` stores -/

theorem PtrArr.shift_shift (src : PtrArr) (a b : Nat) :
    (src.shift a).shift b = src.shift (a + b) := by
  funext r
  simp [PtrArr.shift, Nat.add_assoc]

/-- One run of the blocked body stores the transposed 4 × 4 block of the header
lanes of the four descriptors at `st.src`. -/
theorem UnpackNormB_block_log (mem : Mem) (stride : Nat) (st : NormState) :
    (UnpackNormB.block mem stride st).log
      = st.log ++ offsetWrites st.dst
          (cells 4 4 stride (fun k l => header mem (st.src l) k)) := by
  have h4 : List.range 4 = [0, 1, 2, 3] := rfl
  simp [UnpackNormB.block, cells, offsetWrites, h4, _mm_storeu_ps, _mm_loadu_ps,
    _mm_unpacklo_ps, _mm_unpackhi_ps, Nat.add_assoc]

/-- One run of the tail body stores a column of four words of the pointer array. -/
theorem UnpackNormB_tail_log (stride : Nat) (st : NormState) :
    (UnpackNormB.tail stride st).log
      = st.log ++ offsetWrites st.dst
          (cells 4 1 stride (fun k _ => st.src.asFloats k)) := by
  have h4 : List.range 4 = [0, 1, 2, 3] := rfl
  have h1 : List.range 1 = [0] := rfl
  simp [UnpackNormB.tail, cells, offsetWrites, h4, h1]

/-- The value `UnpackNormB` stores for lane `k` of descriptor `i`: the header lane
on the blocked path, a word of the pointer array on the tail path. -/
theorem UnpackNormB_blocked_state (mem : Mem) (src : PtrArr) (stride n : Nat) :
    ((List.range n).foldl (fun st _ => UnpackNormB.block mem stride st)
        ({ src := src, dst := 0, log := [] } : NormState)).src = src.shift (4 * n) ∧
    ((List.range n).foldl (fun st _ => UnpackNormB.block mem stride st)
        ({ src := src, dst := 0, log := [] } : NormState)).dst = 4 * n ∧
    ((List.range n).foldl (fun st _ => UnpackNormB.block mem stride st)
        ({ src := src, dst := 0, log := [] } : NormState)).log.Perm
      (cells 4 (4 * n) stride (fun k i => header mem (src i) k)) := by
  induction n with
  | zero =>
    refine ⟨?_, rfl, ?_⟩
    · funext r; simp [PtrArr.shift]
    · simp [cells_zero_cols]
  | succ n ih =>
    obtain ⟨hsrc, hdst, hlog⟩ := ih
    rw [List.range_succ, List.foldl_append]
    simp only [List.foldl_cons, List.foldl_nil]
    have hbsrc : ∀ st : NormState, (UnpackNormB.block mem stride st).src = st.src.shift 4 :=
      fun _ => rfl
    have hbdst : ∀ st : NormState, (UnpackNormB.block mem stride st).dst = st.dst + 4 :=
      fun _ => rfl
    refine ⟨?_, ?_, ?_⟩
    · rw [hbsrc, hsrc, PtrArr.shift_shift]
      rfl
    · rw [hbdst, hdst]; omega
    · rw [UnpackNormB_block_log, hsrc, hdst, show 4 * (n + 1) = 4 * n + 4 by omega]
      exact (List.Perm.append_right _ hlog).trans (cells_cols_append 4 (4 * n) 4 stride _)

/-- The stores of `UnpackNormB` are a rearrangement of the transposed `4 × count`
block in which lane `k` of descriptor `i` is the header lane `k` of `src[i]` for the
descriptors of the blocked path (`i < AlignLo(count, 4)`), and the `k`-th word of the
pointer array at `src + i` for those of the tail path. -/
theorem UnpackNormB_perm (mem : Mem) (fuel count : Nat) (src : PtrArr) (stride : Nat)
    (hfuel : count < fuel) :
    ∃ ws, UnpackNormB mem fuel count src stride = some ws ∧
      ws.Perm (cells 4 count stride (fun k i =>
        if i < AlignLo count 4 then header mem (src i) k else (src.shift i).asFloats k)) := by
  refine ⟨_, UnpackNormB_eq_foldl mem fuel count src stride hfuel, ?_⟩
  obtain ⟨hsrc, hdst, hlog⟩ := UnpackNormB_blocked_state mem src stride (count / 4)
  have h4 : 4 * (count / 4) = AlignLo count 4 := by unfold AlignLo; omega
  rw [h4] at hsrc hdst hlog
  generalize (List.range (count / 4)).foldl (fun st _ => UnpackNormB.block mem stride st)
    ({ src := src, dst := 0, log := [] } : NormState) = st4 at hsrc hdst hlog
  have htail : ∀ t, AlignLo count 4 + t ≤ count →
      ((List.range t).foldl (fun st _ => UnpackNormB.tail stride st) st4).src
        = src.shift (AlignLo count 4 + t) ∧
      ((List.range t).foldl (fun st _ => UnpackNormB.tail stride st) st4).dst
        = AlignLo count 4 + t ∧
      ((List.range t).foldl (fun st _ => UnpackNormB.tail stride st) st4).log.Perm
        (cells 4 (AlignLo count 4 + t) stride (fun k i =>
          if i < AlignLo count 4 then header mem (src i) k
          else (src.shift i).asFloats k)) := by
    intro t
    induction t with
    | zero =>
      intro _
      refine ⟨hsrc, hdst, ?_⟩
      rw [Nat.add_zero]
      refine hlog.trans (List.Perm.of_eq ?_)
      apply cells_congr
      intro k i _ hi
      simp [hi]
    | succ t ih =>
      intro ht
      obtain ⟨hs, hd, hl⟩ := ih (by omega)
      rw [List.range_succ, List.foldl_append]
      simp only [List.foldl_cons, List.foldl_nil]
      have htsrc : ∀ st : NormState, (UnpackNormB.tail stride st).src = st.src.shift 1 :=
        fun _ => rfl
      have htdst : ∀ st : NormState, (UnpackNormB.tail stride st).dst = st.dst + 1 :=
        fun _ => rfl
      refine ⟨?_, ?_, ?_⟩
      · rw [htsrc, hs, PtrArr.shift_shift]
        rfl
      · rw [htdst, hd]; omega
      · rw [UnpackNormB_tail_log, hs, hd,
          show AlignLo count 4 + (t + 1) = (AlignLo count 4 + t) + 1 by omega]
        refine (List.Perm.append_right _ hl).trans ?_
        refine (List.Perm.of_eq ?_).trans
          (cells_cols_append 4 (AlignLo count 4 + t) 1 stride _)
        congr 2
        apply cells_congr
        intro k c _ hc
        have hc0 : c = 0 := by omega
        subst hc0
        simp
  have hcount : AlignLo count 4 + count % 4 = count := by unfold AlignLo; omega
  have := (htail (count % 4) (by omega)).2.2
  rw [hcount] at this
  exact this

/-! ## The Unpack strategy when no tile reaches the tail loop of `UnpackNormB` -/

/-- The values `UnpackNormA` leaves in its destination. -/
theorem UnpackNormA_values (mem : Mem) (fuel count : Nat) (src : PtrArr) (stride : Nat)
    (hfuel : count < fuel) :
    ∃ ws, UnpackNormA mem fuel count src stride = some ws ∧
      ∀ init r k, r < count → k < 4 → applyWrites ws init (4 * r + k) = header mem (src r) k := by
  refine ⟨_, UnpackNormA_cells mem fuel count src stride hfuel, ?_⟩
  intro init r k hr hk
  have h := (perm_cells_facts count 4 (fun i k => header mem (src i) k) _
    (List.Perm.refl _)).1 init r k hr hk
  rw [Nat.mul_comm] at h
  exact h

/-- The values `UnpackNormB`, called with `stride = count`, leaves in its destination
when `count` is a multiple of 4, so that the tail loop does not run. -/
theorem UnpackNormB_values_of_blocked (mem : Mem) (fuel count : Nat) (src : PtrArr)
    (hfuel : count < fuel) (h4 : count % 4 = 0) :
    ∃ ws, UnpackNormB mem fuel count src count = some ws ∧
      ∀ init c k, c < count → k < 4 →
        applyWrites ws init (k * count + c) = header mem (src c) k := by
  obtain ⟨ws, hws, hperm⟩ := UnpackNormB_perm mem fuel count src count hfuel
  refine ⟨ws, hws, ?_⟩
  intro init c k hc hk
  have h := (perm_cells_facts 4 count _ ws hperm).1 init k c hk hc
  rw [h]
  have hlo : AlignLo count 4 = count := by unfold AlignLo; omega
  simp [hlo, hc]

/-- When `N` and the column step are multiples of 4, every tile of
`CosineDistancesUnpack` has a width that is a multiple of 4, the macro-kernel is
given the header values of its descriptors, and the stores are a rearrangement of
the row-major `M × N` block of distances: the same matrix as `CosineDistancesDirect`. -/
theorem CosineDistancesUnpack_perm_of_blocked {V : Type} (ctx : DescrInt V) (cache : Cache)
    (mem : Mem) (d : Nat → Nat → V) (fuel M N : Nat) (A B : PtrArr) (bufs0 : UnpackBufs)
    (hA : ctx.unpackNormA = UnpackNormA) (hB : ctx.unpackNormB = UnpackNormB)
    (hadv : Advances ctx cache Strategy.unpack M N)
    (h4N : N % 4 = 0) (h4m : (tileSteps ctx cache Strategy.unpack).2 % 4 = 0)
    (hk : UnpackKernelSpec ctx mem d) (hfM : M < fuel) (hfN : N < fuel) :
    ∃ calls, CosineDistancesUnpack ctx cache mem fuel M N A B bufs0 = some calls ∧
      (distancesLog calls).Perm (cells M N N (fun i j => d (A i) (B j))) := by
  rw [CosineDistancesUnpack_of_ne ctx cache mem fuel M N A B bufs0 hadv.1]
  have hmM : M = 0 ∨ 0 < AlignLoAny (cache.L2 / ctx.unpSize) ctx.microMu := by
    have := hadv.2
    simp only [tileSteps] at this
    omega
  have hmN : M = 0 ∨ N = 0 ∨ 0 < AlignLoAny (cache.L3 / ctx.unpSize) ctx.microNu := by
    have := hadv.2
    simp only [tileSteps] at this
    omega
  obtain ⟨st, h, hp⟩ := tileLoops_perm (σ := UnpackState V) M N
    (AlignLoAny (cache.L2 / ctx.unpSize) ctx.microMu)
    (AlignLoAny (cache.L3 / ctx.unpSize) ctx.microNu) hmM hmN
    (fun i st => CosineDistancesUnpack.unpackA ctx mem fuel
      (Min M (i + AlignLoAny (cache.L2 / ctx.unpSize) ctx.microMu) - i) A i st)
    (fun i j st => CosineDistancesUnpack.tile ctx mem fuel N
      (Min M (i + AlignLoAny (cache.L2 / ctx.unpSize) ctx.microMu) - i)
      (Min N (j + AlignLoAny (cache.L3 / ctx.unpSize) ctx.microNu) - j) B i j st)
    (fun st => distancesLog st.calls)
    (fun i st =>
      (∀ r k, r < Min M (i + AlignLoAny (cache.L2 / ctx.unpSize) ctx.microMu) - i → k < 4 →
        st.bufs.nA (4 * r + k) = header mem (A.shift i r) k) ∧
      ∃ dA0, st.bufs.dA = ctx.unpackDataA mem
        (Min M (i + AlignLoAny (cache.L2 / ctx.unpSize) ctx.microMu) - i) (A.shift i)
        ctx.size dA0 ctx.unpSize)
    (fun i j => d (A i) (B j))
    (by
      intro i st hi _
      obtain ⟨ws, hws, hval⟩ := UnpackNormA_values mem fuel
        (Min M (i + AlignLoAny (cache.L2 / ctx.unpSize) ctx.microMu) - i) (A.shift i) 1
        (by rw [Min_eq_min]; omega)
      simp only [CosineDistancesUnpack.unpackA, hA, hws, Option.map_some']
      exact ⟨_, rfl, ⟨fun r k hr hk => hval _ r k hr hk, ⟨_, rfl⟩⟩, rfl⟩)
    (by
      intro i j st hi hj _ hdj ⟨hnA, dA0, hdA⟩
      have h4j : 4 ∣ j := (Nat.dvd_of_mod_eq_zero h4m).trans hdj
      obtain ⟨ws, hws, hval⟩ := UnpackNormB_values_of_blocked mem fuel
        (Min N (j + AlignLoAny (cache.L3 / ctx.unpSize) ctx.microNu) - j) (B.shift j)
        (by rw [Min_eq_min]; omega)
        (by
          have h4m' : AlignLoAny (cache.L3 / ctx.unpSize) ctx.microNu % 4 = 0 := h4m
          rw [Min_eq_min]; omega)
      simp only [CosineDistancesUnpack.tile, hB, hws, Option.map_some']
      refine ⟨_, rfl, ⟨hnA, dA0, hdA⟩,
        ctx.macroCosineDistancesUnpack
          (Min M (i + AlignLoAny (cache.L2 / ctx.unpSize) ctx.microMu) - i)
          (Min N (j + AlignLoAny (cache.L3 / ctx.unpSize) ctx.microNu) - j) ctx.size
          st.bufs.dA st.bufs.nA
          (ctx.unpackDataB mem (Min N (j + AlignLoAny (cache.L3 / ctx.unpSize) ctx.microNu) - j)
            (B.shift j) ctx.size st.bufs.dB 1)
          (applyWrites ws st.bufs.nB) N, ?_, ?_⟩
      · simp only [distancesLog_append, distancesLog_singleton]
      · rw [hdA]
        exact hk _ _ (A.shift i) (B.shift j) dA0 st.bufs.dB st.bufs.nA
          (applyWrites ws st.bufs.nB) N hnA (fun c k hc hk' => hval _ c k hc hk'))
    fuel hfM hfN { bufs := bufs0, calls := [] }
  have h' : CosineDistancesUnpack.loops ctx mem fuel M N A B bufs0
      (tileSteps ctx cache Strategy.unpack).1 (tileSteps ctx cache Strategy.unpack).2
      = some st := h
  refine ⟨st.calls, ?_, by simpa [distancesLog] using hp⟩
  rw [h']
  rfl

/-! ## C11 -/

theorem distanceCall_fst {V : Type} (cache : Cache) (mem : Mem) (fuel : Nat)
    (bufs0 : UnpackBufs) (ctx : DescrInt V) (op : DistanceOp) :
    (distanceCall cache mem fuel bufs0 ctx op).1 = ctx := by
  cases op <;> rfl

theorem afterDistanceCalls_eq {V : Type} (cache : Cache) (mem : Mem) (fuel : Nat)
    (bufs0 : UnpackBufs) (ops : List DistanceOp) :
    ∀ ctx : DescrInt V, afterDistanceCalls cache mem fuel bufs0 ctx ops = ctx := by
  induction ops with
  | nil => intro ctx; rfl
  | cons op ops ih =>
    intro ctx
    show afterDistanceCalls cache mem fuel bufs0
      (distanceCall cache mem fuel bufs0 ctx op).1 ops = ctx
    rw [distanceCall_fst]
    exact ih ctx

/-- C11: context sizing invariant.  After construction for `(size, depth)`,
`unpSize = 2 * size` when `depth == 8` and `unpSize = size` otherwise, with
micro-tiles `microMd = 2`, `microNd = 4`, `microNu = 8` and `microMu = 6` when
`depth == 8` else 5; and no sequence of calls of the distance operations
(`CosineDistancesMxNa`, `CosineDistancesMxNp`, `CosineDistancesDirect`,
`CosineDistancesUnpack`) changes `size`, `depth`, `encSize`, `unpSize` or any
micro-tile constant of the context. -/
theorem DescrInt_sizing_invariant {V : Type} (base : BaseDescrInt) (get : Getters V)
    (size depth : Nat) (cache : Cache) (mem : Mem) (fuel : Nat) (bufs0 : UnpackBufs)
    (ops : List DistanceOp) :
    (DescrInt.DescrInt base get size depth).unpSize = (if depth = 8 then 2 * size else size) ∧
    (DescrInt.DescrInt base get size depth).microMd = 2 ∧
    (DescrInt.DescrInt base get size depth).microNd = 4 ∧
    (DescrInt.DescrInt base get size depth).microNu = 8 ∧
    (DescrInt.DescrInt base get size depth).microMu = (if depth = 8 then 6 else 5) ∧
    (afterDistanceCalls cache mem fuel bufs0 (DescrInt.DescrInt base get size depth) ops).size
      = size ∧
    (afterDistanceCalls cache mem fuel bufs0 (DescrInt.DescrInt base get size depth) ops).depth
      = depth ∧
    (afterDistanceCalls cache mem fuel bufs0 (DescrInt.DescrInt base get size depth)
      ops).encSize = base.encSize size depth ∧
    (afterDistanceCalls cache mem fuel bufs0 (DescrInt.DescrInt base get size depth)
      ops).unpSize = (if depth = 8 then 2 * size else size) ∧
    (afterDistanceCalls cache mem fuel bufs0 (DescrInt.DescrInt base get size depth)
      ops).microMd = 2 ∧
    (afterDistanceCalls cache mem fuel bufs0 (DescrInt.DescrInt base get size depth)
      ops).microNd = 4 ∧
    (afterDistanceCalls cache mem fuel bufs0 (DescrInt.DescrInt base get size depth)
      ops).microNu = 8 ∧
    (afterDistanceCalls cache mem fuel bufs0 (DescrInt.DescrInt base get size depth)
      ops).microMu = (if depth = 8 then 6 else 5) := by
  have hunp : (DescrInt.DescrInt base get size depth).unpSize
      = (if depth = 8 then 2 * size else size) := by
    simp only [DescrInt.DescrInt]
    split <;> omega
  rw [afterDistanceCalls_eq]
  exact ⟨hunp, rfl, rfl, rfl, rfl, rfl, rfl, rfl, hunp, rfl, rfl, rfl, rfl⟩

/-! ## C20 -/

theorem ImageLoaderParam.test_eq (mem : Mem) (d c : Nat) (tag : SimdImageFileType)
    (st : SimdImageFileType × List Nat) :
    (ImageLoaderParam.test mem d c tag st).1
      = (if byteAt mem d 0 = 80 ∧ byteAt mem d 1 = c then tag else st.1) ∧
    (∀ i ∈ (ImageLoaderParam.test mem d c tag st).2, i ∈ st.2 ∨ i < 2) := by
  unfold ImageLoaderParam.test
  by_cases h0 : byteAt mem d 0 = 80 <;> by_cases h1 : byteAt mem d 1 = c <;>
    simp only [h0, h1, if_true, if_false, and_self, and_false, false_and, true_and,
      List.mem_append, List.mem_cons, List.mem_singleton, List.not_mem_nil, or_false] <;>
    intro i hi <;>
    rcases hi with hi | hi <;>
    first
      | exact Or.inl hi
      | (right; omega)

/-- C20: image format sniffing.  For every buffer `(data, size)`,
`ImageLoaderParam` sets `file` to `SimdImageFilePgmTxt`, `SimdImageFilePpmTxt`,
`SimdImageFilePgmBin` or `SimdImageFilePpmBin` exactly when `size >= 2` and the
first two bytes are `'P'` followed by `'2'`, `'3'`, `'5'` or `'6'` respectively, and
to `SimdImageFileUndefined` in every other case; when `size < 2` no byte of `data`
is read (and otherwise only the bytes 0 and 1); the `data`, `size` and `format`
fields are stored unchanged. -/
theorem ImageLoaderParam_sniffs {F : Type} (mem : Mem) (d s : Nat) (f : F) :
    ((ImageLoaderParam.ImageLoaderParam mem d s f).1.file
        = SimdImageFileType.SimdImageFilePgmTxt
      ↔ (s ≥ 2 ∧ byteAt mem d 0 = 80 ∧ byteAt mem d 1 = 50)) ∧
    ((ImageLoaderParam.ImageLoaderParam mem d s f).1.file
        = SimdImageFileType.SimdImageFilePpmTxt
      ↔ (s ≥ 2 ∧ byteAt mem d 0 = 80 ∧ byteAt mem d 1 = 51)) ∧
    ((ImageLoaderParam.ImageLoaderParam mem d s f).1.file
        = SimdImageFileType.SimdImageFilePgmBin
      ↔ (s ≥ 2 ∧ byteAt mem d 0 = 80 ∧ byteAt mem d 1 = 53)) ∧
    ((ImageLoaderParam.ImageLoaderParam mem d s f).1.file
        = SimdImageFileType.SimdImageFilePpmBin
      ↔ (s ≥ 2 ∧ byteAt mem d 0 = 80 ∧ byteAt mem d 1 = 54)) ∧
    ((ImageLoaderParam.ImageLoaderParam mem d s f).1.file
        = SimdImageFileType.SimdImageFileUndefined
      ↔ ¬ (s ≥ 2 ∧ byteAt mem d 0 = 80 ∧
          (byteAt mem d 1 = 50 ∨ byteAt mem d 1 = 51 ∨ byteAt mem d 1 = 53
            ∨ byteAt mem d 1 = 54))) ∧
    (s < 2 → (ImageLoaderParam.ImageLoaderParam mem d s f).2 = []) ∧
    (∀ i ∈ (ImageLoaderParam.ImageLoaderParam mem d s f).2, i < 2 ∧ i < s) ∧
    (ImageLoaderParam.ImageLoaderParam mem d s f).1.data = d ∧
    (ImageLoaderParam.ImageLoaderParam mem d s f).1.size = s ∧
    (ImageLoaderParam.ImageLoaderParam mem d s f).1.format = f := by
  by_cases hs : s ≥ 2
  · have hfile : (ImageLoaderParam.ImageLoaderParam mem d s f).1.file
        = (if byteAt mem d 0 = 80 ∧ byteAt mem d 1 = 54 then
            SimdImageFileType.SimdImageFilePpmBin
          else if byteAt mem d 0 = 80 ∧ byteAt mem d 1 = 53 then
            SimdImageFileType.SimdImageFilePgmBin
          else if byteAt mem d 0 = 80 ∧ byteAt mem d 1 = 51 then
            SimdImageFileType.SimdImageFilePpmTxt
          else if byteAt mem d 0 = 80 ∧ byteAt mem d 1 = 50 then
            SimdImageFileType.SimdImageFilePgmTxt
          else SimdImageFileType.SimdImageFileUndefined) := by
      simp only [ImageLoaderParam.ImageLoaderParam, hs, if_true,
        (ImageLoaderParam.test_eq mem d _ _ _).1]
    have hreads : ∀ i ∈ (ImageLoaderParam.ImageLoaderParam mem d s f).2, i < 2 := by
      intro i hi
      simp only [ImageLoaderParam.ImageLoaderParam, hs, if_true] at hi
      rcases (ImageLoaderParam.test_eq mem d _ _ _).2 i hi with h | h
      · rcases (ImageLoaderParam.test_eq mem d _ _ _).2 i h with h | h
        · rcases (ImageLoaderParam.test_eq mem d _ _ _).2 i h with h | h
          · rcases (ImageLoaderParam.test_eq mem d _ _ _).2 i h with h | h
            · simp at h
            · exact h
          · exact h
        · exact h
      · exact h
    refine ⟨?_, ?_, ?_, ?_, ?_, fun h => by omega, fun i hi => ⟨hreads i hi, by
      have := hreads i hi; omega⟩, rfl, rfl, rfl⟩ <;>
    · rw [hfile]
      by_cases h0 : byteAt mem d 0 = 80 <;> by_cases h50 : byteAt mem d 1 = 50 <;>
        by_cases h51 : byteAt mem d 1 = 51 <;> by_cases h53 : byteAt mem d 1 = 53 <;>
        by_cases h54 : byteAt mem d 1 = 54 <;> simp [h0, h50, h51, h53, h54, hs]
  · have hfile : (ImageLoaderParam.ImageLoaderParam mem d s f).1.file
        = SimdImageFileType.SimdImageFileUndefined := by
      simp [ImageLoaderParam.ImageLoaderParam, hs]
    have hreads : (ImageLoaderParam.ImageLoaderParam mem d s f).2 = [] := by
      simp [ImageLoaderParam.ImageLoaderParam, hs]
    refine ⟨?_, ?_, ?_, ?_, ?_, fun _ => hreads, ?_, rfl, rfl, rfl⟩
    · rw [hfile]; simp [hs]
    · rw [hfile]; simp [hs]
    · rw [hfile]; simp [hs]
    · rw [hfile]; simp [hs]
    · rw [hfile]; simp [hs]
    · intro i hi
      rw [hreads] at hi
      simp at hi

/-! ## Blocks with a row stride -/

theorem mem_cells_iff {V : Type} (m n stride : Nat) (g : Nat → Nat → V) (w : Nat × V) :
    w ∈ cells m n stride g ↔ ∃ r c, r < m ∧ c < n ∧ w = (r * stride + c, g r c) := by
  simp only [cells, List.mem_flatMap, List.mem_range, List.mem_map]
  constructor
  · rintro ⟨r, hr, c, hc, rfl⟩
    exact ⟨r, c, hr, hc, rfl⟩
  · rintro ⟨r, c, hr, hc, rfl⟩
    exact ⟨r, hr, c, hc, rfl⟩

/-- The indices of a block whose rows do not overlap lie below `m * stride`. -/
theorem cells_keys_lt {V : Type} (m n stride : Nat) (g : Nat → Nat → V) (h : n ≤ stride) :
    ∀ k ∈ (cells m n stride g).map Prod.fst, k < m * stride := by
  intro k hk
  obtain ⟨w, hw, rfl⟩ := List.mem_map.1 hk
  obtain ⟨r, c, hr, hc, rfl⟩ := (mem_cells_iff m n stride g w).1 hw
  have h1 : (r + 1) * stride ≤ m * stride := Nat.mul_le_mul_right _ hr
  rw [Nat.succ_mul] at h1
  show r * stride + c < m * stride
  omega

/-- A block whose rows do not overlap (`n ≤ stride`) stores no index twice. -/
theorem cells_keys_nodup {V : Type} (m n stride : Nat) (g : Nat → Nat → V) (h : n ≤ stride) :
    ((cells m n stride g).map Prod.fst).Nodup := by
  induction m with
  | zero => simp [cells]
  | succ m ih =>
    rw [cells_rows_append m 1 n stride g, List.map_append, List.nodup_append]
    refine ⟨ih, ?_, ?_⟩
    · have h1 : List.range 1 = [0] := rfl
      simp only [cells, offsetWrites, h1, List.flatMap_cons, List.flatMap_nil, List.append_nil,
        List.map_map]
      refine (List.nodup_range n).map ?_
      intro a b hab
      simp only [Function.comp] at hab
      omega
    · intro k hk1 hk2
      have hlt := cells_keys_lt m n stride g h k hk1
      obtain ⟨w, hw, rfl⟩ := List.mem_map.1 hk2
      simp only [offsetWrites, List.mem_map] at hw
      obtain ⟨w', _, rfl⟩ := hw
      simp only at hlt
      omega

/-- What a store list that is a rearrangement of a block with non-overlapping rows
does to a buffer: cell `(r, c)` holds `g r c`, and every store goes to a cell. -/
theorem perm_cells_strided_facts {V : Type} (m n stride : Nat) (g : Nat → Nat → V)
    (ws : Writes V) (hn : n ≤ stride) (h : ws.Perm (cells m n stride g)) :
    (∀ init r c, r < m → c < n → applyWrites ws init (r * stride + c) = g r c) ∧
    (∀ w ∈ ws, ∃ r c, r < m ∧ c < n ∧ w = (r * stride + c, g r c)) := by
  have hnd : (ws.map Prod.fst).Nodup :=
    ((h.map Prod.fst).nodup_iff).2 (cells_keys_nodup m n stride g hn)
  constructor
  · intro init r c hr hc
    exact applyWrites_of_mem ws init _ _ hnd (h.mem_iff.2 (mem_cells m n stride g r c hr hc))
  · intro w hw
    exact (mem_cells_iff m n stride g w).1 (h.mem_iff.1 hw)

/-! ## C16 -/

/-- C16: blocked 4x4 transpose of `UnpackNormB`.  For every `count` that is a
multiple of 4 (and fuel above it) and every `stride >= count`, the
unpacklo/unpackhi shuffle network stores `dst[k * stride + i]` = the `k`-th float of
the header of descriptor `src[i]` for every `i < count` and `k` in `0..3`, and stores
no other element of `dst`. -/
theorem UnpackNormB_blocked_transpose (mem : Mem) (fuel count : Nat) (src : PtrArr)
    (stride : Nat) (h4 : count % 4 = 0) (hstride : count ≤ stride) (hfuel : count < fuel) :
    ∃ ws, UnpackNormB mem fuel count src stride = some ws ∧
      (∀ init i k, i < count → k < 4 →
        applyWrites ws init (k * stride + i) = header mem (src i) k) ∧
      (∀ w ∈ ws, ∃ i k, i < count ∧ k < 4 ∧ w = (k * stride + i, header mem (src i) k)) := by
  obtain ⟨ws, hws, hperm⟩ := UnpackNormB_perm mem fuel count src stride hfuel
  have hlo : AlignLo count 4 = count := by unfold AlignLo; omega
  have hperm' : ws.Perm (cells 4 count stride (fun k i => header mem (src i) k)) := by
    refine hperm.trans (List.Perm.of_eq ?_)
    apply cells_congr
    intro k i _ hi
    simp [hlo, hi]
  obtain ⟨hval, hall⟩ := perm_cells_strided_facts 4 count stride _ ws hstride hperm'
  refine ⟨ws, hws, fun init i k hi hk => hval init k i hk hi, ?_⟩
  intro w hw
  obtain ⟨k, i, hk, hi, hwe⟩ := hall w hw
  exact ⟨i, k, hi, hk, hwe⟩

/-- C16, witness: the first eight descriptors of the sample B side, `stride = 10`. -/
theorem UnpackNormB_blocked_transpose_witness :
    ∃ ws, UnpackNormB sampleMem 9 8 sampleB 10 = some ws ∧
      applyWrites ws (fun _ => 0) (2 * 10 + 5) = header sampleMem (sampleB 5) 2 ∧
      (∀ w ∈ ws, ∃ i k, i < 8 ∧ k < 4 ∧ w = (k * 10 + i, header sampleMem (sampleB i) k)) := by
  obtain ⟨ws, h, hv, hall⟩ := UnpackNormB_blocked_transpose sampleMem 9 8 sampleB 10
    (by decide) (by decide) (by decide)
  exact ⟨ws, h, hv _ 5 2 (by decide) (by decide), hall⟩

/-! ## C17 -/

/-- The indices `MinMax32f` reads: `0 .. size - 1`, in order. -/
theorem MinMax32f_reads (src : Nat → Int) (size fuel : Nat) (h4 : size % 4 = 0)
    (hfuel : size < fuel) :
    ∃ r, MinMax32f fuel src size = some r ∧ r.reads = List.range size := by
  have hloop := forLoop_eq_foldl 4 (size / 4) 0 (MinMax32f.body src) (by decide) fuel
    (by omega)
    ({ min := _mm_set1_ps FLT_MAX, max := _mm_set1_ps (-FLT_MAX), reads := [] } : MinMaxState)
  rw [show 0 + size / 4 * 4 = size by omega] at hloop
  obtain ⟨hreads, _⟩ := MinMax32f_loop_state src (size / 4)
  rw [show 4 * (size / 4) = size by omega] at hreads
  simp only [MinMax32f, hloop, Option.map_some']
  exact ⟨_, rfl, hreads⟩

theorem MinMax16f_body_eq (cvt : Nat → Int) (src : Nat → Nat) (i : Nat) (st : MinMaxState) :
    MinMax16f.body cvt src i st = MinMax32f.body (fun j => cvt (src j % 65536)) i st := rfl

/-- C17: the two reducers agree.  For every vector of 16-bit half-floats,
`MinMax16f(src, size)` returns the same `(min, max)` as `MinMax32f` applied to the
vector obtained by converting each element with `Float16ToFloat32`; when the size is
a multiple of 8 (and the fuel above it) each chunk of 4 halves is loaded and
converted in order, without skipping or repeating an element: the indices read are
`0 .. size - 1`, each once. -/
theorem MinMax16f_agrees_MinMax32f (cvt : Nat → Int) (src : Nat → Nat) (size fuel : Nat)
    (h8 : size % 8 = 0) (hfuel : size < fuel) :
    MinMax16f cvt fuel src size = MinMax32f fuel (fun j => cvt (src j % 65536)) size ∧
    ∃ r, MinMax16f cvt fuel src size = some r ∧ r.reads = List.range size := by
  have heq : MinMax16f cvt fuel src size
      = MinMax32f fuel (fun j => cvt (src j % 65536)) size := by
    unfold MinMax16f MinMax32f
    simp only [MinMax16f_body_eq]
  refine ⟨heq, ?_⟩
  rw [heq]
  exact MinMax32f_reads _ size fuel (by omega) hfuel

/-- C17, witness: the sample vector of 8 half-floats. -/
theorem MinMax16f_agrees_MinMax32f_witness :
    MinMax16f sampleHalfToFloat 9 sampleHalves 8
      = MinMax32f 9 (fun j => sampleHalfToFloat (sampleHalves j % 65536)) 8 ∧
    ∃ r, MinMax16f sampleHalfToFloat 9 sampleHalves 8 = some r ∧ r.reads = List.range 8 :=
  MinMax16f_agrees_MinMax32f sampleHalfToFloat sampleHalves 8 9 (by decide) (by decide)

/-! ## The tiles of the nested loops -/

theorem tileCount_spec (bound step : Nat) (hstep : 0 < step) :
    bound ≤ tileCount bound step * step ∧
      (tileCount bound step = 0 ∨ (tileCount bound step - 1) * step < bound) := by
  unfold tileCount
  have h1 := Nat.div_mul_le_self (bound + step - 1) step
  have h2 := Nat.lt_div_mul_add (a := bound + step - 1) hstep
  constructor
  · omega
  · by_cases h0 : (bound + step - 1) / step = 0
    · exact Or.inl h0
    · right
      rw [Nat.sub_mul]
      have : step ≤ (bound + step - 1) / step * step := Nat.le_mul_of_pos_left _ (Nat.pos_of_ne_zero h0)
      omega

theorem forLoop_eq_foldlM_aux {σ : Type} (bound step : Nat) (body : Nat → σ → Option σ) :
    ∀ m k0 fuel s, bound ≤ (k0 + m) * step → (m = 0 ∨ (k0 + m - 1) * step < bound) →
      m < fuel →
      forLoop bound step body fuel (k0 * step) s
        = ((List.range' k0 m).map (fun k => k * step)).foldlM (fun s i => body i s) s := by
  intro m
  induction m with
  | zero =>
    intro k0 fuel s hb _ hfuel
    obtain ⟨f, rfl⟩ : ∃ f, fuel = f + 1 := ⟨fuel - 1, by omega⟩
    have : ¬ k0 * step < bound := by simpa using hb
    simp [forLoop, this]
  | succ m ih =>
    intro k0 fuel s hb hlast hfuel
    obtain ⟨f, rfl⟩ : ∃ f, fuel = f + 1 := ⟨fuel - 1, by omega⟩
    have hlast' : (k0 + m) * step < bound := by
      rcases hlast with h | h
      · omega
      · simpa using h
    have hk0 : k0 * step < bound :=
      lt_of_le_of_lt (Nat.mul_le_mul_right _ (Nat.le_add_right _ _)) hlast'
    have hnext : k0 * step + step = (k0 + 1) * step := by rw [Nat.add_mul, Nat.one_mul]
    have ih' := fun s' => ih (k0 + 1) f s' (by rw [show k0 + 1 + m = k0 + (m + 1) by omega]; exact hb)
      (by
        by_cases hm : m = 0
        · exact Or.inl hm
        · right
          rw [show k0 + 1 + m - 1 = k0 + m by omega]; exact hlast') (by omega)
    simp only [forLoop, hk0, if_true, List.range'_succ, List.map_cons, List.foldlM_cons, hnext]
    cases body (k0 * step) s with
    | none => rfl
    | some s' => exact ih' s'

/-- A loop with a positive step is the fold of its body over the values of its counter. -/
theorem forLoop_eq_foldlM {σ : Type} (bound step : Nat) (body : Nat → σ → Option σ)
    (hstep : 0 < step) (fuel : Nat) (hfuel : bound < fuel) (s : σ) :
    forLoop bound step body fuel 0 s
      = (tileStarts bound step).foldlM (fun s i => body i s) s := by
  obtain ⟨h1, h2⟩ := tileCount_spec bound step hstep
  have hle : tileCount bound step ≤ bound := by
    rcases h2 with h | h
    · omega
    · have : tileCount bound step - 1 ≤ (tileCount bound step - 1) * step :=
        Nat.le_mul_of_pos_right _ hstep
      omega
  have := forLoop_eq_foldlM_aux bound step body (tileCount bound step) 0 fuel s
    (by simpa using h1) (by simpa using h2) (by omega)
  simpa [tileStarts, List.range_eq_range'] using this

theorem mem_tileStarts (bound step i : Nat) (hstep : 0 < step)
    (h : i ∈ tileStarts bound step) : i < bound ∧ step ∣ i := by
  obtain ⟨h1, h2⟩ := tileCount_spec bound step hstep
  unfold tileStarts at h
  obtain ⟨k, hk, rfl⟩ := List.mem_map.1 h
  have hk' := List.mem_range.1 hk
  refine ⟨?_, Dvd.intro_left k rfl⟩
  rcases h2 with h0 | h2
  · omega
  · exact lt_of_le_of_lt (Nat.mul_le_mul_right _ (by omega)) h2

theorem tileStarts_nodup (bound step : Nat) (hstep : 0 < step) :
    (tileStarts bound step).Nodup :=
  (List.nodup_range _).map (fun _ _ h => Nat.eq_of_mul_eq_mul_right hstep h)

theorem length_tileStarts (bound step : Nat) :
    (tileStarts bound step).length = tileCount bound step := by
  simp [tileStarts]

theorem tileStarts_sum (bound step : Nat) (hstep : 0 < step) :
    ((tileStarts bound step).map (fun i => Min bound (i + step) - i)).sum = bound := by
  have key : ∀ k, ((List.range k).map (fun a => Min bound (a * step + step) - a * step)).sum
      = Min bound (k * step) := by
    intro k
    induction k with
    | zero => simp [Min_eq_min]
    | succ k ih =>
      rw [List.range_succ, List.map_append, List.sum_append, ih]
      simp only [List.map_cons, List.map_nil, List.sum_cons, List.sum_nil, Min_eq_min,
        Nat.succ_mul]
      omega
  obtain ⟨h1, _⟩ := tileCount_spec bound step hstep
  unfold tileStarts
  rw [List.map_map]
  have := key (tileCount bound step)
  rw [Min_eq_min, Nat.min_eq_left h1] at this
  exact this

theorem length_flatMap_map {ι κ T : Type} (L : List ι) (R : List κ) (t : ι → κ → T) :
    (L.flatMap (fun i => R.map (t i))).length = L.length * R.length := by
  induction L with
  | nil => simp
  | cons a L ih => simp [ih, Nat.succ_mul, Nat.add_comm]

theorem sum_filter_map_key {κ T : Type} [DecidableEq κ] (R : List κ) (hnd : R.Nodup)
    (j0 : κ) (hj0 : j0 ∈ R) (key : T → κ) (g : T → Nat) (t : κ → T)
    (hkey : ∀ j, key (t j) = j) :
    (((R.map t).filter (fun x => decide (key x = j0))).map g).sum = g (t j0) := by
  induction R with
  | nil => simp at hj0
  | cons a R ih =>
    have hnd' := List.nodup_cons.1 hnd
    by_cases ha : a = j0
    · subst ha
      have hnil : (R.map t).filter (fun x => decide (key x = a)) = [] := by
        rw [List.filter_eq_nil_iff]
        intro x hx
        obtain ⟨j, hj, rfl⟩ := List.mem_map.1 hx
        simp only [hkey, decide_eq_true_eq]
        intro h
        exact hnd'.1 (h ▸ hj)
      simp [List.filter_cons, hkey, hnil]
    · have hmem : j0 ∈ R := by
        rcases List.mem_cons.1 hj0 with h | h
        · exact absurd h.symm ha
        · exact h
      simp [List.filter_cons, hkey, ha, ih hnd'.2 hmem]

theorem sum_filter_flatMap {ι T : Type} (L : List ι) (f : ι → List T) (p : T → Bool)
    (g : T → Nat) :
    (((L.flatMap f).filter p).map g).sum
      = (L.map (fun i => (((f i).filter p).map g).sum)).sum := by
  induction L with
  | nil => simp
  | cons a L ih => simp [List.filter_append, ih]

theorem sum_map_single {ι : Type} [DecidableEq ι] (L : List ι) (hnd : L.Nodup) (i0 : ι)
    (hi0 : i0 ∈ L) (S : ι → Nat) (hS : ∀ i, i ≠ i0 → S i = 0) :
    (L.map S).sum = S i0 := by
  induction L with
  | nil => simp at hi0
  | cons a L ih =>
    have hnd' := List.nodup_cons.1 hnd
    by_cases ha : a = i0
    · subst ha
      have hz : (L.map S).sum = 0 := by
        apply List.sum_eq_zero
        intro x hx
        obtain ⟨i, hi, rfl⟩ := List.mem_map.1 hx
        exact hS i (fun h => hnd'.1 (h ▸ hi))
      simp [hz]
    · have hmem : i0 ∈ L := by
        rcases List.mem_cons.1 hi0 with h | h
        · exact absurd h.symm ha
        · exact h
      simp [hS a ha, ih hnd'.2 hmem]

/-- The shapes of the tiles of two nested tile loops with positive steps. -/
theorem tileGrid_facts (M N mM mN : Nat) (hmM : 0 < mM) (hmN : 0 < mN) :
    (tileGrid M N mM mN).length = tileCount M mM * tileCount N mN ∧
    (∀ t ∈ tileGrid M N mM mN, t.1 ∈ tileStarts M mM ∧ t.2.1 ∈ tileStarts N mN ∧
      t.2.2.1 = Min M (t.1 + mM) - t.1 ∧ t.2.2.2 = Min N (t.2.1 + mN) - t.2.1) ∧
    (∀ j ∈ tileStarts N mN,
      (((tileGrid M N mM mN).filter (fun t => decide (t.2.1 = j))).map
        (fun t => t.2.2.1)).sum = M) ∧
    (∀ i ∈ tileStarts M mM,
      (((tileGrid M N mM mN).filter (fun t => decide (t.1 = i))).map
        (fun t => t.2.2.2)).sum = N) := by
  refine ⟨?_, ?_, ?_, ?_⟩
  · unfold tileGrid
    rw [length_flatMap_map, length_tileStarts, length_tileStarts]
  · intro t ht
    unfold tileGrid at ht
    obtain ⟨i, hi, ht⟩ := List.mem_flatMap.1 ht
    obtain ⟨j, hj, rfl⟩ := List.mem_map.1 ht
    exact ⟨hi, hj, rfl, rfl⟩
  · intro j hj
    unfold tileGrid
    rw [sum_filter_flatMap]
    have : ∀ i, ((((tileStarts N mN).map (fun j =>
        (i, j, Min M (i + mM) - i, Min N (j + mN) - j))).filter
          (fun t => decide (t.2.1 = j))).map (fun t => t.2.2.1)).sum = Min M (i + mM) - i := by
      intro i
      exact sum_filter_map_key (tileStarts N mN) (tileStarts_nodup N mN hmN) j hj
        (fun t : Nat × Nat × Nat × Nat => t.2.1) (fun t => t.2.2.1)
        (fun j => (i, j, Min M (i + mM) - i, Min N (j + mN) - j)) (fun _ => rfl)
    simp only [this]
    exact tileStarts_sum M mM hmM
  · intro i hi
    unfold tileGrid
    rw [sum_filter_flatMap]
    rw [sum_map_single (tileStarts M mM) (tileStarts_nodup M mM hmM) i hi]
    · have : ((tileStarts N mN).map (fun j =>
          (i, j, Min M (i + mM) - i, Min N (j + mN) - j))).filter
            (fun t => decide (t.1 = i))
          = (tileStarts N mN).map (fun j =>
          (i, j, Min M (i + mM) - i, Min N (j + mN) - j)) := by
        rw [List.filter_eq_self]
        intro t ht
        obtain ⟨j, _, rfl⟩ := List.mem_map.1 ht
        simp
      rw [this, List.map_map]
      exact tileStarts_sum N mN hmN
    · intro i' hne
      have : ((tileStarts N mN).map (fun j =>
          (i', j, Min M (i' + mM) - i', Min N (j + mN) - j))).filter
            (fun t => decide (t.1 = i)) = [] := by
        rw [List.filter_eq_nil_iff]
        intro t ht
        obtain ⟨j, _, rfl⟩ := List.mem_map.1 ht
        simpa using hne
      rw [this]
      rfl

theorem tileStarts_not_last (bound step i : Nat) (hstep : 0 < step)
    (h : i ∈ tileStarts bound step) (hne : i ≠ (tileCount bound step - 1) * step) :
    i + step < bound := by
  obtain ⟨_, h2⟩ := tileCount_spec bound step hstep
  unfold tileStarts at h
  obtain ⟨k, hk, rfl⟩ := List.mem_map.1 h
  have hk' := List.mem_range.1 hk
  have hk1 : k + 1 ≤ tileCount bound step - 1 := by
    by_contra hcon
    apply hne
    rw [show tileCount bound step - 1 = k by omega]
  rcases h2 with h0 | h2
  · omega
  · have := Nat.mul_le_mul_right step hk1
    rw [Nat.succ_mul] at this
    omega

/-- A fold of a body that keeps an invariant of the processed prefix and the state
returns, and the invariant holds of the whole list. -/
theorem foldlM_inv {σ ι : Type} (body : σ → ι → Option σ) (Inv : List ι → σ → Prop) :
    ∀ (l done : List ι) (s : σ),
      (∀ d i s, i ∈ l → Inv d s → ∃ s', body s i = some s' ∧ Inv (d ++ [i]) s') →
      Inv done s → ∃ s', l.foldlM body s = some s' ∧ Inv (done ++ l) s' := by
  intro l
  induction l with
  | nil => intro done s _ h; exact ⟨s, rfl, by simpa using h⟩
  | cons a l ih =>
    intro done s hbody h
    obtain ⟨s1, hs1, h1⟩ := hbody done a s (List.mem_cons_self _ _) h
    obtain ⟨s2, hs2, h2⟩ := ih (done ++ [a]) s1
      (fun d i s hi => hbody d i s (List.mem_cons_of_mem _ hi)) h1
    refine ⟨s2, ?_, by simpa using h2⟩
    rw [List.foldlM_cons, hs1]
    exact hs2

/-- The invocations of `CosineDistancesDirect`, tile by tile. -/
theorem CosineDistancesDirect_loops_shape {V : Type} (ctx : DescrInt V) (mem : Mem)
    (fuel M N : Nat) (A B : PtrArr) (mM mN : Nat) (hmM : 0 < mM) (hmN : 0 < mN)
    (hfM : M < fuel) (hfN : N < fuel) :
    ∃ calls, CosineDistancesDirect.loops ctx mem fuel M N A B mM mN = some calls ∧
      calls.map TileCall.shape = tileGrid M N mM mN ∧
      ∀ c ∈ calls, c.kernel = Strategy.direct ∧ c.out = c.row * N + c.col ∧ c.stride = N ∧
        c.bufs = none ∧ c.writes = ctx.macroCosineDistancesDirect mem c.dM c.dN
          (A.shift c.row) (B.shift c.col) ctx.size N := by
  unfold CosineDistancesDirect.loops
  simp only [forLoop_eq_foldlM _ _ _ hmM _ hfM, forLoop_eq_foldlM _ _ _ hmN _ hfN]
  let P : TileCall V → Prop := fun c =>
    c.kernel = Strategy.direct ∧ c.out = c.row * N + c.col ∧ c.stride = N ∧
      c.bufs = none ∧ c.writes = ctx.macroCosineDistancesDirect mem c.dM c.dN
        (A.shift c.row) (B.shift c.col) ctx.size N
  have hinner : ∀ i (calls : List (TileCall V)), (∀ c ∈ calls, P c) →
      ∃ calls', (tileStarts N mN).foldlM (fun calls j =>
          some (CosineDistancesDirect.tile ctx mem N (Min M (i + mM) - i)
            (Min N (j + mN) - j) A B i j calls)) calls = some calls' ∧
        calls'.map TileCall.shape = calls.map TileCall.shape ++
          (tileStarts N mN).map (fun j => (i, j, Min M (i + mM) - i, Min N (j + mN) - j)) ∧
        ∀ c ∈ calls', P c := by
    intro i calls hP
    obtain ⟨s', h, hinv, hP'⟩ := foldlM_inv (fun calls j =>
        some (CosineDistancesDirect.tile ctx mem N (Min M (i + mM) - i)
          (Min N (j + mN) - j) A B i j calls))
      (fun d (s : List (TileCall V)) => s.map TileCall.shape = calls.map TileCall.shape ++
          d.map (fun j => (i, j, Min M (i + mM) - i, Min N (j + mN) - j)) ∧ ∀ c ∈ s, P c)
      (tileStarts N mN) [] calls
      (by
        intro d j s _ hs
        refine ⟨_, rfl, ?_, ?_⟩
        · simp [CosineDistancesDirect.tile, hs.1, TileCall.shape]
        · intro c hc
          rcases List.mem_append.1 hc with hc | hc
          · exact hs.2 c hc
          · rw [List.mem_singleton.1 hc]
            exact ⟨rfl, rfl, rfl, rfl, rfl⟩)
      ⟨by simp, hP⟩
    exact ⟨s', h, by simpa using hinv, hP'⟩
  obtain ⟨s', h, hinv⟩ := foldlM_inv (fun calls i =>
      (tileStarts N mN).foldlM (fun calls j =>
        some (CosineDistancesDirect.tile ctx mem N (Min M (i + mM) - i)
          (Min N (j + mN) - j) A B i j calls)) calls)
    (fun d (s : List (TileCall V)) => s.map TileCall.shape = d.flatMap (fun i =>
      (tileStarts N mN).map (fun j => (i, j, Min M (i + mM) - i, Min N (j + mN) - j)))
      ∧ ∀ c ∈ s, P c)
    (tileStarts M mM) [] []
    (by
      intro d i s _ hs
      obtain ⟨s', h, hs', hP'⟩ := hinner i s hs.2
      exact ⟨s', h, by simp [hs', hs.1], hP'⟩)
    ⟨by simp, by simp⟩
  exact ⟨s', h, by simpa [tileGrid] using hinv.1, hinv.2⟩

/-- Rounding down to a multiple: `AlignLoAny(q, m)` is the largest multiple of `m`
that does not exceed `q`. -/
theorem AlignLoAny_spec (q m : Nat) (hm : 0 < m) :
    m ∣ AlignLoAny q m ∧ AlignLoAny q m ≤ q ∧ q < AlignLoAny q m + m := by
  unfold AlignLoAny
  exact ⟨Dvd.intro_left _ rfl, Nat.div_mul_le_self q m, Nat.lt_div_mul_add hm⟩

/-! ## C15 -/

/-- C15: Direct tile shapes.  With `mM = AlignLoAny(L2 / encSize, microMd)` and
`mN = AlignLoAny(L2 / encSize, microNd)` both positive, each is the largest multiple
of its micro-tile size that does not exceed `L2 / encSize`; for every `M`, `N` (and
fuel above them) `CosineDistancesDirect` returns, and it has invoked the macro-kernel
exactly `ceil(M / mM) * ceil(N / mN)` times (`tileCount`, the least `n` with
`M <= n * mM`); every invocation has `1 <= dM <= mM` and `1 <= dN <= mN`; every
row-tile except the last has `dM = mM` and every column-tile except the last has
`dN = mN`; and the `dM` of the tiles of one column of tiles sum to `M`, the `dN` of
the tiles of one row of tiles sum to `N`. -/
theorem CosineDistancesDirect_tile_shapes {V : Type} (ctx : DescrInt V) (cache : Cache)
    (mem : Mem) (fuel M N : Nat) (A B : PtrArr) (mM mN : Nat)
    (hM : mM = AlignLoAny (cache.L2 / ctx.encSize) ctx.microMd)
    (hN : mN = AlignLoAny (cache.L2 / ctx.encSize) ctx.microNd)
    (hmM : 0 < mM) (hmN : 0 < mN) (hfM : M < fuel) (hfN : N < fuel) :
    (ctx.microMd ∣ mM ∧ mM ≤ cache.L2 / ctx.encSize
      ∧ cache.L2 / ctx.encSize < mM + ctx.microMd) ∧
    (ctx.microNd ∣ mN ∧ mN ≤ cache.L2 / ctx.encSize
      ∧ cache.L2 / ctx.encSize < mN + ctx.microNd) ∧
    (M ≤ tileCount M mM * mM ∧ tileCount M mM * mM < M + mM) ∧
    (N ≤ tileCount N mN * mN ∧ tileCount N mN * mN < N + mN) ∧
    ∃ calls, CosineDistancesDirect ctx cache mem fuel M N A B = some calls ∧
      calls.length = tileCount M mM * tileCount N mN ∧
      (∀ c ∈ calls, c.kernel = Strategy.direct ∧
        1 ≤ c.dM ∧ c.dM ≤ mM ∧ 1 ≤ c.dN ∧ c.dN ≤ mN ∧
        (c.row ≠ (tileCount M mM - 1) * mM → c.dM = mM) ∧
        (c.col ≠ (tileCount N mN - 1) * mN → c.dN = mN)) ∧
      (∀ j ∈ tileStarts N mN,
        ((calls.filter (fun c => decide (c.col = j))).map (fun c => c.dM)).sum = M) ∧
      (∀ i ∈ tileStarts M mM,
        ((calls.filter (fun c => decide (c.row = i))).map (fun c => c.dN)).sum = N) := by
  have hdM : 0 < ctx.microMd := by
    rcases Nat.eq_zero_or_pos ctx.microMd with h | h
    · rw [hM, h] at hmM; simp [AlignLoAny] at hmM
    · exact h
  have hdN : 0 < ctx.microNd := by
    rcases Nat.eq_zero_or_pos ctx.microNd with h | h
    · rw [hN, h] at hmN; simp [AlignLoAny] at hmN
    · exact h
  have henc : ctx.encSize ≠ 0 := divisor_ne_zero_of_pos cache.L2 ctx.encSize ctx.microMd
    (by rw [← hM]; exact hmM)
  have hcount : ∀ bound step, 0 < step →
      bound ≤ tileCount bound step * step ∧ tileCount bound step * step < bound + step := by
    intro bound step hstep
    obtain ⟨h1, h2⟩ := tileCount_spec bound step hstep
    refine ⟨h1, ?_⟩
    rcases h2 with h0 | h2
    · rw [h0]; omega
    · rw [Nat.sub_mul] at h2
      have : step ≤ tileCount bound step * step :=
        Nat.le_mul_of_pos_left _ (Nat.pos_of_ne_zero (by
          intro h0; rw [h0] at h1; omega))
      omega
  refine ⟨by rw [hM]; exact AlignLoAny_spec _ _ hdM, by rw [hN]; exact AlignLoAny_spec _ _ hdN,
    hcount M mM hmM, hcount N mN hmN, ?_⟩
  obtain ⟨calls, hcalls, hshape, hP⟩ :=
    CosineDistancesDirect_loops_shape ctx mem fuel M N A B mM mN hmM hmN hfM hfN
  obtain ⟨hlen, hmem, hcol, hrow⟩ := tileGrid_facts M N mM mN hmM hmN
  refine ⟨calls, ?_, ?_, ?_, ?_, ?_⟩
  · rw [CosineDistancesDirect_of_ne ctx cache mem fuel M N A B henc, ← hcalls, hM, hN]
    rfl
  · rw [← hlen, ← hshape, List.length_map]
  · intro c hc
    have hin : c.shape ∈ tileGrid M N mM mN := by
      rw [← hshape]; exact List.mem_map_of_mem _ hc
    obtain ⟨hr, hcl, hdm, hdn⟩ := hmem _ hin
    have hr' := mem_tileStarts M mM _ hmM hr
    have hc' := mem_tileStarts N mN _ hmN hcl
    have hr2 := tileStarts_not_last M mM _ hmM hr
    have hc2 := tileStarts_not_last N mN _ hmN hcl
    simp only [TileCall.shape, Min_eq_min] at hr' hc' hr2 hc2 hdm hdn
    refine ⟨(hP c hc).1, by omega, by omega, by omega, by omega, ?_, ?_⟩
    · intro hne
      have := hr2 hne
      omega
    · intro hne
      have := hc2 hne
      omega
  · intro j hj
    have := hcol j hj
    rw [← hshape, List.filter_map, List.map_map] at this
    exact this
  · intro i hi
    have := hrow i hi
    rw [← hshape, List.filter_map, List.map_map] at this
    exact this

/-- C15, witness: the sample context with a cache of `L2 = 110` bytes
(`encSize = 22`, so `mM = mN = 4`) on a `9 x 6` problem: `3 * 2` invocations. -/
theorem CosineDistancesDirect_tile_shapes_witness :
    ∃ calls, CosineDistancesDirect sampleCtx smallCache sampleMem 10 9 6 sampleA sampleB
        = some calls ∧
      calls.length = 6 ∧
      (∀ c ∈ calls, 1 ≤ c.dM ∧ c.dM ≤ 4 ∧ 1 ≤ c.dN ∧ c.dN ≤ 4) := by
  obtain ⟨_, _, _, _, calls, h, hlen, hall, _, _⟩ :=
    CosineDistancesDirect_tile_shapes sampleCtx smallCache sampleMem 10 9 6 sampleA sampleB
      4 4 (by decide) (by decide) (by decide) (by decide) (by decide) (by decide)
  exact ⟨calls, h, hlen, fun c hc => ⟨(hall c hc).2.1, (hall c hc).2.2.1, (hall c hc).2.2.2.1,
    (hall c hc).2.2.2.2.1⟩⟩

/-! ## The blocks of the Unpack strategy -/

/-- The loops of `CosineDistancesUnpack`, unrolled. -/
theorem CosineDistancesUnpack_loops_eq_foldlM {V : Type} (ctx : DescrInt V) (mem : Mem)
    (fuel M N : Nat) (A B : PtrArr) (bufs0 : UnpackBufs) (macroM macroN : Nat)
    (hmM : 0 < macroM) (hmN : 0 < macroN) (hfM : M < fuel) (hfN : N < fuel) :
    CosineDistancesUnpack.loops ctx mem fuel M N A B bufs0 macroM macroN
      = (tileStarts M macroM).foldlM (fun st i =>
          (CosineDistancesUnpack.unpackA ctx mem fuel (Min M (i + macroM) - i) A i st).bind
            (fun st => (tileStarts N macroN).foldlM (fun st j =>
              CosineDistancesUnpack.tile ctx mem fuel N (Min M (i + macroM) - i)
                (Min N (j + macroN) - j) B i j st) st))
          { bufs := bufs0, calls := [] } := by
  unfold CosineDistancesUnpack.loops
  simp only [forLoop_eq_foldlM _ _ _ hmM _ hfM, forLoop_eq_foldlM _ _ _ hmN _ hfN]

/-- The invocations of `CosineDistancesUnpack`, tile by tile, when the norm unpackers
return. -/
theorem CosineDistancesUnpack_loops_shape {V : Type} (ctx : DescrInt V) (mem : Mem)
    (fuel M N : Nat) (A B : PtrArr) (bufs0 : UnpackBufs) (macroM macroN : Nat)
    (hmM : 0 < macroM) (hmN : 0 < macroN) (hfM : M < fuel) (hfN : N < fuel)
    (hA : ∀ count src stride, count < fuel →
      ∃ w, ctx.unpackNormA mem fuel count src stride = some w)
    (hB : ∀ count src stride, count < fuel →
      ∃ w, ctx.unpackNormB mem fuel count src stride = some w) :
    ∃ st, CosineDistancesUnpack.loops ctx mem fuel M N A B bufs0 macroM macroN = some st ∧
      st.calls.map TileCall.shape = tileGrid M N macroM macroN ∧
      ∀ c ∈ st.calls, UnpackCallSpec ctx mem fuel N A B c := by
  rw [CosineDistancesUnpack_loops_eq_foldlM ctx mem fuel M N A B bufs0 macroM macroN
    hmM hmN hfM hfN]
  have hinner : ∀ i (st : UnpackState V), i ∈ tileStarts M macroM →
      (∃ wA nA0 dA0,
        ctx.unpackNormA mem fuel (Min M (i + macroM) - i) (A.shift i) 1 = some wA ∧
        st.bufs.nA = applyWrites wA nA0 ∧
        st.bufs.dA = ctx.unpackDataA mem (Min M (i + macroM) - i) (A.shift i) ctx.size dA0
          ctx.unpSize) →
      (∀ c ∈ st.calls, UnpackCallSpec ctx mem fuel N A B c) →
      ∃ st', (tileStarts N macroN).foldlM (fun st j =>
          CosineDistancesUnpack.tile ctx mem fuel N (Min M (i + macroM) - i)
            (Min N (j + macroN) - j) B i j st) st = some st' ∧
        st'.calls.map TileCall.shape = st.calls.map TileCall.shape ++
          (tileStarts N macroN).map (fun j =>
            (i, j, Min M (i + macroM) - i, Min N (j + macroN) - j)) ∧
        ∀ c ∈ st'.calls, UnpackCallSpec ctx mem fuel N A B c := by
    intro i st hi hgood hP
    obtain ⟨st', h, _, hinv, hP'⟩ := foldlM_inv (fun st j =>
          CosineDistancesUnpack.tile ctx mem fuel N (Min M (i + macroM) - i)
            (Min N (j + macroN) - j) B i j st)
      (fun d (s : UnpackState V) =>
        (∃ wA nA0 dA0,
          ctx.unpackNormA mem fuel (Min M (i + macroM) - i) (A.shift i) 1 = some wA ∧
          s.bufs.nA = applyWrites wA nA0 ∧
          s.bufs.dA = ctx.unpackDataA mem (Min M (i + macroM) - i) (A.shift i) ctx.size dA0
            ctx.unpSize) ∧
        s.calls.map TileCall.shape = st.calls.map TileCall.shape ++
          d.map (fun j => (i, j, Min M (i + macroM) - i, Min N (j + macroN) - j)) ∧
        ∀ c ∈ s.calls, UnpackCallSpec ctx mem fuel N A B c)
      (tileStarts N macroN) [] st
      (by
        intro d j s hj ⟨⟨wA, nA0, dA0, hwA, hnA, hdA⟩, hs, hPs⟩
        have hj' := mem_tileStarts N macroN j hmN hj
        obtain ⟨wB, hwB⟩ := hB (Min N (j + macroN) - j) (B.shift j) (Min N (j + macroN) - j)
          (by rw [Min_eq_min]; omega)
        have htile : CosineDistancesUnpack.tile ctx mem fuel N (Min M (i + macroM) - i)
            (Min N (j + macroN) - j) B i j s
            = some ({ bufs := { s.bufs with
                        nB := applyWrites wB s.bufs.nB,
                        dB := ctx.unpackDataB mem (Min N (j + macroN) - j) (B.shift j) ctx.size
                          s.bufs.dB 1 },
                      calls := s.calls ++ [{
                        kernel := Strategy.unpack, dM := Min M (i + macroM) - i,
                        dN := Min N (j + macroN) - j, row := i, col := j,
                        out := i * N + j, stride := N,
                        bufs := some { s.bufs with
                          nB := applyWrites wB s.bufs.nB,
                          dB := ctx.unpackDataB mem (Min N (j + macroN) - j) (B.shift j)
                            ctx.size s.bufs.dB 1 },
                        writes := ctx.macroCosineDistancesUnpack (Min M (i + macroM) - i)
                          (Min N (j + macroN) - j) ctx.size s.bufs.dA s.bufs.nA
                          (ctx.unpackDataB mem (Min N (j + macroN) - j) (B.shift j) ctx.size
                            s.bufs.dB 1)
                          (applyWrites wB s.bufs.nB) N }] } : UnpackState V) := by
          simp only [CosineDistancesUnpack.tile, hwB, Option.map_some']
        refine ⟨_, htile, ?_, ?_, ?_⟩
        · exact ⟨wA, nA0, dA0, hwA, hnA, hdA⟩
        · simp [hs, TileCall.shape]
        · intro c hc
          rcases List.mem_append.1 hc with hc | hc
          · exact hPs c hc
          · rw [List.mem_singleton.1 hc]
            exact ⟨rfl, rfl, rfl, _, wA, wB, nA0, dA0, s.bufs.nB, s.bufs.dB, rfl, hwA, hnA, hdA,
              hwB, rfl, rfl, rfl⟩)
      ⟨hgood, by simp, hP⟩
    exact ⟨st', h, by simpa using hinv, hP'⟩
  obtain ⟨st', h, hinv, hP⟩ := foldlM_inv (fun st i =>
      (CosineDistancesUnpack.unpackA ctx mem fuel (Min M (i + macroM) - i) A i st).bind
        (fun st => (tileStarts N macroN).foldlM (fun st j =>
          CosineDistancesUnpack.tile ctx mem fuel N (Min M (i + macroM) - i)
            (Min N (j + macroN) - j) B i j st) st))
    (fun d (s : UnpackState V) => s.calls.map TileCall.shape = d.flatMap (fun i =>
      (tileStarts N macroN).map (fun j =>
        (i, j, Min M (i + macroM) - i, Min N (j + macroN) - j)))
      ∧ ∀ c ∈ s.calls, UnpackCallSpec ctx mem fuel N A B c)
    (tileStarts M macroM) [] { bufs := bufs0, calls := [] }
    (by
      intro d i s hi ⟨hs, hPs⟩
      have hi' := mem_tileStarts M macroM i hmM hi
      obtain ⟨wA, hwA⟩ := hA (Min M (i + macroM) - i) (A.shift i) 1
        (by rw [Min_eq_min]; omega)
      obtain ⟨s', h, hs', hP'⟩ := hinner i
        { s with bufs := { s.bufs with
            nA := applyWrites wA s.bufs.nA,
            dA := ctx.unpackDataA mem (Min M (i + macroM) - i) (A.shift i) ctx.size s.bufs.dA
              ctx.unpSize } } hi
        ⟨wA, s.bufs.nA, s.bufs.dA, hwA, rfl, rfl⟩ hPs
      refine ⟨s', ?_, ?_, hP'⟩
      · simp only [CosineDistancesUnpack.unpackA, hwA, Option.map_some', Option.some_bind]
        exact h
      · simp [hs', hs])
    ⟨by simp, by simp⟩
  exact ⟨st', h, by simpa [tileGrid] using hinv, hP⟩

theorem cells_map_snd (a b m n stride : Nat) :
    (cells m n stride (fun r c => (a + r, b + c))).map Prod.snd = blockIndices a b m n := by
  unfold cells blockIndices
  rw [List.map_flatMap]
  simp [List.map_map, Function.comp_def]

theorem offsetWrites_map_snd {V : Type} (off : Nat) (ws : Writes V) :
    (offsetWrites off ws).map Prod.snd = ws.map Prod.snd := by
  simp [offsetWrites, List.map_map, Function.comp_def]

/-- The tiles of two nested tile loops with positive steps partition the `M × N`
index space: listing the index pairs of every tile gives every pair `(i, j)`,
`i < M`, `j < N`, exactly once. -/
theorem tileGrid_partition (M N mM mN : Nat) (hmM : 0 < mM) (hmN : 0 < mN) :
    ((tileGrid M N mM mN).flatMap (fun t => blockIndices t.1 t.2.1 t.2.2.1 t.2.2.2)).Perm
      (blockIndices 0 0 M N) := by
  obtain ⟨s', h, hp⟩ := tileLoops_perm (σ := Writes (Nat × Nat)) M N mM mN
    (Or.inr hmM) (Or.inr (Or.inr hmN))
    (fun _ s => some s)
    (fun i j s => some (s ++ offsetWrites (i * N + j)
      (cells (Min M (i + mM) - i) (Min N (j + mN) - j) N (fun r c => (i + r, j + c)))))
    (fun s => s) (fun _ _ => True) (fun i j => (i, j))
    (fun i s _ _ => ⟨s, rfl, trivial, rfl⟩)
    (fun i j s _ _ _ _ _ => ⟨_, rfl, trivial, _, rfl, List.Perm.refl _⟩)
    (M + N + 1) (by omega) (by omega) []
  simp only [Option.some_bind, forLoop_eq_foldlM _ _ _ hmM _ (show M < M + N + 1 by omega),
    forLoop_eq_foldlM _ _ _ hmN _ (show N < M + N + 1 by omega)] at h
  have hinner : ∀ i (s : Writes (Nat × Nat)),
      (tileStarts N mN).foldlM (fun s j => some (s ++ offsetWrites (i * N + j)
        (cells (Min M (i + mM) - i) (Min N (j + mN) - j) N (fun r c => (i + r, j + c))))) s
      = some (s ++ (tileStarts N mN).flatMap (fun j => offsetWrites (i * N + j)
        (cells (Min M (i + mM) - i) (Min N (j + mN) - j) N (fun r c => (i + r, j + c))))) := by
    intro i s
    obtain ⟨s1, h1, hinv⟩ := foldlM_inv (fun s j => some (s ++ offsetWrites (i * N + j)
        (cells (Min M (i + mM) - i) (Min N (j + mN) - j) N (fun r c => (i + r, j + c)))))
      (fun d (s1 : Writes (Nat × Nat)) => s1 = s ++ d.flatMap (fun j => offsetWrites (i * N + j)
        (cells (Min M (i + mM) - i) (Min N (j + mN) - j) N (fun r c => (i + r, j + c)))))
      (tileStarts N mN) [] s
      (fun d j s2 _ hs2 => ⟨_, rfl, by simp [hs2]⟩) (by simp)
    rw [h1, hinv]
    simp
  simp only [hinner] at h
  obtain ⟨s2, h2, hinv⟩ := foldlM_inv (fun (s : Writes (Nat × Nat)) i =>
      some (s ++ (tileStarts N mN).flatMap (fun j => offsetWrites (i * N + j)
        (cells (Min M (i + mM) - i) (Min N (j + mN) - j) N (fun r c => (i + r, j + c))))))
    (fun d (s1 : Writes (Nat × Nat)) => s1 = d.flatMap (fun i =>
      (tileStarts N mN).flatMap (fun j => offsetWrites (i * N + j)
        (cells (Min M (i + mM) - i) (Min N (j + mN) - j) N (fun r c => (i + r, j + c))))))
    (tileStarts M mM) [] []
    (fun d i s2 _ hs2 => ⟨_, rfl, by simp [hs2]⟩) (by simp)
  rw [h2] at h
  have hs' : s' = s2 := (Option.some.inj h).symm
  rw [hs', hinv] at hp
  have hp' := hp.map Prod.snd
  have hc := cells_map_snd 0 0 M N N
  simp only [Nat.zero_add] at hc
  simp only [List.nil_append] at hp'
  rw [hc] at hp'
  refine (List.Perm.of_eq ?_).trans hp'
  simp only [tileGrid, List.flatMap_assoc, List.map_flatMap, List.flatMap_map,
    offsetWrites_map_snd, cells_map_snd]

/-! ## C14 -/

/-- C14: two-level blocking of the Unpack strategy.  On a constructed context with
`macroM = AlignLoAny(L2 / unpSize, microMu) > 0` and
`macroN = AlignLoAny(L3 / unpSize, microNu) > 0`, for every `M`, `N` (and fuel above
them) `CosineDistancesUnpack` returns; its invocations are, in order, one per tile
`(i, j, dM, dN)` of the grid of row-blocks and column-blocks; the index blocks
`[i, i + dM) x [j, j + dN)` of the invocations partition the `M × N` index space;
each invocation is the Unpack macro-kernel on A-side buffers unpacked from
`A + i` with count `dM`, B-side buffers unpacked from `B + j` with count `dN` and
B-norm stride `dN`, output base `i * N + j` and row stride `N`, the A-side norms
being the headers of `A[i .. i + dM)`; and the run is the fold that, for each
row-block in order, runs the A-side unpack once and then the column loop, whose body
unpacks the B side and invokes the kernel. -/
theorem CosineDistancesUnpack_two_level_blocking {V : Type} (base : BaseDescrInt)
    (get : Getters V) (size depth : Nat) (ctx : DescrInt V) (cache : Cache) (mem : Mem)
    (fuel M N : Nat) (A B : PtrArr) (bufs0 : UnpackBufs) (macroM macroN : Nat)
    (hctx : ctx = DescrInt.DescrInt base get size depth)
    (hM : macroM = AlignLoAny (cache.L2 / ctx.unpSize) ctx.microMu)
    (hN : macroN = AlignLoAny (cache.L3 / ctx.unpSize) ctx.microNu)
    (hmM : 0 < macroM) (hmN : 0 < macroN) (hfM : M < fuel) (hfN : N < fuel) :
    ∃ calls, CosineDistancesUnpack ctx cache mem fuel M N A B bufs0 = some calls ∧
      calls.map TileCall.shape = tileGrid M N macroM macroN ∧
      (calls.flatMap (fun c => blockIndices c.row c.col c.dM c.dN)).Perm
        (blockIndices 0 0 M N) ∧
      (∀ c ∈ calls, UnpackCallSpec ctx mem fuel N A B c) ∧
      (∀ c ∈ calls, ∀ b, c.bufs = some b → ∀ r k, r < c.dM → k < 4 →
        b.nA (4 * r + k) = header mem (A (c.row + r)) k) ∧
      CosineDistancesUnpack ctx cache mem fuel M N A B bufs0
        = ((tileStarts M macroM).foldlM (fun st i =>
            (CosineDistancesUnpack.unpackA ctx mem fuel (Min M (i + macroM) - i) A i st).bind
              (fun st => (tileStarts N macroN).foldlM (fun st j =>
                CosineDistancesUnpack.tile ctx mem fuel N (Min M (i + macroM) - i)
                  (Min N (j + macroN) - j) B i j st) st))
            { bufs := bufs0, calls := [] }).map (fun st => st.calls) := by
  have hunp : ctx.unpSize ≠ 0 := divisor_ne_zero_of_pos cache.L2 ctx.unpSize ctx.microMu
    (by rw [← hM]; exact hmM)
  have hnA : ctx.unpackNormA = UnpackNormA := by rw [hctx]; rfl
  have hnB : ctx.unpackNormB = UnpackNormB := by rw [hctx]; rfl
  have hloops : CosineDistancesUnpack ctx cache mem fuel M N A B bufs0
      = (CosineDistancesUnpack.loops ctx mem fuel M N A B bufs0 macroM macroN).map
          (fun st => st.calls) := by
    rw [CosineDistancesUnpack_of_ne ctx cache mem fuel M N A B bufs0 hunp, hM, hN]
    rfl
  obtain ⟨st, hst, hshape, hP⟩ := CosineDistancesUnpack_loops_shape ctx mem fuel M N A B bufs0
    macroM macroN hmM hmN hfM hfN
    (fun count src stride hc => by
      rw [hnA]; exact ⟨_, UnpackNormA_cells mem fuel count src stride hc⟩)
    (fun count src stride hc => by
      rw [hnB]
      obtain ⟨ws, h, _⟩ := UnpackNormB_perm mem fuel count src stride hc
      exact ⟨ws, h⟩)
  refine ⟨st.calls, by rw [hloops, hst]; rfl, hshape, ?_, hP, ?_, ?_⟩
  · have := tileGrid_partition M N macroM macroN hmM hmN
    rw [← hshape, List.flatMap_map] at this
    exact this
  · intro c hc b hb r k hr hk
    obtain ⟨_, _, _, b', wA, wB, nA0, dA0, nB0, dB0, hb', hwA, hbnA, _⟩ := hP c hc
    rw [hb] at hb'
    have hbb : b = b' := Option.some.inj hb'
    have hin : c.shape ∈ tileGrid M N macroM macroN := by
      rw [← hshape]; exact List.mem_map_of_mem _ hc
    obtain ⟨hrow, _, hdm, _⟩ := (tileGrid_facts M N macroM macroN hmM hmN).2.1 _ hin
    have hrow' := mem_tileStarts M macroM _ hmM hrow
    simp only [TileCall.shape, Min_eq_min] at hrow' hdm
    obtain ⟨ws, hws, hval⟩ := UnpackNormA_values mem fuel c.dM (A.shift c.row) 1 (by omega)
    rw [hnA, hws] at hwA
    rw [hbb, hbnA, ← Option.some.inj hwA]
    exact hval nA0 r k hr hk
  · rw [hloops, CosineDistancesUnpack_loops_eq_foldlM ctx mem fuel M N A B bufs0 macroM macroN
      hmM hmN hfM hfN]

/-- C14, witness: the sample context with the small cache (`macroM = 10`,
`macroN = 24`) on a `12 x 30` problem: four tiles. -/
theorem CosineDistancesUnpack_two_level_blocking_witness :
    ∃ calls, CosineDistancesUnpack sampleCtx smallCache sampleMem 31 12 30 sampleA sampleB
        sampleBufs = some calls ∧
      calls.map TileCall.shape
        = [(0, 0, 10, 24), (0, 24, 10, 6), (10, 0, 2, 24), (10, 24, 2, 6)] ∧
      (calls.flatMap (fun c => blockIndices c.row c.col c.dM c.dN)).Perm
        (blockIndices 0 0 12 30) := by
  obtain ⟨calls, h, hshape, hpart, _⟩ :=
    CosineDistancesUnpack_two_level_blocking sampleBase sampleGetters 8 6 sampleCtx smallCache
      sampleMem 31 12 30 sampleA sampleB sampleBufs 10 24 rfl (by decide) (by decide)
      (by decide) (by decide) (by decide) (by decide)
  exact ⟨calls, h, hshape.trans (by decide), hpart⟩

/-! ## C19 -/

/-- C19: the temporary buffers of the Unpack strategy are large enough for every
tile.  On a constructed context with positive `macroM`, `macroN`, for every `M`, `N`
(and fuel above them) every invocation has `dM <= Min(macroM, M)` and
`dN <= Min(macroN, N)`; the `UnpackNormA` of its row-block stores only at indices
`< 4 * dM`, inside `nA` of length `4 * Min(macroM, M)`; the `UnpackNormB` of the
tile, called with stride `dN`, stores only at indices `k * dN + i`, `k < 4`,
`i < dN`, which are `< 4 * dN`, inside `nB` of length
`4 * AlignHi(Min(macroN, N), microNu)`; and `dM * unpSize`, `dN * unpSize` do not
exceed the lengths of `dA`, `dB`. -/
theorem CosineDistancesUnpack_buffers_suffice {V : Type} (base : BaseDescrInt)
    (get : Getters V) (size depth : Nat) (ctx : DescrInt V) (cache : Cache) (mem : Mem)
    (fuel M N : Nat) (A B : PtrArr) (bufs0 : UnpackBufs) (macroM macroN : Nat)
    (hctx : ctx = DescrInt.DescrInt base get size depth)
    (hM : macroM = AlignLoAny (cache.L2 / ctx.unpSize) ctx.microMu)
    (hN : macroN = AlignLoAny (cache.L3 / ctx.unpSize) ctx.microNu)
    (hmM : 0 < macroM) (hmN : 0 < macroN) (hfM : M < fuel) (hfN : N < fuel) :
    ∃ calls, CosineDistancesUnpack ctx cache mem fuel M N A B bufs0 = some calls ∧
      ∀ c ∈ calls,
        c.dM ≤ Min macroM M ∧ c.dN ≤ Min macroN N ∧
        (∃ wA, ctx.unpackNormA mem fuel c.dM (A.shift c.row) 1 = some wA ∧
          ∀ w ∈ wA, w.1 < 4 * c.dM ∧
            w.1 < (CosineDistancesUnpack.bufSizes ctx M N macroM macroN).nA) ∧
        (∃ wB, ctx.unpackNormB mem fuel c.dN (B.shift c.col) c.dN = some wB ∧
          ∀ w ∈ wB, (∃ k i, k < 4 ∧ i < c.dN ∧ w.1 = k * c.dN + i) ∧ w.1 < 4 * c.dN ∧
            w.1 < (CosineDistancesUnpack.bufSizes ctx M N macroM macroN).nB) ∧
        c.dM * ctx.unpSize ≤ (CosineDistancesUnpack.bufSizes ctx M N macroM macroN).dA ∧
        c.dN * ctx.unpSize ≤ (CosineDistancesUnpack.bufSizes ctx M N macroM macroN).dB := by
  have hunp : ctx.unpSize ≠ 0 := divisor_ne_zero_of_pos cache.L2 ctx.unpSize ctx.microMu
    (by rw [← hM]; exact hmM)
  have hnA : ctx.unpackNormA = UnpackNormA := by rw [hctx]; rfl
  have hnB : ctx.unpackNormB = UnpackNormB := by rw [hctx]; rfl
  have hNu : ctx.microNu = 8 := by rw [hctx]; rfl
  have hloops : CosineDistancesUnpack ctx cache mem fuel M N A B bufs0
      = (CosineDistancesUnpack.loops ctx mem fuel M N A B bufs0 macroM macroN).map
          (fun st => st.calls) := by
    rw [CosineDistancesUnpack_of_ne ctx cache mem fuel M N A B bufs0 hunp, hM, hN]
    rfl
  obtain ⟨st, hst, hshape, hP⟩ := CosineDistancesUnpack_loops_shape ctx mem fuel M N A B bufs0
    macroM macroN hmM hmN hfM hfN
    (fun count src stride hc => by
      rw [hnA]; exact ⟨_, UnpackNormA_cells mem fuel count src stride hc⟩)
    (fun count src stride hc => by
      rw [hnB]
      obtain ⟨ws, h, _⟩ := UnpackNormB_perm mem fuel count src stride hc
      exact ⟨ws, h⟩)
  refine ⟨st.calls, by rw [hloops, hst]; rfl, ?_⟩
  intro c hc
  have hin : c.shape ∈ tileGrid M N macroM macroN := by
    rw [← hshape]; exact List.mem_map_of_mem _ hc
  obtain ⟨hrow, hcol, hdm, hdn⟩ := (tileGrid_facts M N macroM macroN hmM hmN).2.1 _ hin
  have hrow' := mem_tileStarts M macroM _ hmM hrow
  have hcol' := mem_tileStarts N macroN _ hmN hcol
  simp only [TileCall.shape, Min_eq_min] at hrow' hcol' hdm hdn
  have hdM : c.dM ≤ min macroM M := by omega
  have hdN : c.dN ≤ min macroN N := by omega
  have hhi : min macroN N ≤ AlignHi (min macroN N) 8 := by unfold AlignHi; omega
  refine ⟨by rw [Min_eq_min]; exact hdM, by rw [Min_eq_min]; exact hdN, ?_, ?_, ?_, ?_⟩
  · refine ⟨_, by rw [hnA]; exact UnpackNormA_cells mem fuel c.dM (A.shift c.row) 1 (by omega), ?_⟩
    intro w hw
    have := (perm_cells_facts c.dM 4 (fun i k => header mem ((A.shift c.row) i) k) _
      (List.Perm.refl _)).2.2 w hw
    simp only [CosineDistancesUnpack.bufSizes, Min_eq_min]
    omega
  · obtain ⟨wB, hwB, hperm⟩ := UnpackNormB_perm mem fuel c.dN (B.shift c.col) c.dN (by omega)
    refine ⟨wB, by rw [hnB]; exact hwB, ?_⟩
    intro w hw
    obtain ⟨k, i, hk, hi, hwe⟩ := (perm_cells_strided_facts 4 c.dN c.dN _ wB (Nat.le_refl _)
      hperm).2 w hw
    have hw1 : w.1 = k * c.dN + i := by rw [hwe]
    have hlt : k * c.dN + i < 4 * c.dN := by
      have : k * c.dN ≤ 3 * c.dN := Nat.mul_le_mul_right _ (by omega)
      omega
    refine ⟨⟨k, i, hk, hi, hw1⟩, by omega, ?_⟩
    simp only [CosineDistancesUnpack.bufSizes, Min_eq_min, hNu]
    omega
  · simp only [CosineDistancesUnpack.bufSizes, Min_eq_min]
    exact Nat.mul_le_mul_right _ hdM
  · simp only [CosineDistancesUnpack.bufSizes, Min_eq_min]
    exact Nat.mul_le_mul_right _ hdN

/-- C19, witness: the sample context with the small cache on a `12 x 30` problem;
the buffers hold `80` and `192` bytes of data. -/
theorem CosineDistancesUnpack_buffers_suffice_witness :
    ∃ calls, CosineDistancesUnpack sampleCtx smallCache sampleMem 31 12 30 sampleA sampleB
        sampleBufs = some calls ∧
      ∀ c ∈ calls, c.dM ≤ 10 ∧ c.dN ≤ 24 ∧ c.dM * 8 ≤ 80 ∧ c.dN * 8 ≤ 192 := by
  obtain ⟨calls, h, hall⟩ :=
    CosineDistancesUnpack_buffers_suffice sampleBase sampleGetters 8 6 sampleCtx smallCache
      sampleMem 31 12 30 sampleA sampleB sampleBufs 10 24 rfl (by decide) (by decide)
      (by decide) (by decide) (by decide) (by decide)
  exact ⟨calls, h, fun c hc => ⟨(hall c hc).1, (hall c hc).2.1, (hall c hc).2.2.2.2.1,
    (hall c hc).2.2.2.2.2⟩⟩

/-! ## C18 -/

/-- C18 as stated fails in its last clause: with `L2 = 66` bytes and the sample context
(`encSize = 22`), `L2 / encSize = 3 < 4 = microNd`, the column tile size `mN` of
`CosineDistancesDirect` is 0, but its row tile size `mM = AlignLoAny(3, 2)` is 2, not
0. -/
theorem tileSteps_direct_row_step_positive :
    tinyCache.L2 / sampleCtx.encSize < sampleCtx.microNd ∧
    AlignLoAny (tinyCache.L2 / sampleCtx.encSize) sampleCtx.microMd = 2 ∧
    (tileSteps sampleCtx tinyCache Strategy.direct).1 ≠ 0 ∧
    (tileSteps sampleCtx tinyCache Strategy.direct).2 = 0 := by
  decide

/-- C18, amended: the dispatch heuristic guarantees positive Unpack tile steps.  On a
constructed context, whenever `CosineDistancesMxNa` selects the Unpack strategy and
`unpSize > 0`, `L1 <= L2`, `L1 <= L3`: `unpSize * microNu <= L1`, `5 <= depth`,
`depth != 8` (so `5 <= depth <= 7` for a depth up to 8), `microMu = 5`, `microNu = 8`,
`macroM = AlignLoAny(L2 / unpSize, microMu) >= microMu` and
`macroN = AlignLoAny(L3 / unpSize, microNu) >= microNu`, so both Unpack loops
strictly advance and the call returns for every `M` (with fuel above `M` and `N`).
No such guarantee holds for the tile sizes of `CosineDistancesDirect`: `mN` is 0
when `L2 / encSize < microNd`, and `mM` is 0 when `L2 / encSize < microMd`. -/
theorem selectStrategy_unpack_advances {V : Type} (base : BaseDescrInt) (get : Getters V)
    (size depth : Nat) (ctx : DescrInt V) (cache : Cache) (N : Nat)
    (hctx : ctx = DescrInt.DescrInt base get size depth)
    (hsel : selectStrategy ctx cache N = Strategy.unpack)
    (hunp : 0 < ctx.unpSize) (h12 : cache.L1 ≤ cache.L2) (h13 : cache.L1 ≤ cache.L3) :
    (ctx.unpSize * ctx.microNu ≤ cache.L1 ∧ 5 ≤ depth ∧ depth ≠ 8 ∧ (depth ≤ 8 → depth ≤ 7)
      ∧ ctx.microMu = 5 ∧ ctx.microNu = 8) ∧
    ctx.microMu ≤ AlignLoAny (cache.L2 / ctx.unpSize) ctx.microMu ∧
    ctx.microNu ≤ AlignLoAny (cache.L3 / ctx.unpSize) ctx.microNu ∧
    Advances ctx cache Strategy.unpack 1 1 ∧
    (∀ mem fuel M A B bufs0, M < fuel → N < fuel →
      ∃ calls, CosineDistancesMxNa ctx cache mem fuel M N A B bufs0 = some calls) ∧
    (cache.L2 / ctx.encSize < ctx.microNd →
      AlignLoAny (cache.L2 / ctx.encSize) ctx.microNd = 0) ∧
    (cache.L2 / ctx.encSize < ctx.microMd →
      AlignLoAny (cache.L2 / ctx.encSize) ctx.microMd = 0) := by
  have hNu : ctx.microNu = 8 := by rw [hctx]; rfl
  have hMu' : ctx.microMu = if depth = 8 then 6 else 5 := by rw [hctx]; rfl
  have hdepth : ctx.depth = depth := by rw [hctx]; rfl
  have hsel' : ¬ (ctx.unpSize * ctx.microNu > cache.L1 ∨ N * 2 < ctx.microNu ∨ ctx.depth < 5
      ∨ ctx.depth = 8) := by
    intro h
    simp [selectStrategy, h] at hsel
  rw [hdepth, hNu] at hsel'
  have hL1 : ctx.unpSize * 8 ≤ cache.L1 := by omega
  have hd5 : 5 ≤ depth := by omega
  have hd8 : depth ≠ 8 := by omega
  have hMu : ctx.microMu = 5 := by rw [hMu']; simp [hd8]
  have hq2 : 8 ≤ cache.L2 / ctx.unpSize :=
    (Nat.le_div_iff_mul_le hunp).2 (by rw [Nat.mul_comm]; omega)
  have hq3 : 8 ≤ cache.L3 / ctx.unpSize :=
    (Nat.le_div_iff_mul_le hunp).2 (by rw [Nat.mul_comm]; omega)
  have hmM : 5 ≤ AlignLoAny (cache.L2 / ctx.unpSize) 5 := by unfold AlignLoAny; omega
  have hmN : 8 ≤ AlignLoAny (cache.L3 / ctx.unpSize) 8 := by unfold AlignLoAny; omega
  have hnA : ctx.unpackNormA = UnpackNormA := by rw [hctx]; rfl
  have hnB : ctx.unpackNormB = UnpackNormB := by rw [hctx]; rfl
  refine ⟨⟨by rw [hNu]; exact hL1, hd5, hd8, fun h => by omega, hMu, hNu⟩,
    by rw [hMu]; exact hmM, by rw [hNu]; exact hmN, ?_, ?_, ?_, ?_⟩
  · refine ⟨Nat.pos_iff_ne_zero.1 hunp, Or.inr ⟨?_, Or.inr ?_⟩⟩
    · show 0 < AlignLoAny (cache.L2 / ctx.unpSize) ctx.microMu
      rw [hMu]; omega
    · show 0 < AlignLoAny (cache.L3 / ctx.unpSize) ctx.microNu
      rw [hNu]; omega
  · intro mem fuel M A B bufs0 hfM hfN
    obtain ⟨st, hst, _⟩ := CosineDistancesUnpack_loops_shape ctx mem fuel M N A B bufs0
      (AlignLoAny (cache.L2 / ctx.unpSize) ctx.microMu)
      (AlignLoAny (cache.L3 / ctx.unpSize) ctx.microNu)
      (by rw [hMu]; omega) (by rw [hNu]; omega) hfM hfN
      (fun count src stride hc => by
        rw [hnA]; exact ⟨_, UnpackNormA_cells mem fuel count src stride hc⟩)
      (fun count src stride hc => by
        rw [hnB]
        obtain ⟨ws, h, _⟩ := UnpackNormB_perm mem fuel count src stride hc
        exact ⟨ws, h⟩)
    refine ⟨st.calls, ?_⟩
    rw [CosineDistancesMxNa_unpack ctx cache mem fuel M N A B bufs0 hsel,
      CosineDistancesUnpack_of_ne ctx cache mem fuel M N A B bufs0 (Nat.pos_iff_ne_zero.1 hunp)]
    show Option.map _ (CosineDistancesUnpack.loops ctx mem fuel M N A B bufs0
      (AlignLoAny (cache.L2 / ctx.unpSize) ctx.microMu)
      (AlignLoAny (cache.L3 / ctx.unpSize) ctx.microNu)) = _
    rw [hst]
    rfl
  · intro h
    unfold AlignLoAny
    rw [Nat.div_eq_of_lt h, Nat.zero_mul]
  · intro h
    unfold AlignLoAny
    rw [Nat.div_eq_of_lt h, Nat.zero_mul]

/-- C18, witness: the sample context (`unpSize = 8`) with the sample cache and
`N = 5`. -/
theorem selectStrategy_unpack_advances_witness :
    selectStrategy sampleCtx sampleCache 5 = Strategy.unpack ∧
    5 ≤ AlignLoAny (sampleCache.L2 / sampleCtx.unpSize) sampleCtx.microMu ∧
    8 ≤ AlignLoAny (sampleCache.L3 / sampleCtx.unpSize) sampleCtx.microNu ∧
    ∃ calls, CosineDistancesMxNa sampleCtx sampleCache sampleMem 6 3 5 sampleA sampleB
      sampleBufs = some calls := by
  obtain ⟨_, hM, hN, _, hret, _⟩ :=
    selectStrategy_unpack_advances sampleBase sampleGetters 8 6 sampleCtx sampleCache 5 rfl
      (by decide) (by decide) (by decide) (by decide)
  exact ⟨by decide, hM, hN, hret sampleMem 6 3 sampleA sampleB sampleBufs (by decide)
    (by decide)⟩

/-! ## C12 -/

theorem foldl_min_le {α : Type} [LinearOrderedField α] (l : List α) (a : α) :
    l.foldl min a ≤ a ∧ ∀ x ∈ l, l.foldl min a ≤ x := by
  induction l generalizing a with
  | nil => simp
  | cons b l ih =>
    obtain ⟨h1, h2⟩ := ih (min a b)
    refine ⟨le_trans h1 (min_le_left _ _), ?_⟩
    intro x hx
    rcases List.mem_cons.1 hx with rfl | hx
    · exact le_trans h1 (min_le_right _ _)
    · exact h2 x hx

theorem le_foldl_max {α : Type} [LinearOrderedField α] (l : List α) (a : α) :
    a ≤ l.foldl max a ∧ ∀ x ∈ l, x ≤ l.foldl max a := by
  induction l generalizing a with
  | nil => simp
  | cons b l ih =>
    obtain ⟨h1, h2⟩ := ih (max a b)
    refine ⟨le_trans (le_max_left _ _) h1, ?_⟩
    intro x hx
    rcases List.mem_cons.1 hx with rfl | hx
    · exact le_trans (le_max_right _ _) h1
    · exact h2 x hx

theorem vecMin_le {α : Type} [LinearOrderedField α] (v : List α) (x : α) (hx : x ∈ v) :
    vecMin v ≤ x := by
  cases v with
  | nil => simp at hx
  | cons a l =>
    rcases List.mem_cons.1 hx with rfl | hx
    · exact (foldl_min_le l x).1
    · exact (foldl_min_le l a).2 x hx

theorem le_vecMax {α : Type} [LinearOrderedField α] (v : List α) (x : α) (hx : x ∈ v) :
    x ≤ vecMax v := by
  cases v with
  | nil => simp at hx
  | cons a l =>
    rcases List.mem_cons.1 hx with rfl | hx
    · exact (le_foldl_max l x).1
    · exact (le_foldl_max l a).2 x hx

/-- The error of one component after quantization and reconstruction. -/
theorem quantize_error {α : Type} [LinearOrderedField α] [FloorRing α] (depth : Nat)
    (hdepth : 0 < depth) (lo hi x : α) (hlo : lo ≤ x) (hhi : x ≤ hi) :
    |lo + ((quantize depth lo hi x : Int) : α) * (hi - lo) / (2 ^ depth - 1) - x|
      ≤ (hi - lo) / (2 ^ depth - 1) := by
  have hn1 : (1 : α) ≤ 2 ^ depth - 1 := by
    have : (2 : α) ≤ 2 ^ depth := by
      calc (2 : α) = 2 ^ 1 := (pow_one _).symm
        _ ≤ 2 ^ depth := pow_le_pow_right₀ (by norm_num) hdepth
    linarith
  have hn : (0 : α) < 2 ^ depth - 1 := lt_of_lt_of_le zero_lt_one hn1
  rcases eq_or_lt_of_le (le_trans hlo hhi) with hs | hs
  · have hx : x = lo := le_antisymm (hs ▸ hhi) hlo
    rw [← hs, hx]
    simp
  · have hs0 : (0 : α) < hi - lo := sub_pos.2 hs
    set t : α := (x - lo) / (hi - lo) * (2 ^ depth - 1) with ht
    have ht0 : 0 ≤ t := by
      rw [ht]
      exact mul_nonneg (div_nonneg (sub_nonneg.2 hlo) hs0.le) hn.le
    have htn : t ≤ 2 ^ depth - 1 := by
      rw [ht]
      have : (x - lo) / (hi - lo) ≤ 1 := (div_le_one hs0).2 (by linarith)
      calc (x - lo) / (hi - lo) * (2 ^ depth - 1) ≤ 1 * (2 ^ depth - 1) :=
            mul_le_mul_of_nonneg_right this hn.le
        _ = 2 ^ depth - 1 := one_mul _
    have hround : |t - (round t : α)| ≤ 1 / 2 := abs_sub_round t
    have hcode : |((quantize depth lo hi x : Int) : α) - t| ≤ 1 / 2 := by
      have hq : quantize depth lo hi x = max 0 (min (2 ^ depth - 1) (round t)) := rfl
      rw [hq]
      rw [abs_le] at hround ⊢
      obtain ⟨hr1, hr2⟩ := hround
      push_cast
      rcases le_total (0 : α) (min (2 ^ depth - 1) (round t : α)) with h0 | h0
      · rw [max_eq_right h0]
        rcases le_total ((2 : α) ^ depth - 1) (round t : α) with h1 | h1
        · rw [min_eq_left h1]
          constructor <;> linarith
        · rw [min_eq_right h1]
          constructor <;> linarith
      · rw [max_eq_left h0]
        rcases le_total ((2 : α) ^ depth - 1) (round t : α) with h1 | h1
        · rw [min_eq_left h1] at h0
          linarith
        · rw [min_eq_right h1] at h0
          constructor <;> linarith
    have hx : t * (hi - lo) / (2 ^ depth - 1) = x - lo := by
      rw [ht]
      field_simp
    have hdiff : lo + ((quantize depth lo hi x : Int) : α) * (hi - lo) / (2 ^ depth - 1) - x
        = (((quantize depth lo hi x : Int) : α) - t) * ((hi - lo) / (2 ^ depth - 1)) := by
      have h1 : lo + ((quantize depth lo hi x : Int) : α) * (hi - lo) / (2 ^ depth - 1) - x
          = ((quantize depth lo hi x : Int) : α) * (hi - lo) / (2 ^ depth - 1) - (x - lo) := by
        ring
      rw [h1, ← hx]
      ring
    rw [hdiff, abs_mul, abs_of_nonneg (div_nonneg hs0.le hn.le)]
    calc |((quantize depth lo hi x : Int) : α) - t| * ((hi - lo) / (2 ^ depth - 1))
        ≤ 1 / 2 * ((hi - lo) / (2 ^ depth - 1)) :=
          mul_le_mul_of_nonneg_right hcode (div_nonneg hs0.le hn.le)
      _ ≤ (hi - lo) / (2 ^ depth - 1) := by
          have := div_nonneg hs0.le hn.le
          linarith

/-- C12: round-trip bound.  For every depth `>= 1` (so every valid depth) and every
vector `v` over an ordered field with a floor (the reals, the rationals), every component of
`Decode(Encode(v))` differs from the corresponding component of `v` by at most
`(max(v) - min(v)) / (2^depth - 1)`; the two vectors have the same length.  This
includes the constant vector, where `max(v) = min(v)` and the decoded component is
`min(v)` whatever the code is. -/
theorem Decode_Encode_bound {α : Type} [LinearOrderedField α] [FloorRing α] (depth : Nat)
    (v : List α) (hdepth : 0 < depth) :
    List.Forall₂ (fun y x => |y - x| ≤ (vecMax v - vecMin v) / (2 ^ depth - 1))
      (Decode depth (Encode depth v)) v := by
  unfold Decode Encode
  simp only [List.map_map, List.forall₂_map_left_iff, List.forall₂_same, Function.comp]
  intro x hx
  exact quantize_error depth hdepth (vecMin v) (vecMax v) x (vecMin_le v x hx)
    (le_vecMax v x hx)

/-- C12, witness: a vector of 8 rationals at depth 4. -/
theorem Decode_Encode_bound_witness :
    List.Forall₂ (fun y x => |y - x| ≤ (vecMax sampleReals - vecMin sampleReals) / (2 ^ 4 - 1))
      (Decode 4 (Encode 4 sampleReals)) sampleReals :=
  Decode_Encode_bound 4 sampleReals (by decide)

/-! ## C21 -/

theorem Base.CreateImageLoader_eq {L F : Type} (param : ImageLoaderParam F) :
    (Base.CreateImageLoader param : Option L) = none := by
  unfold Base.CreateImageLoader
  cases param.file <;> rfl

/-- C21: the in-memory image loader is a stub.  `CreateImageLoader` returns `NULL`
for every `ImageLoaderParam` (each of the four PGM/PPM tags and the default), hence
`Base::ImageLoadFromMemory` returns `NULL` for every input buffer, whatever the
methods of the loader class do, and leaves `*stride`, `*width`, `*height` and
`*format` unchanged; this includes a buffer that starts with the recognised header
`P5`, for which the constructor of the parameter sets the tag `SimdImageFilePgmBin`. -/
theorem ImageLoadFromMemory_stub {L R F : Type} (ops : ImageLoaderOps L R F) (mem : Mem)
    (data size : Nat) (outs : ImageOuts F) (param : ImageLoaderParam F) :
    (Base.CreateImageLoader param : Option L) = none ∧
    Base.ImageLoadFromMemory ops mem data size outs = (none, outs) ∧
    (ImageLoaderParam.ImageLoaderParam pgmMem 100 2 outs.format).1.file
      = SimdImageFileType.SimdImageFilePgmBin ∧
    Base.ImageLoadFromMemory ops pgmMem 100 2 outs = (none, outs) := by
  have h : ∀ mem data size, Base.ImageLoadFromMemory ops mem data size outs = (none, outs) := by
    intro mem data size
    unfold Base.ImageLoadFromMemory
    simp only [Base.CreateImageLoader_eq]
    split <;> rfl
  refine ⟨Base.CreateImageLoader_eq param, h mem data size, ?_, h _ _ _⟩
  simp [ImageLoaderParam.ImageLoaderParam, ImageLoaderParam.test, byteAt, pgmMem]

/-! ## C22 -/

/-- The function `ImageLoadFromFile` on a path that can be opened: whatever the file
held, it is empty afterwards, and the loader has been invoked once, on the empty
buffer. -/
theorem ImageLoadFromFile_truncates {P R F : Type} [DecidableEq P]
    (loader : ImageLoadFromMemoryPtr R F) (path : P) (outs : ImageOuts F) (buf0 : Nat → Nat)
    (fs : FileSys P) (hopen : fs.denied path = false) :
    (ImageLoadFromFile loader path outs buf0 fs).fs.contents path = some [] ∧
    (ImageLoadFromFile loader path outs buf0 fs).calls = [[]] ∧
    (ImageLoadFromFile loader path outs buf0 fs).data = (loader [] outs).1 ∧
    (ImageLoadFromFile loader path outs buf0 fs).outs = (loader [] outs).2 := by
  simp [ImageLoadFromFile, fopen, hopen, fseek, ftell, fread, fclose, FILE.bytes]

/-- The function `ImageLoadFromFile` on a path that cannot be opened returns `NULL`
without invoking the loader, and changes nothing. -/
theorem ImageLoadFromFile_denied {P R F : Type} [DecidableEq P]
    (loader : ImageLoadFromMemoryPtr R F) (path : P) (outs : ImageOuts F) (buf0 : Nat → Nat)
    (fs : FileSys P) (hopen : fs.denied path = true) :
    ImageLoadFromFile loader path outs buf0 fs
      = { data := none, outs := outs, fs := fs, calls := [] } := by
  simp [ImageLoadFromFile, fopen, hopen]

/-- C22 fails on the code: `ImageLoadFromFile` opens the file with the mode `"wr"`,
which truncates it.  On the file `image.pgm` of 12 bytes the call leaves an empty
file, and the loader is invoked on a buffer of length 0 (the sample loader returns
that length), not on the 12 bytes the file held before the call. -/
theorem ImageLoadFromFile_sample_truncates :
    sampleFiles.contents "image.pgm"
      = some [80, 53, 10, 49, 32, 49, 10, 50, 53, 53, 10, 7] ∧
    (ImageLoadFromFile sampleLoader "image.pgm" sampleOuts (fun _ => 0) sampleFiles).fs.contents
      "image.pgm" = some [] ∧
    (ImageLoadFromFile sampleLoader "image.pgm" sampleOuts (fun _ => 0) sampleFiles).calls
      = [[]] ∧
    (ImageLoadFromFile sampleLoader "image.pgm" sampleOuts (fun _ => 0) sampleFiles).data
      = some 0 := by
  obtain ⟨h1, h2, h3, _⟩ := ImageLoadFromFile_truncates sampleLoader "image.pgm" sampleOuts
    (fun _ => 0) sampleFiles rfl
  exact ⟨by simp [sampleFiles], h1, h2, h3⟩

end Simd
